import Mathlib

/-!
# IotWebConf parameter tree (`IotWebConfParameter.cpp`)

A shallow embedding of the configuration-parameter classes of
`src/IotWebConfParameter.cpp` and theorems about them.

* C strings and Arduino `String`s are lists of characters (`Str`); the
  terminating NUL of a `const char*` is implicit, the bytes of a `char*`
  buffer are explicit.
* Objects live in a heap (`Heap`), a list of `ConfigItem` records addressed
  by their index (`Ptr`); `NULL` is `none`.
* `int` values are `Int`; additions on `int` are reduced to the 32-bit
  two's complement range with `wrapInt`, as the compiled code does. A
  capacity handed to `strncpy`/`toCharArray` is converted with `Int.toNat`,
  which is the C conversion on every non-negative capacity.
* Loops over pointer chains carry a fuel argument and return `none` when it
  runs out or when a dangling pointer is dereferenced.
-/

namespace iotwebconf

/-! ## Strings and buffers -/

/-- Contents of a C string or of an Arduino `String`. -/
abbrev Str := List Char

/-- The string terminator `'\0'`. -/
def NUL : Char := Char.ofNat 0

/-- Address of a `ConfigItem` in the heap. -/
abbrev Ptr := Nat

/-- The least value of an `int` (32 bits on the ESP8266 and ESP32). -/
def INT_MIN : Int := -2147483648

/-- The greatest value of an `int`. -/
def INT_MAX : Int := 2147483647

/-- The `int` that a 32-bit two's complement addition leaves for the
mathematical result `x`: `x` itself inside `INT_MIN .. INT_MAX`, wrapped
around modulo `2^32` outside. -/
def wrapInt (x : Int) : Int := (x + 2147483648) % 4294967296 - 2147483648

/-- Writing the bytes `bs` at the start of the buffer `buf`: the buffer keeps
its capacity, bytes past its end do not belong to it. -/
def poke (buf bs : List Char) : List Char :=
  (bs ++ buf.drop bs.length).take buf.length

/-- The `n` bytes that the C library `strncpy(dst, src, n)` stores at `dst`:
the bytes of `src` up to its terminator, at most `n` of them, padded with
NUL up to `n` bytes. No terminator is stored when `src` has `n` or more
bytes. -/
def strncpyBytes : Str → Nat → List Char
  | _, 0 => []
  | [], n + 1 => NUL :: strncpyBytes [] n
  | c :: cs, n + 1 =>
    if c = NUL then NUL :: strncpyBytes [] n else c :: strncpyBytes cs n

/-- C library `strncpy(dst, src, n)` on a destination buffer. -/
def strncpy (dst : List Char) (src : Str) (n : Nat) : List Char :=
  poke dst (strncpyBytes src n)

/-- Arduino `String::toCharArray(buf, bufsize)` (that is `getBytes` at index
0): nothing for `bufsize = 0`; `buf[0] = 0` for the empty string; otherwise
`n = min(bufsize - 1, len)`, `strncpy(buf, s, n)`, `buf[n] = 0`. -/
def toCharArray (s : Str) (buf : List Char) (bufsize : Nat) : List Char :=
  if bufsize = 0 then buf
  else if s.length = 0 then buf.set 0 NUL
  else
    let n := min (bufsize - 1) s.length
    (strncpy buf s n).set n NUL

/-- The C string held by a buffer: the bytes before the first NUL. -/
def cstr (buf : List Char) : Str := buf.takeWhile (fun c => c != NUL)

/-- C library `strncmp(a, b, n) == 0`: the two C strings agree on their
first `n` bytes, or up to and including their terminators. -/
def strncmpEq : Str → Str → Nat → Bool
  | _, _, 0 => true
  | [], [], _ + 1 => true
  | [], b :: _, _ + 1 => b == NUL
  | a :: _, [], _ + 1 => a == NUL
  | a :: as, b :: bs, n + 1 =>
    if a == NUL then b == NUL
    else if a == b then strncmpEq as bs n else false

/-- Replacing every occurrence of `find`, left to right, in the remaining
text: `k` counts the bytes of a match still to be dropped. -/
def replaceGo (find repl : Str) : Nat → Str → Str
  | _, [] => []
  | k + 1, _ :: cs => replaceGo find repl k cs
  | 0, c :: cs =>
    if find.isPrefixOf (c :: cs) then repl ++ replaceGo find repl (find.length - 1) cs
    else c :: replaceGo find repl 0 cs

/-- A `replace` for `Templates`: every occurrence of `find`, left to right,
is replaced; an empty `find` changes nothing. -/
def replaceAll (s find repl : Str) : Str :=
  if find = [] then s else replaceGo find repl 0 s

/-! ## Objects -/

/-- The dynamic class of a `ConfigItem`. -/
inductive Kind
  | group | text | number | password | checkbox | select
  deriving DecidableEq, Repr

/-- One object of the `ConfigItem` hierarchy: the members of `ConfigItem`,
`ParameterGroup`, `Parameter`, `TextParameter` and `OptionsParameter`. -/
structure ConfigItem where
  kind : Kind
  _id : Str
  visible : Bool
  _parentItem : Option Ptr
  _nextItem : Option Ptr
  label : Option Str
  _firstItem : Option Ptr
  valueBuffer : List Char
  _length : Int
  defaultValue : Option Str
  errorMessage : Option Str
  placeholder : Option Str
  customHtml : Option Str
  _optionValues : List Char
  _optionNames : List Char
  _optionCount : Nat
  _nameLength : Nat
  deriving DecidableEq, Repr

/-- The object store: `h[p]?` is the object at address `p`. -/
abbrev Heap := List ConfigItem

/-- `ConfigItem::getId`. -/
def ConfigItem.getId (p : ConfigItem) : Str := p._id

/-- `Parameter::getLength`. -/
def ConfigItem.getLength (p : ConfigItem) : Int := p._length

/-- `ParameterGroup::ParameterGroup(id, label)`. -/
def ParameterGroup.new (id : Str) (label : Option Str) : ConfigItem :=
  { kind := Kind.group, _id := id, visible := true, _parentItem := none, _nextItem := none,
    label := label, _firstItem := none, valueBuffer := [], _length := 0,
    defaultValue := none, errorMessage := none, placeholder := none, customHtml := none,
    _optionValues := [], _optionNames := [], _optionCount := 0, _nameLength := 0 }

/-- `Parameter::Parameter(label, id, valueBuffer, length, defaultValue)` followed by the
`TextParameter` constructor body, for the dynamic class `k`. -/
def TextParameter.new (k : Kind) (label : Option Str) (id : Str) (valueBuffer : List Char)
    (length : Int) (defaultValue placeholder customHtml : Option Str) : ConfigItem :=
  { kind := k, _id := id, visible := true, _parentItem := none, _nextItem := none,
    label := label, _firstItem := none, valueBuffer := valueBuffer, _length := length,
    defaultValue := defaultValue, errorMessage := none, placeholder := placeholder,
    customHtml := customHtml,
    _optionValues := [], _optionNames := [], _optionCount := 0, _nameLength := 0 }

/-! ## `Parameter` and its variants: buffer operations -/

/-- `Parameter::applyDefaultValue`. -/
def Parameter.applyDefaultValue (p : ConfigItem) : ConfigItem :=
  match p.defaultValue with
  | some d => { p with valueBuffer := strncpy p.valueBuffer d p.getLength.toNat }
  | none => { p with valueBuffer := p.valueBuffer.set 0 NUL }

/-- `TextParameter::update(String newValue)`. -/
def TextParameter.update (p : ConfigItem) (newValue : Str) : ConfigItem :=
  { p with valueBuffer := toCharArray newValue p.valueBuffer p.getLength.toNat }

/-- `PasswordParameter::update(String newValue)`. The local array
`char temp[getLength()]` starts with indeterminate contents `temp0`. -/
def PasswordParameter.update (p : ConfigItem) (temp0 : List Char) (newValue : Str) :
    ConfigItem :=
  let temp := toCharArray newValue temp0 p.getLength.toNat
  if temp.head? ≠ some NUL then
    { p with valueBuffer := strncpy p.valueBuffer temp p.getLength.toNat }
  else p

/-- `CheckboxParameter::update(String newValue)`. -/
def CheckboxParameter.update (p : ConfigItem) (newValue : Str) : ConfigItem :=
  TextParameter.update p newValue

/-! ## Rendering of parameters -/

/-- The request capability `WebRequestWrapper`: `hasArg` and `arg`. What
`sendContent` has emitted is threaded separately as a list of chunks. -/
structure WebRequestWrapper where
  hasArg : Str → Bool
  arg : Str → Str

/-- What the renderers take from outside the sources, as parameters: the
HTML template constants (`IOTWEBCONF_HTML_FORM_PARAM`,
`IOTWEBCONF_HTML_FORM_OPTION`, `IOTWEBCONF_HTML_FORM_SELECT_PARAM`),
`CheckboxParameter::_checkedStr`, and `replace s find repl`, the text that
Arduino's `s.replace(find, repl)` leaves in `s`. -/
structure Templates where
  replace : Str → Str → Str → Str
  IOTWEBCONF_HTML_FORM_PARAM : Str
  IOTWEBCONF_HTML_FORM_OPTION : Str
  IOTWEBCONF_HTML_FORM_SELECT_PARAM : Str
  _checkedStr : Str

/-- The text `snprintf(parLength, 5, "%d", n)` leaves in `parLength`: the
decimal digits of `n`, at most four characters. -/
def snprintf5 (n : Int) : Str :=
  ((if n < 0 then [Char.ofNat 45] else []) ++ Nat.toDigits 10 n.natAbs).take 4

/-- `TextParameter::renderHtml(const char* type, boolean hasValueFromPost,
String valueFromPost)`. -/
def TextParameter.renderHtml_type (T : Templates) (current : ConfigItem) (type : Str)
    (hasValueFromPost : Bool) (valueFromPost : Str) : Str :=
  let pitem := T.IOTWEBCONF_HTML_FORM_PARAM
  let pitem := T.replace pitem "{b}".toList (current.label.getD [])
  let pitem := T.replace pitem "{t}".toList type
  let pitem := T.replace pitem "{i}".toList current.getId
  let pitem := T.replace pitem "{p}".toList
    (match current.placeholder with | none => [] | some ph => ph)
  let parLength := snprintf5 current.getLength
  let pitem := T.replace pitem "{l}".toList parLength
  let pitem :=
    if hasValueFromPost then T.replace pitem "{v}".toList valueFromPost
    else T.replace pitem "{v}".toList (cstr current.valueBuffer)
  let pitem := T.replace pitem "{c}".toList
    (match current.customHtml with | none => [] | some ch => ch)
  let pitem := T.replace pitem "{s}".toList
    (match current.errorMessage with | none => [] | some _ => "de".toList)
  let pitem := T.replace pitem "{e}".toList
    (match current.errorMessage with | none => [] | some e => e)
  pitem

/-- `TextParameter::renderHtml(boolean dataArrived, boolean hasValueFromPost,
String valueFromPost)`. -/
def TextParameter.renderHtml_post (T : Templates) (p : ConfigItem) (_dataArrived : Bool)
    (hasValueFromPost : Bool) (valueFromPost : Str) : Str :=
  TextParameter.renderHtml_type T p "text".toList hasValueFromPost valueFromPost

/-- `NumberParameter::renderHtml(boolean, boolean, String)`. -/
def NumberParameter.renderHtml_post (T : Templates) (p : ConfigItem) (_dataArrived : Bool)
    (hasValueFromPost : Bool) (valueFromPost : Str) : Str :=
  TextParameter.renderHtml_type T p "number".toList hasValueFromPost valueFromPost

/-- `PasswordParameter::renderHtml(boolean, boolean, String)`. -/
def PasswordParameter.renderHtml_post (T : Templates) (p : ConfigItem) (_dataArrived : Bool)
    (_hasValueFromPost : Bool) (_valueFromPost : Str) : Str :=
  TextParameter.renderHtml_type T p "password".toList true []

/-- Modelled from the spec: `CheckboxParameter::isChecked`, declared in the
header that is not part of the sources; the stored buffer holds the
"selected" sentinel. -/
def CheckboxParameter.isChecked (p : ConfigItem) : Bool :=
  cstr p.valueBuffer == "selected".toList

/-- `CheckboxParameter::renderHtml(boolean, boolean, String)`: the updated
object (its `customHtml` is assigned) and the returned text. -/
def CheckboxParameter.renderHtml_post (T : Templates) (p : ConfigItem) (dataArrived : Bool)
    (hasValueFromPost : Bool) (valueFromPost : Str) : ConfigItem × Str :=
  let checkSelected :=
    if dataArrived then
      (if hasValueFromPost && (valueFromPost == "selected".toList) then true else false)
    else
      (if CheckboxParameter.isChecked p then true else false)
  let this : ConfigItem :=
    if checkSelected then { p with customHtml := some T._checkedStr }
    else { p with customHtml := none }
  (this, TextParameter.renderHtml_type T this "checkbox".toList true "selected".toList)

/-- The loop of `SelectParameter::renderHtml` building `options`, for the
indices `i, i+1, ..` with `k` iterations left. -/
def SelectParameter.renderOptions (T : Templates) (p : ConfigItem) (hasValueFromPost : Bool)
    (valueFromPost : Str) : Nat → Nat → Str → Str
  | 0, _, options => options
  | k + 1, i, options =>
    let optionValue := cstr (p._optionValues.drop (i * p.getLength.toNat))
    let optionName := cstr (p._optionNames.drop (i * p._nameLength))
    let oitem := T.IOTWEBCONF_HTML_FORM_OPTION
    let oitem := T.replace oitem "{v}".toList optionValue
    let oitem := T.replace oitem "{n}".toList optionName
    let oitem :=
      if (hasValueFromPost && (valueFromPost == optionValue)) ||
          strncmpEq p.valueBuffer optionValue p.getLength.toNat then
        T.replace oitem "{s}".toList " selected".toList
      else T.replace oitem "{s}".toList []
    SelectParameter.renderOptions T p hasValueFromPost valueFromPost k (i + 1) (options ++ oitem)

/-- `SelectParameter::renderHtml(boolean, boolean, String)`. -/
def SelectParameter.renderHtml_post (T : Templates) (current : ConfigItem) (_dataArrived : Bool)
    (hasValueFromPost : Bool) (valueFromPost : Str) : Str :=
  let options :=
    SelectParameter.renderOptions T current hasValueFromPost valueFromPost
      current._optionCount 0 []
  let pitem := T.IOTWEBCONF_HTML_FORM_SELECT_PARAM
  let pitem := T.replace pitem "{b}".toList (current.label.getD [])
  let pitem := T.replace pitem "{i}".toList current.getId
  let pitem := T.replace pitem "{c}".toList
    (match current.customHtml with | none => [] | some ch => ch)
  let pitem := T.replace pitem "{s}".toList
    (match current.errorMessage with | none => [] | some _ => "de".toList)
  let pitem := T.replace pitem "{e}".toList
    (match current.errorMessage with | none => [] | some e => e)
  let pitem := T.replace pitem "{o}".toList options
  pitem

/-- Virtual dispatch of `renderHtml(boolean, boolean, String)` on the dynamic
class: the object afterwards and the returned text. -/
def Parameter.renderHtml_post (T : Templates) (p : ConfigItem) (dataArrived : Bool)
    (hasValueFromPost : Bool) (valueFromPost : Str) : ConfigItem × Str :=
  match p.kind with
  | Kind.number => (p, NumberParameter.renderHtml_post T p dataArrived hasValueFromPost valueFromPost)
  | Kind.password =>
    (p, PasswordParameter.renderHtml_post T p dataArrived hasValueFromPost valueFromPost)
  | Kind.checkbox => CheckboxParameter.renderHtml_post T p dataArrived hasValueFromPost valueFromPost
  | Kind.select => (p, SelectParameter.renderHtml_post T p dataArrived hasValueFromPost valueFromPost)
  | _ => (p, TextParameter.renderHtml_post T p dataArrived hasValueFromPost valueFromPost)

/-- `TextParameter::renderHtml(boolean dataArrived, WebRequestWrapper*)`:
the object afterwards and the chunk passed to `sendContent`. -/
def TextParameter.renderHtml (T : Templates) (p : ConfigItem) (dataArrived : Bool)
    (webRequestWrapper : WebRequestWrapper) : ConfigItem × Str :=
  Parameter.renderHtml_post T p dataArrived
    (webRequestWrapper.hasArg p.getId) (webRequestWrapper.arg p.getId)

/-! ## `ParameterGroup`: the linked tree -/

/-- The loop `while (current->_nextItem != NULL) current = current->_nextItem;`
of `ParameterGroup::addItem`: the value of `current` when it ends. -/
def ParameterGroup.addItem_loop (h : Heap) : Nat → Ptr → Option Ptr
  | 0, _ => none
  | n + 1, current =>
    match h[current]? with
    | none => none
    | some c =>
      match c._nextItem with
      | none => some current
      | some next => ParameterGroup.addItem_loop h n next

/-- `ParameterGroup::addItem(ConfigItem* configItem)` on the group at `this`. -/
def ParameterGroup.addItem (h : Heap) (fuel : Nat) (this configItem : Ptr) : Option Heap :=
  match h[configItem]?, h[this]? with
  | some ci, some g =>
    if ci._parentItem ≠ none then
      some h -- Item must not be added two times.
    else
      match g._firstItem with
      | none => some (h.set this { g with _firstItem := some configItem })
      | some first =>
        match ParameterGroup.addItem_loop h fuel first with
        | none => none
        | some current =>
          match h[current]? with
          | none => none
          | some c =>
            let h1 := h.set current { c with _nextItem := some configItem }
            match h1[configItem]? with
            | none => none
            | some ci1 => some (h1.set configItem { ci1 with _parentItem := some this })
  | _, _ => none

mutual
/-- Virtual `getStorageSize()` of the object at `p`:
`Parameter::getStorageSize` or `ParameterGroup::getStorageSize`. -/
def getStorageSize (h : Heap) : Nat → Ptr → Option Int
  | 0, _ => none
  | n + 1, p =>
    match h[p]? with
    | none => none
    | some it =>
      if it.kind = Kind.group then ParameterGroup.getStorageSize_loop h n it._firstItem 0
      else some it._length
/-- The loop of `ParameterGroup::getStorageSize` from `current` on, with the
running `size`. -/
def ParameterGroup.getStorageSize_loop (h : Heap) : Nat → Option Ptr → Int → Option Int
  | 0, _, _ => none
  | _ + 1, none, size => some size
  | n + 1, some current, size =>
    match getStorageSize h n current with
    | none => none
    | some s =>
      match h[current]? with
      | none => none
      | some c => ParameterGroup.getStorageSize_loop h n c._nextItem (wrapInt (size + s))
end

/-- The record `SerializationData`: the bytes at `data` (the buffer of the
parameter) and `length`. -/
structure SerializationData where
  data : List Char
  length : Int
  deriving DecidableEq, Repr

/-- A callback `std::function<void(SerializationData*)>` with its captured
state `σ`: from the record and the state, the bytes it leaves at `data` and
the new state. -/
abbrev Callback (σ : Type) := SerializationData → σ → List Char × σ

/-- `Parameter::storeValue(doStore)` on the object `it` at `p`. -/
def Parameter.storeValue {σ : Type} (h : Heap) (p : Ptr) (it : ConfigItem)
    (doStore : Callback σ) (st : σ) : Heap × σ :=
  let serializationData : SerializationData :=
    { length := it._length, data := it.valueBuffer }
  let r := doStore serializationData st
  (h.set p { it with valueBuffer := r.1 }, r.2)

/-- `Parameter::loadValue(doLoad)` on the object `it` at `p`. -/
def Parameter.loadValue {σ : Type} (h : Heap) (p : Ptr) (it : ConfigItem)
    (doLoad : Callback σ) (st : σ) : Heap × σ :=
  let serializationData : SerializationData :=
    { length := it._length, data := it.valueBuffer }
  let r := doLoad serializationData st
  (h.set p { it with valueBuffer := r.1 }, r.2)

mutual
/-- Virtual `storeValue(doStore)` of the object at `p`. -/
def storeValue {σ : Type} (doStore : Callback σ) : Nat → Ptr → Heap × σ → Option (Heap × σ)
  | 0, _, _ => none
  | n + 1, p, (h, st) =>
    match h[p]? with
    | none => none
    | some it =>
      if it.kind = Kind.group then ParameterGroup.storeValue_loop doStore n it._firstItem (h, st)
      else some (Parameter.storeValue h p it doStore st)
/-- The loop of `ParameterGroup::storeValue` from `current` on. -/
def ParameterGroup.storeValue_loop {σ : Type} (doStore : Callback σ) :
    Nat → Option Ptr → Heap × σ → Option (Heap × σ)
  | 0, _, _ => none
  | _ + 1, none, hs => some hs
  | n + 1, some current, hs =>
    match storeValue doStore n current hs with
    | none => none
    | some (h1, st1) =>
      match h1[current]? with
      | none => none
      | some c => ParameterGroup.storeValue_loop doStore n c._nextItem (h1, st1)
end

mutual
/-- Virtual `loadValue(doLoad)` of the object at `p`. -/
def loadValue {σ : Type} (doLoad : Callback σ) : Nat → Ptr → Heap × σ → Option (Heap × σ)
  | 0, _, _ => none
  | n + 1, p, (h, st) =>
    match h[p]? with
    | none => none
    | some it =>
      if it.kind = Kind.group then ParameterGroup.loadValue_loop doLoad n it._firstItem (h, st)
      else some (Parameter.loadValue h p it doLoad st)
/-- The loop of `ParameterGroup::loadValue` from `current` on. -/
def ParameterGroup.loadValue_loop {σ : Type} (doLoad : Callback σ) :
    Nat → Option Ptr → Heap × σ → Option (Heap × σ)
  | 0, _, _ => none
  | _ + 1, none, hs => some hs
  | n + 1, some current, hs =>
    match loadValue doLoad n current hs with
    | none => none
    | some (h1, st1) =>
      match h1[current]? with
      | none => none
      | some c => ParameterGroup.loadValue_loop doLoad n c._nextItem (h1, st1)
end

/-- The chunk `ParameterGroup::renderHtml` sends before its children, for a
group with the non-null label `label`. -/
def ParameterGroup.renderHtml_open (this : ConfigItem) (label : Str) : Str :=
  let content := "<fieldset id='".toList
  let content := content ++ this.getId
  -- `content = "'>";` assigns, it does not append
  let content := (fun (_ : Str) => "'>".toList) content
  let content :=
    if label.head? ≠ none then content ++ "<legend>".toList ++ label ++ "</legend>".toList
    else content
  content

mutual
/-- Virtual `renderHtml(dataArrived, webRequestWrapper)` of the object at
`p`; `out` is what `sendContent` has received so far. -/
def renderHtml (T : Templates) (dataArrived : Bool) (webRequestWrapper : WebRequestWrapper) :
    Nat → Ptr → Heap × List Str → Option (Heap × List Str)
  | 0, _, _ => none
  | n + 1, p, (h, out) =>
    match h[p]? with
    | none => none
    | some it =>
      if it.kind = Kind.group then
        let out1 :=
          match it.label with
          | some label => out ++ [ParameterGroup.renderHtml_open it label]
          | none => out
        match ParameterGroup.renderHtml_loop T dataArrived webRequestWrapper n it._firstItem
            (h, out1) with
        | none => none
        | some (h2, out2) =>
          match h2[p]? with
          | none => none
          | some it2 =>
            match it2.label with
            | some _ => some (h2, out2 ++ ["</fieldset>".toList])
            | none => some (h2, out2)
      else
        let r := TextParameter.renderHtml T it dataArrived webRequestWrapper
        some (h.set p r.1, out ++ [r.2])
/-- The loop of `ParameterGroup::renderHtml` from `current` on. -/
def ParameterGroup.renderHtml_loop (T : Templates) (dataArrived : Bool)
    (webRequestWrapper : WebRequestWrapper) :
    Nat → Option Ptr → Heap × List Str → Option (Heap × List Str)
  | 0, _, _ => none
  | _ + 1, none, ho => some ho
  | n + 1, some current, (h, out) =>
    match h[current]? with
    | none => none
    | some c =>
      match (if c.visible then renderHtml T dataArrived webRequestWrapper n current (h, out)
             else some (h, out)) with
      | none => none
      | some (h1, out1) =>
        match h1[current]? with
        | none => none
        | some c1 =>
          ParameterGroup.renderHtml_loop T dataArrived webRequestWrapper n c1._nextItem (h1, out1)
end

/-! ## Well-formed trees -/

/-- The shape of a sibling chain with everything below it: `nil` is the
`NULL` pointer, `param p next` a parameter at `p` followed by the chain
`next`, `group p children next` a group at `p` whose `_firstItem` chain is
`children`, followed by `next`. -/
inductive Forest
  | nil
  | param (p : Ptr) (next : Forest)
  | group (p : Ptr) (children : Forest) (next : Forest)
  deriving DecidableEq, Repr

/-- A bound on the fuel a traversal of the forest needs. -/
def Forest.size : Forest → Nat
  | Forest.nil => 0
  | Forest.param _ next => next.size + 1
  | Forest.group _ children next => children.size + next.size + 2

/-- The items of the chain itself, in order: the children of the group
whose `_firstItem` chain this is. -/
def Forest.tops : Forest → List Ptr
  | Forest.nil => []
  | Forest.param p next => p :: next.tops
  | Forest.group p _ next => p :: next.tops

/-- The parameters of the forest in depth-first order. -/
def Forest.leaves : Forest → List Ptr
  | Forest.nil => []
  | Forest.param p next => p :: next.leaves
  | Forest.group _ children next => children.leaves ++ next.leaves

/-- A chain of parameters only. -/
def Forest.ofParams : List Ptr → Forest
  | [] => Forest.nil
  | p :: ps => Forest.param p (Forest.ofParams ps)

/-- The heap holds the forest `F` at the pointer `cur`: following
`_firstItem` and `_nextItem` from `cur` one meets exactly the objects of `F`. -/
def Represents (h : Heap) : Forest → Option Ptr → Prop
  | Forest.nil, cur => cur = none
  | Forest.param p next, cur =>
    cur = some p ∧ ∃ it, h[p]? = some it ∧ it.kind ≠ Kind.group ∧ Represents h next it._nextItem
  | Forest.group p children next, cur =>
    cur = some p ∧ ∃ it, h[p]? = some it ∧ it.kind = Kind.group ∧
      Represents h children it._firstItem ∧ Represents h next it._nextItem

/-- The `_length` of the object at `p`. -/
def lengthAt (h : Heap) (p : Ptr) : Int :=
  match h[p]? with
  | some it => it._length
  | none => 0

/-- The `valueBuffer` of the object at `p`. -/
def bufferAt (h : Heap) (p : Ptr) : List Char :=
  match h[p]? with
  | some it => it.valueBuffer
  | none => []

/-- `addItem` for each pointer of a list in turn, on the group at `g`. -/
def addItems (h : Heap) (fuel : Nat) (g : Ptr) : List Ptr → Option Heap
  | [] => some h
  | p :: ps =>
    match ParameterGroup.addItem h fuel g p with
    | none => none
    | some h1 => addItems h1 fuel g ps

/-- The first item of a chain with what is below it, without its siblings. -/
def Forest.head : Forest → Forest
  | Forest.nil => Forest.nil
  | Forest.param p _ => Forest.param p Forest.nil
  | Forest.group p children _ => Forest.group p children Forest.nil

/-- A writer for `storeValue`: appends the `length` bytes of each record to
the byte sequence and leaves the record's bytes alone. -/
def appendWriter : Callback (List Char) :=
  fun sd written => (sd.data, written ++ sd.data.take sd.length.toNat)

/-- A reader for `loadValue`: fills the `length` bytes of each record from
the front of the byte sequence, which it consumes. -/
def fillReader : Callback (List Char) :=
  fun sd pending => (poke sd.data (pending.take sd.length.toNat), pending.drop sd.length.toNat)

/-- The same objects with every buffer zeroed, capacities kept. -/
def zeroBuffers (h : Heap) : Heap :=
  h.map (fun it => { it with valueBuffer := List.replicate it.valueBuffer.length NUL })

/-- The byte sequence holding the first `_length` bytes of the buffers of
the parameters `ps`, in order. -/
def storedBytes (h : Heap) : List Ptr → List Char
  | [] => []
  | p :: ps => (bufferAt h p).take (lengthAt h p).toNat ++ storedBytes h ps

/-- The record `Parameter::storeValue` and `Parameter::loadValue` pass to the
callback for the parameter at `p`. -/
def recordAt (h : Heap) (p : Ptr) : SerializationData :=
  { data := bufferAt h p, length := lengthAt h p }

/-- A callback that only logs the records it is called with. -/
def recorder : Callback (List SerializationData) :=
  fun sd log => (sd.data, log ++ [sd])

/-- Every object of the forest, groups included. -/
def Forest.nodes : Forest → List Ptr
  | Forest.nil => []
  | Forest.param p next => p :: next.nodes
  | Forest.group p children next => p :: (children.nodes ++ next.nodes)

/-- The chain without its first item at `c` (and without what is below that
item): the children of a group that `c` is not in. -/
def Forest.eraseTop (c : Ptr) : Forest → Forest
  | Forest.nil => Forest.nil
  | Forest.param p next => if p = c then next else Forest.param p (next.eraseTop c)
  | Forest.group p children next =>
    if p = c then next else Forest.group p children (next.eraseTop c)

/-- An object without its place in the tree: the three link members cleared. -/
def ConfigItem.unlinked (it : ConfigItem) : ConfigItem :=
  { it with _parentItem := none, _nextItem := none, _firstItem := none }

/-- The running `size` of `ParameterGroup::getStorageSize` after adding the
values `xs` in turn to `acc`, each addition in `int`. -/
def sumInt (acc : Int) (xs : List Int) : Int :=
  xs.foldl (fun size s => wrapInt (size + s)) acc

/-- The storage size of each top-level item of a forest. -/
def Forest.childSizes (h : Heap) : Forest → List Int
  | Forest.nil => []
  | Forest.param p next => lengthAt h p :: next.childSizes h
  | Forest.group _ children next => sumInt 0 (children.childSizes h) :: next.childSizes h

/-- The heap `h2` holds the objects of `h1` with other buffer contents of the
same capacities. -/
def BufOnly (h1 h2 : Heap) : Prop :=
  ∀ (q : Ptr) (it : ConfigItem), h1[q]? = some it →
    ∃ b : List Char, b.length = it.valueBuffer.length ∧ h2[q]? = some { it with valueBuffer := b }

/-- From `h2` to `h3` the buffers of the parameters `ls` have been brought
back to what they are in `h1`, and nothing else has changed. -/
abbrev Loaded (h1 h2 h3 : Heap) (ls : List Ptr) : Prop :=
  BufOnly h1 h3 ∧ (∀ q ∈ ls, bufferAt h3 q = bufferAt h1 q) ∧
    (∀ q, bufferAt h2 q = bufferAt h1 q → bufferAt h3 q = bufferAt h1 q) ∧
    (∀ q, q ∉ ls → h3[q]? = h2[q]?)

/-- The chunk a group with a non-null label sends before its children. -/
def groupOpen (it : ConfigItem) : List Str :=
  match it.label with
  | some label => [ParameterGroup.renderHtml_open it label]
  | none => []

/-- The chunk a group with a non-null label sends after its children. -/
def groupClose (it : ConfigItem) : List Str :=
  match it.label with
  | some _ => ["</fieldset>".toList]
  | none => []

/-- The chunks the loop of `ParameterGroup::renderHtml` sends for a forest,
read off the heap `h`. -/
def Forest.html (T : Templates) (d : Bool) (w : WebRequestWrapper) (h : Heap) : Forest → List Str
  | Forest.nil => []
  | Forest.param p next =>
    (match h[p]? with
      | some it => if it.visible then [(TextParameter.renderHtml T it d w).2] else []
      | none => []) ++ next.html T d w h
  | Forest.group p children next =>
    (match h[p]? with
      | some it =>
        if it.visible then groupOpen it ++ children.html T d w h ++ groupClose it else []
      | none => []) ++ next.html T d w h

/-- The heap `h` holds the objects of `h0`, up to the `customHtml` of
checkboxes. -/
def CustomOnly (h0 h : Heap) : Prop :=
  ∀ (q : Ptr) (it : ConfigItem), h0[q]? = some it →
    ∃ c : Option Str, h[q]? = some { it with customHtml := c } ∧
      (it.kind ≠ Kind.checkbox → c = it.customHtml)

/-- The heap `h` still holds every object of `h0` that has `visible = false`,
unchanged. -/
def InvisibleKept (h0 h : Heap) : Prop :=
  ∀ (q : Ptr) (it : ConfigItem), h0[q]? = some it → it.visible = false → h[q]? = some it

/-! ## Sample objects -/

/-- A text parameter as `TextParameter(label, id, valueBuffer, length, defaultValue)`
constructs it, of dynamic class `k`. -/
def sampleParameter (k : Kind) (buf : List Char) (length : Int) (d : Option Str) : ConfigItem :=
  TextParameter.new k (some "Label".toList) "id".toList buf length d none none

/-- Template constants in the style of the library's. -/
def sampleTemplates : Templates :=
  { replace := replaceAll
    IOTWEBCONF_HTML_FORM_PARAM :=
      "<div class='{s}'><label for='{i}'>{b}</label><input type='{t}' id='{i}' value='{v}' {c}/>{e}</div>".toList
    IOTWEBCONF_HTML_FORM_OPTION := "<option value='{v}'{s}>{n}</option>".toList
    IOTWEBCONF_HTML_FORM_SELECT_PARAM :=
      "<div class='{s}'><label for='{i}'>{b}</label><select id='{i}' {c}>{o}</select>{e}</div>".toList
    _checkedStr := "checked='checked'".toList }

/-- A request without arguments. -/
def emptyRequest : WebRequestWrapper :=
  { hasArg := fun _ => false, arg := fun _ => [] }

/-- Three freshly constructed objects: two empty groups at 0 and 1 and a
text parameter at 2. -/
def twoGroups : Heap :=
  [ParameterGroup.new "g1".toList (some "G1".toList),
   ParameterGroup.new "g2".toList (some "G2".toList),
   sampleParameter Kind.text ("ab".toList ++ [NUL, NUL]) 4 none]

/-- A freshly constructed empty group at 0 and three freshly constructed
parameters of capacities 4, 6 and 9 at 1, 2 and 3. -/
def freshHeap : Heap :=
  [ParameterGroup.new "root".toList (some "Root".toList),
   sampleParameter Kind.text ("ab".toList ++ [NUL, NUL]) 4 none,
   sampleParameter Kind.password ("cdefg".toList ++ [NUL]) 6 none,
   sampleParameter Kind.checkbox ("selected".toList ++ [NUL]) 9 none]

/-- A freshly constructed empty group at 0 and two freshly constructed
parameters of the capacities 2147483647 and 1 at 1 and 2 (the buffers stand
for their first bytes only; `getStorageSize` does not read them). -/
def hugeHeap : Heap :=
  [ParameterGroup.new "root".toList (some "Root".toList),
   sampleParameter Kind.text [NUL] 2147483647 none,
   sampleParameter Kind.text [NUL] 1 none]

/-- The objects of `hugeHeap` after `root.addItem(p1); root.addItem(p2)`. -/
def hugeTree : Heap :=
  [{ ParameterGroup.new "root".toList (some "Root".toList) with _firstItem := some 1 },
   { sampleParameter Kind.text [NUL] 2147483647 none with _nextItem := some 2 },
   { sampleParameter Kind.text [NUL] 1 none with _parentItem := some 0 }]

/-- A tree: the group at 0 has the children 1 (text), 2 (a group with the
child 3, a password) and 4 (a checkbox with `visible = false`). -/
def sampleHeap : Heap :=
  [{ ParameterGroup.new "root".toList (some "Root".toList) with _firstItem := some 1 },
   { sampleParameter Kind.text ("ab".toList ++ [NUL, NUL]) 4 none with _nextItem := some 2 },
   { ParameterGroup.new "sub".toList none with
      _firstItem := some 3, _nextItem := some 4, _parentItem := some 0 },
   sampleParameter Kind.password ("cdefg".toList ++ [NUL]) 6 none,
   { sampleParameter Kind.checkbox ("selected".toList ++ [NUL]) 9 none with
      visible := false, _parentItem := some 0 }]

/-- The tree of `sampleHeap` without the child 4 of the group at 0. -/
def sampleHeapWithout : Heap :=
  [{ ParameterGroup.new "root".toList (some "Root".toList) with _firstItem := some 1 },
   { sampleParameter Kind.text ("ab".toList ++ [NUL, NUL]) 4 none with _nextItem := some 2 },
   { ParameterGroup.new "sub".toList none with _firstItem := some 3, _parentItem := some 0 },
   sampleParameter Kind.password ("cdefg".toList ++ [NUL]) 6 none,
   { sampleParameter Kind.checkbox ("selected".toList ++ [NUL]) 9 none with visible := false }]

/-- The children of the group at 0 in `sampleHeap`. -/
def sampleForest : Forest :=
  Forest.param 1 (Forest.group 2 (Forest.param 3 Forest.nil) (Forest.param 4 Forest.nil))

/-- `SelectParameter::SelectParameter(label, id, valueBuffer, length,
optionValues, optionNames, optionCount, nameLength, defaultValue)`, that is
the `OptionsParameter` constructor on top of the `TextParameter` one. -/
def SelectParameter.new (label : Option Str) (id : Str) (valueBuffer : List Char) (length : Int)
    (optionValues optionNames : List Char) (optionCount nameLength : Nat)
    (defaultValue : Option Str) : ConfigItem :=
  { TextParameter.new Kind.select label id valueBuffer length defaultValue none none with
    _optionValues := optionValues, _optionNames := optionNames,
    _optionCount := optionCount, _nameLength := nameLength }

/-- The bytes of a fixed-stride array of C strings: each string is followed
by NUL bytes up to `stride` bytes. -/
def strideArray (stride : Nat) : List Str → List Char
  | [] => []
  | v :: vs => v ++ List.replicate (stride - v.length) NUL ++ strideArray stride vs

/-- The template `IOTWEBCONF_HTML_FORM_PARAM` with its nine tokens replaced
in the order of `TextParameter::renderHtml`: label `b`, type `t`, id `i`,
placeholder `p`, length `l`, value `v`, custom HTML `c`, error style `s`,
error text `e`. -/
def fillFormParam (T : Templates) (b t i p l v c s e : Str) : Str :=
  T.replace (T.replace (T.replace (T.replace (T.replace (T.replace (T.replace (T.replace
    (T.replace T.IOTWEBCONF_HTML_FORM_PARAM "{b}".toList b) "{t}".toList t) "{i}".toList i)
    "{p}".toList p) "{l}".toList l) "{v}".toList v) "{c}".toList c) "{s}".toList s)
    "{e}".toList e

/-- The template `IOTWEBCONF_HTML_FORM_SELECT_PARAM` with its six tokens
replaced in the order of `SelectParameter::renderHtml`. -/
def fillSelectParam (T : Templates) (b i c s e o : Str) : Str :=
  T.replace (T.replace (T.replace (T.replace (T.replace
    (T.replace T.IOTWEBCONF_HTML_FORM_SELECT_PARAM "{b}".toList b) "{i}".toList i)
    "{c}".toList c) "{s}".toList s) "{e}".toList e) "{o}".toList o

/-- The local `checkSelected` of `CheckboxParameter::renderHtml`. -/
def CheckboxParameter.checkSelected (p : ConfigItem) (dataArrived hasValueFromPost : Bool)
    (valueFromPost : Str) : Bool :=
  if dataArrived then (hasValueFromPost && valueFromPost == "selected".toList)
  else CheckboxParameter.isChecked p

/-- A select parameter with the values "a", "b", the names "Alpha", "Beta"
and the stored value "b". -/
def sampleSelect : ConfigItem :=
  SelectParameter.new (some "Label".toList) "id".toList ("b".toList ++ [NUL]) 2
    (strideArray 2 ["a".toList, "b".toList]) (strideArray 6 ["Alpha".toList, "Beta".toList])
    2 6 none

/-- A request that carries the value "typed" for every id. -/
def typedRequest : WebRequestWrapper :=
  { hasArg := fun _ => true, arg := fun _ => "typed".toList }

/-! ## `PrefixStreamWrapper` -/

/-- The two `write` functions of a `Stream` with state `S`: the returned
count and the state afterwards. -/
structure StreamOps (S : Type) where
  write : Nat → S → Nat × S
  write_buffer : List Nat → S → Nat × S

/-- Arithmetic on `size_t` is modulo `2^32` on the ESP8266 and ESP32. -/
def SIZE_T_MOD : Nat := 4294967296

/-- The members of `PrefixStreamWrapper`: the stream written to, the callback
`_prefixWriter` (from the stream and the variables it has captured to the
returned count, the stream and the variables afterwards), the captured
variables, and the flag `_newLine`. -/
structure PrefixStreamWrapper (S σ : Type) where
  _originalStream : S
  _prefixWriter : S → σ → Nat × S × σ
  captured : σ
  _newLine : Bool

/-- `PrefixStreamWrapper::PrefixStreamWrapper(originalStream, prefixWriter)`;
the initial value `newLine0` of `_newLine` is given in the class declaration,
outside the sources. -/
def PrefixStreamWrapper.new {S σ : Type} (originalStream : S)
    (prefixWriter : S → σ → Nat × S × σ) (captured : σ) (newLine0 : Bool) :
    PrefixStreamWrapper S σ :=
  { _originalStream := originalStream, _prefixWriter := prefixWriter, captured := captured,
    _newLine := newLine0 }

/-- `PrefixStreamWrapper::checkNewLine`. -/
def PrefixStreamWrapper.checkNewLine {S σ : Type} (this : PrefixStreamWrapper S σ) :
    Nat × PrefixStreamWrapper S σ :=
  if this._newLine then
    let r := this._prefixWriter this._originalStream this.captured
    (r.1, { this with _newLine := false, _originalStream := r.2.1, captured := r.2.2 })
  else (0, this)

/-- `PrefixStreamWrapper::write(uint8_t data)`. -/
def PrefixStreamWrapper.write {S σ : Type} (ops : StreamOps S) (this : PrefixStreamWrapper S σ)
    (data : Nat) : Nat × PrefixStreamWrapper S σ :=
  let c := this.checkNewLine
  let sizeOut := c.1
  let r := ops.write data c.2._originalStream
  let sizeOut := (sizeOut + r.1) % SIZE_T_MOD
  let this1 := { c.2 with _originalStream := r.2 }
  if data = 10 then (sizeOut, { this1 with _newLine := true }) -- NewLine
  else (sizeOut, this1)

/-- `PrefixStreamWrapper::write(const uint8_t *buffer, size_t size)`, for the
`size` bytes `buffer`. -/
def PrefixStreamWrapper.write_buffer {S σ : Type} (ops : StreamOps S)
    (this : PrefixStreamWrapper S σ) (buffer : List Nat) : Nat × PrefixStreamWrapper S σ :=
  let c := this.checkNewLine
  let sizeOut := c.1
  let r := ops.write_buffer buffer c.2._originalStream
  let sizeOut := (sizeOut + r.1) % SIZE_T_MOD
  let this1 := { c.2 with _originalStream := r.2 }
  if buffer.getLast? = some 10 then (sizeOut, { this1 with _newLine := true }) -- Ends with new line
  else (sizeOut, this1)

/-- One call of `write`: a single byte or a buffer. -/
inductive WriteCall
  | byte (data : Nat)
  | buffer (bytes : List Nat)
  deriving DecidableEq, Repr

/-- The bytes of a call. -/
def WriteCall.bytes : WriteCall → List Nat
  | WriteCall.byte data => [data]
  | WriteCall.buffer bytes => bytes

/-- A sequence of `write` calls on the wrapper, one after the other. -/
def PrefixStreamWrapper.writeAll {S σ : Type} (ops : StreamOps S) :
    PrefixStreamWrapper S σ → List WriteCall → PrefixStreamWrapper S σ
  | this, [] => this
  | this, WriteCall.byte data :: calls =>
    PrefixStreamWrapper.writeAll ops (this.write ops data).2 calls
  | this, WriteCall.buffer bytes :: calls =>
    PrefixStreamWrapper.writeAll ops (this.write_buffer ops bytes).2 calls

/-- A stream that keeps every byte it receives and returns the number of
bytes as count. -/
def byteSink : StreamOps (List Nat) :=
  { write := fun data s => (1, s ++ [data]), write_buffer := fun bytes s => (bytes.length, s ++ bytes) }

/-- A callback on `byteSink` that prints the bytes `(f st).2.1`, returns the
count `(f st).1` and changes its captured variables to `(f st).2.2`. -/
def printing {σ : Type} (f : σ → Nat × List Nat × σ) : List Nat → σ → Nat × List Nat × σ :=
  fun s st => ((f st).1, s ++ (f st).2.1, (f st).2.2)

/-- What reaches the stream for a sequence of calls: the output of the
callback before a call when the flag is set, then the bytes of the call; the
flag for the next call is set when the call ends with a newline byte. -/
def prefixed {σ : Type} (f : σ → Nat × List Nat × σ) : Bool → σ → List WriteCall → List Nat
  | _, _, [] => []
  | flag, st, call :: calls =>
    (if flag then (f st).2.1 else []) ++ call.bytes
      ++ prefixed f (decide (call.bytes.getLast? = some 10)) (if flag then (f st).2.2 else st) calls

/-- A callback that prints "> " (the bytes 62, 32) and returns 2. -/
def samplePrefix : Unit → Nat × List Nat × Unit :=
  fun _ => (2, [62, 32], ())

/-- `Parameter::clearErrorMessage`. -/
def Parameter.clearErrorMessage (p : ConfigItem) : ConfigItem :=
  { p with errorMessage := none }

mutual
/-- Virtual `clearErrorMessage()` of the object at `p`. -/
def clearErrorMessage : Nat → Ptr → Heap → Option Heap
  | 0, _, _ => none
  | n + 1, p, h =>
    match h[p]? with
    | none => none
    | some it =>
      if it.kind = Kind.group then ParameterGroup.clearErrorMessage_loop n it._firstItem h
      else some (h.set p (Parameter.clearErrorMessage it))
/-- The loop of `ParameterGroup::clearErrorMessage` from `current` on. -/
def ParameterGroup.clearErrorMessage_loop : Nat → Option Ptr → Heap → Option Heap
  | 0, _, _ => none
  | _ + 1, none, h => some h
  | n + 1, some current, h =>
    match clearErrorMessage n current h with
    | none => none
    | some h1 =>
      match h1[current]? with
      | none => none
      | some c => ParameterGroup.clearErrorMessage_loop n c._nextItem h1
end

/-- The heap `h` holds the objects of `h0`, with the error message of the
objects at `ls` cleared. -/
def Cleared (h0 h : Heap) (ls : List Ptr) : Prop :=
  ∀ (q : Ptr) (it : ConfigItem), h0[q]? = some it →
    h[q]? = some (if q ∈ ls then { it with errorMessage := none } else it)

/-- The tree of `sampleHeap` with error messages on the parameters 1 and 3. -/
def sampleHeapErrors : Heap :=
  [{ ParameterGroup.new "root".toList (some "Root".toList) with _firstItem := some 1 },
   { sampleParameter Kind.text ("ab".toList ++ [NUL, NUL]) 4 none with
      _nextItem := some 2, errorMessage := some "too short".toList },
   { ParameterGroup.new "sub".toList none with
      _firstItem := some 3, _nextItem := some 4, _parentItem := some 0 },
   { sampleParameter Kind.password ("cdefg".toList ++ [NUL]) 6 none with
      errorMessage := some "weak".toList },
   { sampleParameter Kind.checkbox ("selected".toList ++ [NUL]) 9 none with
      visible := false, _parentItem := some 0 }]

/-- The objects of `twoGroups` after `g1.addItem(x)` twice: `x` is the first
child of the group at 0 and its own next sibling. -/
def cyclicHeap : Heap :=
  [{ ParameterGroup.new "g1".toList (some "G1".toList) with _firstItem := some 2 },
   ParameterGroup.new "g2".toList (some "G2".toList),
   { sampleParameter Kind.text ("ab".toList ++ [NUL, NUL]) 4 none with
      _nextItem := some 2, _parentItem := some 0 }]

/-- The sibling chain that starts at `cur` consists of the objects `ps`, in
this order, and ends with `NULL`. -/
def Chain (h : Heap) : List Ptr → Option Ptr → Prop
  | [], cur => cur = none
  | p :: ps, cur => cur = some p ∧ ∃ it, h[p]? = some it ∧ Chain h ps it._nextItem

/-- A sequence of calls `group.addItem(item)`, given as pairs (group, item). -/
def addCalls (fuel : Nat) : List (Ptr × Ptr) → Heap → Option Heap
  | [], h => some h
  | c :: calls, h =>
    match ParameterGroup.addItem h fuel c.1 c.2 with
    | none => none
    | some h1 => addCalls fuel calls h1

/-- The items that the calls add to the group at `g`, in the order of the
calls. -/
def itemsFor (calls : List (Ptr × Ptr)) (g : Ptr) : List Ptr :=
  (calls.filter (fun c => decide (c.1 = g))).map Prod.snd

/-- The calls build the forest `F`: the items added to each group of `F`
are the children that `F` gives it, in this order. -/
def BuiltBy (calls : List (Ptr × Ptr)) : Forest → Prop
  | Forest.nil => True
  | Forest.param _ next => BuiltBy calls next
  | Forest.group p children next =>
    itemsFor calls p = children.tops ∧ BuiltBy calls children ∧ BuiltBy calls next

/-- Every object of the forest is as its constructor leaves it: a parameter
or an empty group, as the forest says, without parent and next sibling. -/
def Fresh (h : Heap) : Forest → Prop
  | Forest.nil => True
  | Forest.param p next =>
    (∃ it, h[p]? = some it ∧ it.kind ≠ Kind.group ∧ it._parentItem = none ∧
      it._nextItem = none) ∧ Fresh h next
  | Forest.group p children next =>
    (∃ it, h[p]? = some it ∧ it.kind = Kind.group ∧ it._firstItem = none ∧
      it._parentItem = none ∧ it._nextItem = none) ∧ Fresh h children ∧ Fresh h next

/-- What holds after the calls `done` on the objects of `h0`: every object
has its members apart from the links; an object that had no first child has
as children the items that the calls added to it, in order; an object that
no call has added has its old next sibling and parent. -/
def FlatInv (h0 h : Heap) (done : List (Ptr × Ptr)) : Prop :=
  ∀ (q : Ptr) (it0 : ConfigItem), h0[q]? = some it0 →
    ∃ it : ConfigItem, h[q]? = some it ∧ it.unlinked = it0.unlinked ∧
      (it0._firstItem = none → Chain h (itemsFor done q) it._firstItem) ∧
      (q ∉ done.map Prod.snd →
        it._nextItem = it0._nextItem ∧ it._parentItem = it0._parentItem)

/-- Five freshly constructed objects: empty groups at 0 and 2, parameters of
capacities 4, 6 and 9 at 1, 3 and 4. -/
def freshTree : Heap :=
  [ParameterGroup.new "root".toList (some "Root".toList),
   sampleParameter Kind.text ("ab".toList ++ [NUL, NUL]) 4 none,
   ParameterGroup.new "sub".toList none,
   sampleParameter Kind.password ("cdefg".toList ++ [NUL]) 6 none,
   sampleParameter Kind.checkbox ("selected".toList ++ [NUL]) 9 none]

/-- The calls `root.addItem(p1); root.addItem(sub); sub.addItem(p3);
root.addItem(p4)` on `freshTree`. -/
def sampleCalls : List (Ptr × Ptr) := [(0, 1), (0, 2), (2, 3), (0, 4)]

/-! ## Theorems -/

theorem strncpyBytes_length (s : Str) (n : Nat) : (strncpyBytes s n).length = n := by
  induction n generalizing s with
  | zero => cases s <;> simp [strncpyBytes]
  | succ n ih =>
    cases s with
    | nil => simp [strncpyBytes, ih]
    | cons c cs =>
      by_cases hc : c = NUL <;> simp [strncpyBytes, hc, ih]

theorem strncpyBytes_nil (n : Nat) : strncpyBytes [] n = List.replicate n NUL := by
  induction n with
  | zero => simp [strncpyBytes]
  | succ n ih => simp [strncpyBytes, ih, List.replicate_succ]

/-- On a source `a` without NUL that is followed by a terminator. -/
theorem strncpyBytes_terminated (a r : List Char) (n : Nat) (ha : NUL ∉ a) :
    strncpyBytes (a ++ NUL :: r) n = a.take n ++ List.replicate (n - a.length) NUL := by
  induction a generalizing n with
  | nil =>
    cases n with
    | zero => simp [strncpyBytes]
    | succ n => simp [strncpyBytes, strncpyBytes_nil, List.replicate_succ]
  | cons c cs ih =>
    have hc : c ≠ NUL := fun h => ha (by simp [h])
    have hcs : NUL ∉ cs := fun h => ha (by simp [h])
    cases n with
    | zero => simp [strncpyBytes]
    | succ n => simp [strncpyBytes, hc, ih n hcs]

theorem strncpyBytes_implicit (a : List Char) (n : Nat) (ha : NUL ∉ a) :
    strncpyBytes a n = a.take n ++ List.replicate (n - a.length) NUL := by
  induction a generalizing n with
  | nil =>
    cases n with
    | zero => simp [strncpyBytes]
    | succ n => simp [strncpyBytes, strncpyBytes_nil, List.replicate_succ]
  | cons c cs ih =>
    have hc : c ≠ NUL := fun h => ha (by simp [h])
    have hcs : NUL ∉ cs := fun h => ha (by simp [h])
    cases n with
    | zero => simp [strncpyBytes]
    | succ n => simp [strncpyBytes, hc, ih n hcs]

theorem poke_length (buf bs : List Char) : (poke buf bs).length = buf.length := by
  simp [poke]; omega

theorem poke_of_le (buf bs : List Char) (h : bs.length ≤ buf.length) :
    poke buf bs = bs ++ buf.drop bs.length := by
  unfold poke
  apply List.take_of_length_le
  simp; omega

theorem poke_full (buf bs : List Char) (h : bs.length = buf.length) : poke buf bs = bs := by
  rw [poke_of_le _ _ (by omega), List.drop_of_length_le (by omega)]
  simp

theorem cstr_terminated (a r : List Char) (ha : NUL ∉ a) : cstr (a ++ NUL :: r) = a := by
  induction a with
  | nil => simp [cstr]
  | cons c cs ih =>
    have hc : c ≠ NUL := fun h => ha (by simp [h])
    have hcs : NUL ∉ cs := fun h => ha (by simp [h])
    have := ih hcs
    simp only [cstr] at this ⊢
    have hb : (c != NUL) = true := by simpa using hc
    simp [List.takeWhile, hb, this]

theorem not_mem_take {a : List Char} (n : Nat) (ha : NUL ∉ a) : NUL ∉ a.take n :=
  fun h => ha (List.mem_of_mem_take h)

theorem toCharArray_eq (s buf : List Char) (hb : 1 ≤ buf.length) (hs : NUL ∉ s) :
    toCharArray s buf buf.length =
      s.take (min (buf.length - 1) s.length) ++ NUL :: buf.drop (min (buf.length - 1) s.length + 1) := by
  unfold toCharArray
  have h0 : buf.length ≠ 0 := by omega
  simp only [h0, if_false]
  cases s with
  | nil =>
    cases buf with
    | nil => simp at hb
    | cons b bs => simp
  | cons c cs =>
    simp only [List.length_cons, Nat.succ_ne_zero, if_false]
    set n := min (buf.length - 1) (cs.length + 1) with hn
    have hnle : n ≤ (c :: cs).length := by simp [hn]
    have hnb : n < buf.length := by omega
    have h1 : strncpyBytes (c :: cs) n = (c :: cs).take n := by
      rw [strncpyBytes_implicit _ _ hs]
      have : n - (c :: cs).length = 0 := by omega
      rw [this]; simp
    have hl : ((c :: cs).take n).length = n := by
      rw [List.length_take]; omega
    unfold strncpy
    rw [h1, poke_of_le _ _ (by omega), hl]
    rw [List.set_append_right _ _ (by omega)]
    rw [hl, Nat.sub_self]
    have : ∃ x xs, buf.drop n = x :: xs ∧ xs = buf.drop (n + 1) := by
      cases hd : buf.drop n with
      | nil => simp at hd; omega
      | cons x xs =>
        refine ⟨x, xs, rfl, ?_⟩
        have := congrArg (List.drop 1) hd
        simpa [List.drop_drop, Nat.add_comm] using this.symm
    obtain ⟨x, xs, hx, hxs⟩ := this
    rw [hx, ← hxs]
    simp

/-- A default shorter than the capacity is copied whole and padded with NUL. -/
theorem Parameter_applyDefaultValue_short (p : ConfigItem) (d : Str)
    (hd : p.defaultValue = some d) (hcap : p.valueBuffer.length = p._length.toNat)
    (hlt : d.length < p._length.toNat) (hnul : NUL ∉ d) :
    (Parameter.applyDefaultValue p).valueBuffer
      = d ++ List.replicate (p._length.toNat - d.length) NUL := by
  simp only [Parameter.applyDefaultValue, hd, ConfigItem.getLength, strncpy]
  rw [strncpyBytes_implicit _ _ hnul, List.take_of_length_le (by omega)]
  rw [poke_full _ _ (by simp; omega)]

/-- Without a default the buffer holds the empty string afterwards. -/
theorem Parameter_applyDefaultValue_null (p : ConfigItem) (hd : p.defaultValue = none)
    (hcap : 1 ≤ p.valueBuffer.length) :
    cstr (Parameter.applyDefaultValue p).valueBuffer = [] := by
  simp only [Parameter.applyDefaultValue, hd]
  cases hb : p.valueBuffer with
  | nil => rw [hb] at hcap; simp at hcap
  | cons b bs => simp [cstr, List.takeWhile]

/-- What `strncpy` stores contains a terminator when the source has one
among its first `n` bytes. -/
theorem strncpyBytes_mem_nul (src : List Char) (n : Nat) (h : NUL ∈ src.take n) :
    NUL ∈ strncpyBytes src n := by
  induction src generalizing n with
  | nil => simp at h
  | cons c cs ih =>
    cases n with
    | zero => simp at h
    | succ n =>
      by_cases hc : c = NUL
      · simp [strncpyBytes, hc]
      · have : NUL ∈ cs.take n := by
          rcases List.mem_cons.mp (by simpa using h) with e | e
          · exact absurd e.symm hc
          · exact e
        simp [strncpyBytes, hc, ih n this]

/-- What `toCharArray` leaves in a buffer of capacity at least 1 contains a
terminator, whatever the string is. -/
theorem toCharArray_mem_nul (s buf : List Char) (hb : 1 ≤ buf.length) :
    NUL ∈ toCharArray s buf buf.length := by
  unfold toCharArray
  have h0 : buf.length ≠ 0 := by omega
  simp only [h0, if_false]
  split
  · exact List.mem_iff_getElem.mpr ⟨0, by simp; omega, by simp⟩
  · have hn : min (buf.length - 1) s.length < (strncpy buf s (min (buf.length - 1) s.length)).length := by
      rw [strncpy, poke_length]; omega
    exact List.mem_iff_getElem.mpr
      ⟨min (buf.length - 1) s.length, by simpa using hn, by simp⟩

/-- The updates keep the buffer terminated: `TextParameter::update` and
`CheckboxParameter::update` always store a terminator, and
`PasswordParameter::update` stores one or leaves the buffer as it is. -/
theorem update_keeps_terminator (p : ConfigItem) (temp0 : List Char) (s : Str)
    (hlen : 1 ≤ p._length) (hcap : p.valueBuffer.length = p._length.toNat)
    (htemp : temp0.length = p._length.toNat) :
    NUL ∈ (TextParameter.update p s).valueBuffer
      ∧ NUL ∈ (CheckboxParameter.update p s).valueBuffer
      ∧ (NUL ∈ p.valueBuffer → NUL ∈ (PasswordParameter.update p temp0 s).valueBuffer) := by
  have hb : 1 ≤ p.valueBuffer.length := by omega
  have ht : NUL ∈ (TextParameter.update p s).valueBuffer := by
    have := toCharArray_mem_nul s p.valueBuffer hb
    simpa [TextParameter.update, ConfigItem.getLength, ← hcap] using this
  refine ⟨ht, ht, ?_⟩
  intro hp
  unfold PasswordParameter.update
  simp only [ConfigItem.getLength]
  split
  · have hmem := toCharArray_mem_nul s temp0 (by omega)
    rw [htemp] at hmem
    have hlt : (toCharArray s temp0 p._length.toNat).length ≤ p._length.toNat := by
      unfold toCharArray
      split
      · omega
      · split
        · simp; omega
        · simp [strncpy, poke_length]; omega
    have h1 := strncpyBytes_mem_nul _ p._length.toNat
      (by rw [List.take_of_length_le hlt]; exact hmem)
    show NUL ∈ strncpy p.valueBuffer _ _
    rw [strncpy, poke_full _ _ (by rw [strncpyBytes_length, hcap])]
    exact h1
  · exact hp

theorem cstr_not_mem (s : List Char) : NUL ∉ cstr s := by
  intro h
  have := List.mem_takeWhile_imp h
  simp at this

theorem cstr_length_le (s : List Char) : (cstr s).length ≤ s.length := by
  unfold cstr
  exact (List.takeWhile_sublist _).length_le

/-- A string is the bytes before its first NUL, followed by nothing or by a
NUL and a rest. -/
theorem cstr_split (s : List Char) : s = cstr s ∨ ∃ r, s = cstr s ++ NUL :: r := by
  induction s with
  | nil => exact Or.inl rfl
  | cons c cs ih =>
    by_cases hc : c = NUL
    · subst hc
      exact Or.inr ⟨cs, by simp [cstr, List.takeWhile]⟩
    · have hb : (c != NUL) = true := by simpa using hc
      have hcs : cstr (c :: cs) = c :: cstr cs := by simp [cstr, List.takeWhile, hb]
      rcases ih with e | ⟨r, e⟩
      · exact Or.inl (by rw [hcs, ← e])
      · exact Or.inr ⟨r, by rw [hcs, List.cons_append, ← e]⟩

/-- What `strncpy` stores, for any source: the bytes before the first NUL, at
most `n` of them, padded with NUL. -/
theorem strncpyBytes_cstr (s : List Char) (n : Nat) :
    strncpyBytes s n = (cstr s).take n ++ List.replicate (n - (cstr s).length) NUL := by
  rcases cstr_split s with e | ⟨r, e⟩
  · have := strncpyBytes_implicit (cstr s) n (cstr_not_mem s)
    conv_lhs => rw [e]
    exact this
  · have := strncpyBytes_terminated (cstr s) r n (cstr_not_mem s)
    conv_lhs => rw [e]
    exact this

theorem replicate_append_cons (j : Nat) (a : Char) (xs : List Char) :
    List.replicate j a ++ a :: xs = a :: (List.replicate j a ++ xs) := by
  induction j with
  | zero => rfl
  | succ j ih => simp [List.replicate_succ, ih]

/-- What `toCharArray` leaves in a buffer of capacity at least 1, for any
string: the bytes before the first NUL of the string, at most capacity-1 of
them, then NUL up to and including the index `min(capacity-1, |s|)`, then the
old bytes. -/
theorem toCharArray_cstr (s buf : List Char) (hb : 1 ≤ buf.length) :
    toCharArray s buf buf.length
      = (cstr s).take (min (cstr s).length (buf.length - 1))
        ++ NUL :: (List.replicate
            (min (buf.length - 1) s.length - min (cstr s).length (buf.length - 1)) NUL
          ++ buf.drop (min (buf.length - 1) s.length + 1)) := by
  unfold toCharArray
  have h0 : buf.length ≠ 0 := by omega
  simp only [h0, if_false]
  have hle := cstr_length_le s
  cases s with
  | nil =>
    cases buf with
    | nil => simp at hb
    | cons b bs => simp [cstr]
  | cons c cs =>
    simp only [List.length_cons, Nat.succ_ne_zero, if_false]
    set s := c :: cs with hs
    set n := min (buf.length - 1) (cs.length + 1) with hn
    set k := min (cstr s).length (buf.length - 1) with hk
    have hsl : s.length = cs.length + 1 := by simp [hs]
    have hkn : k = min (cstr s).length n := by omega
    have htake : (cstr s).take n = (cstr s).take k := by
      rw [hkn]
      apply List.ext_getElem?
      intro i
      simp only [List.getElem?_take]
      by_cases hi : i < n
      · by_cases hi2 : i < (cstr s).length
        · simp [hi, hi2]
        · simp [hi, hi2, List.getElem?_eq_none (Nat.le_of_not_lt hi2)]
      · have : ¬ i < min (cstr s).length n := by omega
        simp [hi, this]
    have hrep : n - (cstr s).length = n - k := by omega
    have hl : ((cstr s).take k).length = k := by
      rw [List.length_take]; omega
    have hlen2 : (strncpyBytes s n).length = n := strncpyBytes_length s n
    unfold strncpy
    rw [poke_of_le _ _ (by rw [hlen2]; omega), hlen2]
    rw [List.set_append_right _ _ (by rw [hlen2]), hlen2, Nat.sub_self]
    rw [strncpyBytes_cstr, htake, hrep, List.append_assoc]
    congr 1
    have : ∃ x xs, buf.drop n = x :: xs ∧ xs = buf.drop (n + 1) := by
      cases hd : buf.drop n with
      | nil => simp at hd; omega
      | cons x xs =>
        refine ⟨x, xs, rfl, ?_⟩
        have := congrArg (List.drop 1) hd
        simpa [List.drop_drop, Nat.add_comm] using this.symm
    obtain ⟨x, xs, hx, hxs⟩ := this
    rw [hx, ← hxs]
    simp only [List.set_cons_zero]
    exact replicate_append_cons _ _ _

theorem cstr_of_not_mem (s : List Char) (hs : NUL ∉ s) : cstr s = s := by
  rcases cstr_split s with e | ⟨r, e⟩
  · exact e.symm
  · exact absurd (by rw [e]; simp) hs

/-- C6 as stated fails for a string with a NUL byte inside: with capacity 4
and the submitted bytes `a`, NUL, `b` the buffer becomes `a` followed by
three NUL bytes, not the first 3 bytes `a`, NUL, `b` of the string followed
by NUL. -/
theorem TextParameter_update_embedded_nul :
    (TextParameter.update (sampleParameter Kind.text "zzzz".toList 4 none)
        ['a', NUL, 'b']).valueBuffer = ['a', NUL, NUL, NUL]
    ∧ (TextParameter.update (sampleParameter Kind.text "zzzz".toList 4 none)
        ['a', NUL, 'b']).valueBuffer.take (min ['a', NUL, 'b'].length ((4 : Int).toNat - 1) + 1)
      ≠ ['a', NUL, 'b'].take (min ['a', NUL, 'b'].length ((4 : Int).toNat - 1)) ++ [NUL] := by
  decide

/-- C6, amended: `TextParameter::update(s)` is total; with `t` the bytes of
`s` before its first NUL byte (`cstr s`, which is `s` when `s` has none), it
leaves the buffer holding the first `min(|t|, length-1)` bytes of `t`
followed by NUL, in fact by NUL up to the index `min(|s|, length-1)`, and the
old bytes behind that index; the capacity is kept. For `s` without NUL the
buffer holds the first `min(|s|, length-1)` bytes of `s` followed by NUL:
over-length input is cut to the buffer capacity. -/
theorem TextParameter_update_truncates (p : ConfigItem) (s : Str)
    (hlen : 1 ≤ p._length) (hcap : p.valueBuffer.length = p._length.toNat) :
    (TextParameter.update p s).valueBuffer
        = (cstr s).take (min (cstr s).length (p._length.toNat - 1))
          ++ List.replicate (min s.length (p._length.toNat - 1)
              - min (cstr s).length (p._length.toNat - 1) + 1) NUL
          ++ p.valueBuffer.drop (min s.length (p._length.toNat - 1) + 1)
      ∧ (TextParameter.update p s).valueBuffer.take (min (cstr s).length (p._length.toNat - 1) + 1)
        = (cstr s).take (min (cstr s).length (p._length.toNat - 1)) ++ [NUL]
      ∧ cstr (TextParameter.update p s).valueBuffer
        = (cstr s).take (min (cstr s).length (p._length.toNat - 1))
      ∧ (TextParameter.update p s).valueBuffer.length = p.valueBuffer.length
      ∧ (NUL ∉ s →
          (TextParameter.update p s).valueBuffer.take (min s.length (p._length.toNat - 1) + 1)
            = s.take (min s.length (p._length.toNat - 1)) ++ [NUL]
          ∧ cstr (TextParameter.update p s).valueBuffer
            = s.take (min s.length (p._length.toNat - 1))
          ∧ (TextParameter.update p s).valueBuffer.drop (min s.length (p._length.toNat - 1) + 1)
            = p.valueBuffer.drop (min s.length (p._length.toNat - 1) + 1)) := by
  have hb : 1 ≤ p.valueBuffer.length := by omega
  have hle := cstr_length_le s
  set k := min (cstr s).length (p._length.toNat - 1) with hk
  set n := min s.length (p._length.toNat - 1) with hn
  have hn' : min (p.valueBuffer.length - 1) s.length = n := by rw [hn, hcap, Nat.min_comm]
  have hk' : min (cstr s).length (p.valueBuffer.length - 1) = k := by rw [hk, hcap]
  have hupd : (TextParameter.update p s).valueBuffer
      = (cstr s).take k ++ NUL :: (List.replicate (n - k) NUL ++ p.valueBuffer.drop (n + 1)) := by
    have := toCharArray_cstr s p.valueBuffer hb
    rw [hn', hk'] at this
    simpa [TextParameter.update, ConfigItem.getLength, ← hcap] using this
  have hl : ((cstr s).take k).length = k := by
    rw [List.length_take]; omega
  have h1 : (TextParameter.update p s).valueBuffer.take (k + 1) = (cstr s).take k ++ [NUL] := by
    rw [hupd, List.take_append_eq_append_take, hl]
    simp [List.take_of_length_le (Nat.le_succ_of_le (Nat.le_of_eq hl))]
  have h2 : cstr (TextParameter.update p s).valueBuffer = (cstr s).take k := by
    rw [hupd]
    exact cstr_terminated _ _ (not_mem_take _ (cstr_not_mem s))
  have h4 : (TextParameter.update p s).valueBuffer.drop (n + 1) = p.valueBuffer.drop (n + 1) := by
    rw [hupd, List.drop_append_eq_append_drop, hl]
    have hkn : k ≤ n := by omega
    have e1 : List.drop (n + 1) (List.take k (cstr s)) = [] :=
      List.drop_of_length_le (by rw [hl]; omega)
    have e2 : n + 1 - k = (n - k) + 1 := by omega
    rw [e1, e2, List.nil_append, List.drop_succ_cons, List.drop_append_eq_append_drop]
    simp
  refine ⟨?_, h1, h2, ?_, ?_⟩
  · rw [hupd, List.replicate_succ, List.append_assoc]
    rfl
  · rw [hupd]
    simp [hl]
    omega
  · intro hs
    have ht := cstr_of_not_mem s hs
    have hkn : k = n := by rw [hk, hn, ht]
    rw [← hkn] at h4 ⊢
    rw [ht] at h1 h2
    exact ⟨h1, h2, h4⟩

/-- C1: with capacity 4 and the default "abcdef", `applyDefaultValue` leaves
the four bytes "abcd" in the buffer and no terminator, where the default
truncated to capacity-1 would be "abc" followed by NUL. -/
theorem Parameter_applyDefaultValue_long_default :
    (Parameter.applyDefaultValue
        (sampleParameter Kind.text "zzzz".toList 4 (some "abcdef".toList))).valueBuffer
      = "abcd".toList
    ∧ (Parameter.applyDefaultValue
        (sampleParameter Kind.text "zzzz".toList 4 (some "abcdef".toList))).valueBuffer
      ≠ "abc".toList ++ [NUL] := by
  decide

/-- C7: with capacity 3 and the default "abc", the buffer after
`applyDefaultValue` is "abc": none of its 3 bytes is a terminator. -/
theorem Parameter_applyDefaultValue_unterminated :
    (Parameter.applyDefaultValue
        (sampleParameter Kind.password (NUL :: "zz".toList) 3 (some "abc".toList))).valueBuffer
      = "abc".toList
    ∧ NUL ∉ (Parameter.applyDefaultValue
        (sampleParameter Kind.password (NUL :: "zz".toList) 3 (some "abc".toList))).valueBuffer := by
  decide

/-- C5 as stated fails at capacity 1: the buffer holds the byte `a`, the
submitted string is "x"; its truncation to 0 bytes is empty, so the buffer is
left as it was and does not start with a terminator. -/
theorem PasswordParameter_update_capacity_one :
    (PasswordParameter.update (sampleParameter Kind.password ['a'] 1 none) ['q'] ['x']).valueBuffer
      = ['a']
    ∧ (PasswordParameter.update (sampleParameter Kind.password ['a'] 1 none) ['q']
        ['x']).valueBuffer.take (min ['x'].length ((1 : Int).toNat - 1) + 1)
      ≠ ['x'].take (min ['x'].length ((1 : Int).toNat - 1)) ++ [NUL] := by
  decide

/-- `PasswordParameter::update` for any string: nothing changes when the
first byte of the truncated string is NUL, otherwise the truncated string is
copied and padded with NUL. -/
theorem PasswordParameter_update_general (p : ConfigItem) (temp0 : List Char) (s : Str)
    (hlen : 1 ≤ p._length) (hcap : p.valueBuffer.length = p._length.toNat)
    (htemp : temp0.length = p._length.toNat) :
    (min (cstr s).length (p._length.toNat - 1) = 0 → PasswordParameter.update p temp0 s = p)
    ∧ (0 < min (cstr s).length (p._length.toNat - 1) →
        (PasswordParameter.update p temp0 s).valueBuffer
          = (cstr s).take (min (cstr s).length (p._length.toNat - 1))
            ++ List.replicate (p._length.toNat - min (cstr s).length (p._length.toNat - 1)) NUL) := by
  have ht : 1 ≤ temp0.length := by omega
  have htemp' := toCharArray_cstr s temp0 ht
  rw [htemp] at htemp'
  set k := min (cstr s).length (p._length.toNat - 1) with hk
  have hl : ((cstr s).take k).length = k := by
    rw [List.length_take]; omega
  refine ⟨?_, ?_⟩
  · intro h0
    rw [h0] at htemp'
    simp only [List.take_zero, List.nil_append] at htemp'
    simp [PasswordParameter.update, ConfigItem.getLength, htemp']
  · intro hpos
    have hnot : NUL ∉ (cstr s).take k := not_mem_take _ (cstr_not_mem s)
    have hhead : ((cstr s).take k ++ NUL :: (List.replicate
        (min (p._length.toNat - 1) s.length - k) NUL
          ++ temp0.drop (min (p._length.toNat - 1) s.length + 1))).head? ≠ some NUL := by
      cases hc : (cstr s).take k with
      | nil => rw [hc] at hl; simp at hl; omega
      | cons c cs =>
        have : c ≠ NUL := fun e => hnot (by rw [hc, e]; simp)
        simp [this]
    simp only [PasswordParameter.update, ConfigItem.getLength, htemp', hhead, ne_eq,
      not_false_eq_true, if_true]
    unfold strncpy
    rw [strncpyBytes_terminated _ _ _ hnot, hl]
    have : (List.take p._length.toNat ((cstr s).take k)) = (cstr s).take k :=
      List.take_of_length_le (by omega)
    rw [this, poke_full _ _ (by simp [hl, hcap]; omega)]

/-- C5, amended: `PasswordParameter::update("")` leaves the object as it
is, and so does `update(s)` when `s` starts with a NUL byte or the capacity
is 1; otherwise, with `t` the bytes of `s` before its first NUL byte and
capacity at least 2, the buffer becomes the first `min(|t|, length-1)` bytes
of `t` followed by NUL up to the capacity. For a non-empty `s` without NUL
that is the first `min(|s|, length-1)` bytes of `s` followed by NUL. -/
theorem PasswordParameter_update_spec (p : ConfigItem) (temp0 : List Char) (s : Str)
    (hlen : 1 ≤ p._length) (hcap : p.valueBuffer.length = p._length.toNat)
    (htemp : temp0.length = p._length.toNat) :
    PasswordParameter.update p temp0 [] = p
      ∧ (cstr s = [] → PasswordParameter.update p temp0 s = p)
      ∧ (p._length = 1 → PasswordParameter.update p temp0 s = p)
      ∧ (cstr s ≠ [] → 2 ≤ p._length →
          (PasswordParameter.update p temp0 s).valueBuffer
            = (cstr s).take (min (cstr s).length (p._length.toNat - 1))
              ++ List.replicate
                (p._length.toNat - min (cstr s).length (p._length.toNat - 1)) NUL
          ∧ (PasswordParameter.update p temp0 s).valueBuffer.take
              (min (cstr s).length (p._length.toNat - 1) + 1)
            = (cstr s).take (min (cstr s).length (p._length.toNat - 1)) ++ [NUL])
      ∧ (NUL ∉ s → s ≠ [] → 2 ≤ p._length →
          (PasswordParameter.update p temp0 s).valueBuffer
            = s.take (min s.length (p._length.toNat - 1))
              ++ List.replicate (p._length.toNat - min s.length (p._length.toNat - 1)) NUL
          ∧ (PasswordParameter.update p temp0 s).valueBuffer.take
              (min s.length (p._length.toNat - 1) + 1)
            = s.take (min s.length (p._length.toNat - 1)) ++ [NUL]) := by
  have hgen := PasswordParameter_update_general p temp0 s hlen hcap htemp
  have hfilled : cstr s ≠ [] → 2 ≤ p._length →
      (PasswordParameter.update p temp0 s).valueBuffer
        = (cstr s).take (min (cstr s).length (p._length.toNat - 1))
          ++ List.replicate
            (p._length.toNat - min (cstr s).length (p._length.toNat - 1)) NUL
      ∧ (PasswordParameter.update p temp0 s).valueBuffer.take
          (min (cstr s).length (p._length.toNat - 1) + 1)
        = (cstr s).take (min (cstr s).length (p._length.toNat - 1)) ++ [NUL] := by
    intro hne h2
    have hpos : 0 < (cstr s).length := List.length_pos.mpr hne
    set k := min (cstr s).length (p._length.toNat - 1) with hk
    have hkpos : 0 < k := by omega
    have hbuf := hgen.2 hkpos
    have hlk : ((cstr s).take k).length = k := by rw [List.length_take]; omega
    refine ⟨hbuf, ?_⟩
    rw [hbuf, List.take_append_eq_append_take, hlk]
    obtain ⟨j, hj⟩ : ∃ j, p._length.toNat - k = j + 1 := ⟨p._length.toNat - k - 1, by omega⟩
    simp [List.take_of_length_le (Nat.le_succ_of_le (Nat.le_of_eq hlk)), hj, List.replicate_succ]
  refine ⟨?_, ?_, ?_, hfilled, ?_⟩
  · exact (PasswordParameter_update_general p temp0 [] hlen hcap htemp).1 (by simp [cstr])
  · intro he
    exact hgen.1 (by simp [he])
  · intro h1
    exact hgen.1 (by omega)
  · intro hs hne h2
    have ht := cstr_of_not_mem s hs
    have := hfilled (by rw [ht]; exact hne) h2
    rwa [ht] at this

/-- Witness of `PasswordParameter_update_spec`: capacity 4, buffer "old";
the submitted strings "", "newpass" and NUL followed by "x". -/
theorem PasswordParameter_update_spec_witness :
    PasswordParameter.update (sampleParameter Kind.password ("old".toList ++ [NUL]) 4 none)
        "????".toList [] = sampleParameter Kind.password ("old".toList ++ [NUL]) 4 none
      ∧ (PasswordParameter.update (sampleParameter Kind.password ("old".toList ++ [NUL]) 4 none)
          "????".toList "newpass".toList).valueBuffer = ("new".toList ++ [NUL])
      ∧ PasswordParameter.update (sampleParameter Kind.password ("old".toList ++ [NUL]) 4 none)
          "????".toList [NUL, 'x'] = sampleParameter Kind.password ("old".toList ++ [NUL]) 4 none := by
  have h := PasswordParameter_update_spec (sampleParameter Kind.password ("old".toList ++ [NUL]) 4 none)
    "????".toList "newpass".toList (by decide) (by decide) (by decide)
  have h' := PasswordParameter_update_spec
    (sampleParameter Kind.password ("old".toList ++ [NUL]) 4 none)
    "????".toList [NUL, 'x'] (by decide) (by decide) (by decide)
  exact ⟨h.1, (h.2.2.2.2 (by decide) (by decide) (by decide)).1.trans (by decide),
    h'.2.1 (by decide)⟩

/-- Witness of `TextParameter_update_truncates`: capacity 4, submitted
"abcdef". -/
theorem TextParameter_update_truncates_witness :
    (TextParameter.update (sampleParameter Kind.text "zzzz".toList 4 none)
        "abcdef".toList).valueBuffer.take 4 = "abc".toList ++ [NUL] :=
  ((TextParameter_update_truncates (sampleParameter Kind.text "zzzz".toList 4 none)
    "abcdef".toList (by decide) (by decide)).2.2.2.2 (by decide)).1

/-- C8: the HTML of a `PasswordParameter` does not depend on the stored
buffer, on the posted value, on `hasArg` or on `dataArrived`: two password
objects that agree on label, id, capacity, placeholder, custom HTML and error
message render the same text, through the virtual call and through
`renderHtml(dataArrived, request)`; that text is the template with `{t}`
replaced by "password" and `{v}` by the empty string. -/
theorem PasswordParameter_renderHtml_no_echo (T : Templates) (p q : ConfigItem)
    (d1 d2 a1 a2 : Bool) (v1 v2 : Str) (w1 w2 : WebRequestWrapper)
    (hp : p.kind = Kind.password) (hq : q.kind = Kind.password)
    (hlabel : p.label = q.label) (hid : p._id = q._id) (hlen : p._length = q._length)
    (hph : p.placeholder = q.placeholder) (hch : p.customHtml = q.customHtml)
    (herr : p.errorMessage = q.errorMessage) :
    PasswordParameter.renderHtml_post T p d1 a1 v1 = PasswordParameter.renderHtml_post T q d2 a2 v2
      ∧ (TextParameter.renderHtml T p d1 w1).2 = (TextParameter.renderHtml T q d2 w2).2
      ∧ (TextParameter.renderHtml T p d1 w1).2 = PasswordParameter.renderHtml_post T p d1 a1 v1
      ∧ PasswordParameter.renderHtml_post T p d1 a1 v1 =
        T.replace (T.replace (T.replace (T.replace (T.replace
          (T.replace (T.replace (T.replace (T.replace
            T.IOTWEBCONF_HTML_FORM_PARAM
            "{b}".toList (p.label.getD []))
            "{t}".toList "password".toList)
            "{i}".toList p._id)
            "{p}".toList (p.placeholder.getD []))
            "{l}".toList (snprintf5 p._length))
            "{v}".toList [])
            "{c}".toList (p.customHtml.getD []))
            "{s}".toList (if p.errorMessage = none then [] else "de".toList))
            "{e}".toList (p.errorMessage.getD []) := by
  have key : ∀ x : ConfigItem, PasswordParameter.renderHtml_post T x d1 a1 v1 =
      T.replace (T.replace (T.replace (T.replace (T.replace
          (T.replace (T.replace (T.replace (T.replace
            T.IOTWEBCONF_HTML_FORM_PARAM
            "{b}".toList (x.label.getD []))
            "{t}".toList "password".toList)
            "{i}".toList x._id)
            "{p}".toList (x.placeholder.getD []))
            "{l}".toList (snprintf5 x._length))
            "{v}".toList [])
            "{c}".toList (x.customHtml.getD []))
            "{s}".toList (if x.errorMessage = none then [] else "de".toList))
            "{e}".toList (x.errorMessage.getD []) := by
    intro x
    simp only [PasswordParameter.renderHtml_post, TextParameter.renderHtml_type,
      ConfigItem.getId, ConfigItem.getLength, if_true]
    cases x.placeholder <;> cases x.customHtml <;> cases x.errorMessage <;> rfl
  have indep : ∀ (x : ConfigItem) (d a : Bool) (v : Str),
      PasswordParameter.renderHtml_post T x d a v = PasswordParameter.renderHtml_post T x d1 a1 v1 :=
    fun _ _ _ _ => rfl
  have hdisp : ∀ (x : ConfigItem) (d : Bool) (w : WebRequestWrapper), x.kind = Kind.password →
      (TextParameter.renderHtml T x d w).2 = PasswordParameter.renderHtml_post T x d1 a1 v1 := by
    intro x d w hx
    simp only [TextParameter.renderHtml, Parameter.renderHtml_post, hx]
    rfl
  have hpq : PasswordParameter.renderHtml_post T p d1 a1 v1
      = PasswordParameter.renderHtml_post T q d1 a1 v1 := by
    rw [key p, key q, hlabel, hid, hlen, hph, hch, herr]
  refine ⟨?_, ?_, hdisp p d1 w1 hp, key p⟩
  · rw [hpq]; exact (indep q d2 a2 v2).symm
  · rw [hdisp p d1 w1 hp, hdisp q d2 w2 hq, hpq]

theorem wrapInt_of_range (x : Int) (hlo : INT_MIN ≤ x) (hhi : x ≤ INT_MAX) : wrapInt x = x := by
  unfold INT_MIN at hlo
  unfold INT_MAX at hhi
  unfold wrapInt
  omega

theorem wrapInt_range (x : Int) : INT_MIN ≤ wrapInt x ∧ wrapInt x ≤ INT_MAX := by
  unfold INT_MIN INT_MAX wrapInt
  omega

theorem wrapInt_add_left (a b : Int) : wrapInt (wrapInt a + b) = wrapInt (a + b) := by
  unfold wrapInt
  omega

theorem wrapInt_add_right (a b : Int) : wrapInt (a + wrapInt b) = wrapInt (a + b) := by
  unfold wrapInt
  omega

theorem wrapInt_zero : wrapInt 0 = 0 := by
  decide

/-- Adding in `int` one value after the other gives the sum, wrapped. -/
theorem sumInt_wrap (xs : List Int) : ∀ acc : Int,
    sumInt (wrapInt acc) xs = wrapInt (acc + xs.sum) := by
  induction xs with
  | nil => intro acc; simp [sumInt]
  | cons x xs ih =>
    intro acc
    have := ih (wrapInt acc + x)
    simp only [sumInt, List.foldl_cons, List.sum_cons] at this ⊢
    rw [this, add_assoc, wrapInt_add_left]

theorem sumInt_zero (xs : List Int) : sumInt 0 xs = wrapInt xs.sum := by
  have := sumInt_wrap xs 0
  rwa [wrapInt_zero, zero_add] at this

theorem getStorageSize_loop_forest (h : Heap) (F : Forest) :
    ∀ (cur : Option Ptr) (n : Nat) (acc : Int), Represents h F cur → F.size < n →
      ParameterGroup.getStorageSize_loop h n cur acc = some (sumInt acc (F.childSizes h))
      ∧ List.Forall₂ (fun c s => getStorageSize h n c = some s) F.tops (F.childSizes h) := by
  induction F with
  | nil =>
    intro cur n acc hr hn
    simp only [Represents] at hr
    subst hr
    obtain ⟨m, rfl⟩ : ∃ m, n = m + 1 := ⟨n - 1, by simp [Forest.size] at hn; omega⟩
    simp [ParameterGroup.getStorageSize_loop, Forest.childSizes, Forest.tops, sumInt]
  | param p next ih =>
    intro cur n acc hr hn
    simp only [Represents] at hr
    obtain ⟨rfl, it, hit, hk, hnext⟩ := hr
    simp only [Forest.size] at hn
    obtain ⟨m, rfl⟩ : ∃ m, n = m + 2 := ⟨n - 2, by omega⟩
    have hcall : ∀ k, getStorageSize h (k + 1) p = some (lengthAt h p) := by
      intro k
      simp [getStorageSize, hit, hk, lengthAt]
    have ih1 := ih it._nextItem (m + 1) (wrapInt (acc + lengthAt h p)) hnext (by omega)
    have ih2 := ih it._nextItem (m + 2) 0 hnext (by omega)
    refine ⟨?_, ?_⟩
    · rw [ParameterGroup.getStorageSize_loop, hcall m]
      simp only [hit]
      rw [ih1.1]
      simp [Forest.childSizes, sumInt]
    · simp only [Forest.tops, Forest.childSizes]
      exact List.Forall₂.cons (hcall (m + 1)) ih2.2
  | group p children next ihc ihn =>
    intro cur n acc hr hn
    simp only [Represents] at hr
    obtain ⟨rfl, it, hit, hk, hch, hnext⟩ := hr
    simp only [Forest.size] at hn
    obtain ⟨m, rfl⟩ : ∃ m, n = m + 3 := ⟨n - 3, by omega⟩
    have hcall : ∀ k, children.size < k →
        getStorageSize h (k + 1) p = some (sumInt 0 (children.childSizes h)) := by
      intro k hk'
      have := (ihc it._firstItem k 0 hch hk').1
      simp [getStorageSize, hit, hk, this]
    have ih1 := ihn it._nextItem (m + 2) (wrapInt (acc + sumInt 0 (children.childSizes h)))
      hnext (by omega)
    have ih2 := ihn it._nextItem (m + 3) 0 hnext (by omega)
    refine ⟨?_, ?_⟩
    · rw [ParameterGroup.getStorageSize_loop, hcall (m + 1) (by omega)]
      simp only [hit]
      rw [ih1.1]
      simp [Forest.childSizes, sumInt]
    · simp only [Forest.tops, Forest.childSizes]
      exact List.Forall₂.cons (hcall (m + 2) (by omega)) ih2.2

theorem heap_set_same {h : Heap} {p : Ptr} {it : ConfigItem} (v : ConfigItem)
    (hp : h[p]? = some it) : (h.set p v)[p]? = some v := by
  have hlt : p < h.length := by
    by_contra hge
    have : h[p]? = none := List.getElem?_eq_none (Nat.le_of_not_lt hge)
    rw [this] at hp; cases hp
  simp [List.getElem?_set, hlt]

theorem heap_set_other {h : Heap} {p q : Ptr} (v : ConfigItem) (hq : q ≠ p) :
    (h.set p v)[q]? = h[q]? := by
  simp [List.getElem?_set, Ne.symm hq]

/-- Two heaps with the same classes and the same `_firstItem` and `_nextItem`
links hold the same forests. -/
theorem Represents_congr {h h' : Heap}
    (hl : ∀ (q : Ptr) (it : ConfigItem), h[q]? = some it →
      ∃ it' : ConfigItem, h'[q]? = some it' ∧ it'.kind = it.kind ∧
      it'._firstItem = it._firstItem ∧ it'._nextItem = it._nextItem)
    (F : Forest) : ∀ cur, Represents h F cur → Represents h' F cur := by
  induction F with
  | nil => intro cur hr; exact hr
  | param p next ih =>
    intro cur hr
    obtain ⟨hc, it, hit, hk, hnext⟩ := hr
    obtain ⟨it', hit', hk', _, hn'⟩ := hl p it hit
    exact ⟨hc, it', hit', by rw [hk']; exact hk, by rw [hn']; exact ih _ hnext⟩
  | group p children next ihc ihn =>
    intro cur hr
    obtain ⟨hc, it, hit, hk, hch, hnext⟩ := hr
    obtain ⟨it', hit', hk', hf', hn'⟩ := hl p it hit
    exact ⟨hc, it', hit', by rw [hk']; exact hk, by rw [hf']; exact ihc _ hch,
      by rw [hn']; exact ihn _ hnext⟩

/-- Objects outside a chain of parameters can change freely. -/
theorem Represents_ofParams_frame {h h' : Heap} (ps : List Ptr)
    (hl : ∀ q ∈ ps, h'[q]? = h[q]?) :
    ∀ cur, Represents h (Forest.ofParams ps) cur → Represents h' (Forest.ofParams ps) cur := by
  induction ps with
  | nil => intro cur hr; exact hr
  | cons p ps ih =>
    intro cur hr
    obtain ⟨hc, it, hit, hk, hnext⟩ := hr
    refine ⟨hc, it, ?_, hk, ih (fun q hq => hl q (List.mem_cons_of_mem _ hq)) _ hnext⟩
    rw [hl p (List.mem_cons_self _ _)]; exact hit

theorem Represents_ofParams_kind {h : Heap} (ps : List Ptr) :
    ∀ cur, Represents h (Forest.ofParams ps) cur →
      ∀ q ∈ ps, ∃ it, h[q]? = some it ∧ it.kind ≠ Kind.group := by
  induction ps with
  | nil => intro cur _ q hq; cases hq
  | cons p ps ih =>
    intro cur hr q hq
    obtain ⟨_, it, hit, hk, hnext⟩ := hr
    rcases List.mem_cons.mp hq with rfl | hq'
    · exact ⟨it, hit, hk⟩
    · exact ih _ hnext q hq'

/-- The loop of `addItem` on a chain of parameters stops at an item of the
chain; linking a fresh parameter behind that item extends the chain. -/
theorem addItem_loop_chain (p : Ptr) (ci : ConfigItem) :
    ∀ (ps : List Ptr) (h : Heap) (d : Ptr) (fuel : Nat),
      Represents h (Forest.ofParams (d :: ps)) (some d) → (d :: ps).Nodup → p ∉ d :: ps →
      h[p]? = some ci → ci.kind ≠ Kind.group → ci._nextItem = none → ps.length < fuel →
      ∃ last c, ParameterGroup.addItem_loop h fuel d = some last ∧ h[last]? = some c ∧
        last ∈ d :: ps ∧
        Represents (h.set last { c with _nextItem := some p })
          (Forest.ofParams (d :: ps ++ [p])) (some d) := by
  intro ps
  induction ps with
  | nil =>
    intro h d fuel hr _ hp hci hk hn hf
    obtain ⟨_, it, hit, hkd, hnext⟩ := hr
    simp only [Forest.ofParams, Represents] at hnext
    obtain ⟨m, rfl⟩ : ∃ m, fuel = m + 1 := ⟨fuel - 1, by simp at hf; omega⟩
    have hpd : p ≠ d := fun e => hp (by simp [e])
    refine ⟨d, it, by simp [ParameterGroup.addItem_loop, hit, hnext], hit, by simp, ?_⟩
    refine ⟨rfl, _, heap_set_same _ hit, hkd, rfl, ci, ?_, hk, ?_⟩
    · rw [heap_set_other _ hpd]; exact hci
    · rw [hn]; rfl
  | cons d2 ps ih =>
    intro h d fuel hr hnd hp hci hk hn hf
    obtain ⟨_, it, hit, hkd, hnext⟩ := hr
    have hnext' := hnext
    obtain ⟨hd2, _⟩ := hnext'
    rw [hd2] at hnext
    obtain ⟨m, rfl⟩ : ∃ m, fuel = m + 1 := ⟨fuel - 1, by simp at hf; omega⟩
    have hnd2 : (d2 :: ps).Nodup := (List.nodup_cons.mp hnd).2
    have hp2 : p ∉ d2 :: ps := fun e => hp (List.mem_cons_of_mem _ e)
    obtain ⟨last, c, hloop, hlast, hmem, hrep⟩ :=
      ih h d2 m hnext hnd2 hp2 hci hk hn (by simp at hf; omega)
    have hld : last ≠ d := fun e => (List.nodup_cons.mp hnd).1 (e ▸ hmem)
    refine ⟨last, c, by simp [ParameterGroup.addItem_loop, hit, hd2, hloop], hlast,
      List.mem_cons_of_mem _ hmem, ?_⟩
    refine ⟨rfl, it, ?_, hkd, ?_⟩
    · rw [heap_set_other _ (Ne.symm hld)]; exact hit
    · rw [hd2]; exact hrep

theorem lengthAt_set {h : Heap} {p : Ptr} {it : ConfigItem} (v : ConfigItem)
    (hp : h[p]? = some it) (hv : v._length = it._length) (q : Ptr) :
    lengthAt (h.set p v) q = lengthAt h q := by
  unfold lengthAt
  by_cases hq : q = p
  · subst hq; rw [heap_set_same v hp, hp]; exact hv
  · rw [heap_set_other v hq]

/-- `addItem` of a fresh parameter to a group whose children are the
parameters `done`: the call returns, the children become `done ++ [p]`, no
capacity changes and no other object is touched. -/
theorem addItem_append (h : Heap) (fuel : Nat) (g p : Ptr) (grp ci : ConfigItem)
    (done : List Ptr) (hg : h[g]? = some grp) (hgk : grp.kind = Kind.group)
    (hrep : Represents h (Forest.ofParams done) grp._firstItem) (hnd : done.Nodup)
    (hpd : p ∉ done) (hp : h[p]? = some ci) (hk : ci.kind ≠ Kind.group)
    (hpar : ci._parentItem = none) (hnx : ci._nextItem = none) (hf : done.length ≤ fuel) :
    ∃ h', ParameterGroup.addItem h fuel g p = some h' ∧
      (∃ grp', h'[g]? = some grp' ∧ grp'.kind = Kind.group ∧
        Represents h' (Forest.ofParams (done ++ [p])) grp'._firstItem) ∧
      (∀ q, lengthAt h' q = lengthAt h q) ∧
      (∀ q, q ≠ g → q ≠ p → q ∉ done → h'[q]? = h[q]?) ∧
      (∃ ci', h'[p]? = some ci' ∧
        ci'._parentItem = (if done = [] then none else some g)) := by
  have hpg : p ≠ g := by
    intro e; subst e; rw [hg] at hp; cases hp; exact hk hgk
  have hgd : g ∉ done := by
    intro e
    obtain ⟨it, hit, hkit⟩ := Represents_ofParams_kind done _ hrep g e
    rw [hg] at hit; cases hit; exact hkit hgk
  cases done with
  | nil =>
    simp only [Forest.ofParams, Represents] at hrep
    refine ⟨h.set g { grp with _firstItem := some p }, ?_, ?_, ?_, ?_, ?_⟩
    · simp [ParameterGroup.addItem, hp, hg, hpar, hrep]
    · refine ⟨_, heap_set_same _ hg, hgk, rfl, ci, ?_, hk, ?_⟩
      · rw [heap_set_other _ hpg]; exact hp
      · rw [hnx]; rfl
    · exact lengthAt_set _ hg rfl
    · intro q hq _ _; exact heap_set_other _ hq
    · exact ⟨ci, by rw [heap_set_other _ hpg]; exact hp, by simp [hpar]⟩
  | cons d ds =>
    have hfirst : grp._firstItem = some d := hrep.1
    rw [hfirst] at hrep
    obtain ⟨last, c, hloop, hlast, hmem, hrep1⟩ :=
      addItem_loop_chain p ci ds h d fuel hrep hnd hpd hp hk hnx (by simp at hf; omega)
    have hpl : p ≠ last := fun e => hpd (e ▸ hmem)
    have hgl : g ≠ last := fun e => hgd (e ▸ hmem)
    have hp1 : (h.set last { c with _nextItem := some p })[p]? = some ci := by
      rw [heap_set_other _ hpl]; exact hp
    refine ⟨(h.set last { c with _nextItem := some p }).set p { ci with _parentItem := some g },
      ?_, ?_, ?_, ?_, ⟨_, heap_set_same _ hp1, by simp⟩⟩
    · simp [ParameterGroup.addItem, hp, hg, hpar, hfirst, hloop, hlast, hp1]
    · refine ⟨grp, ?_, hgk, ?_⟩
      · rw [heap_set_other _ (Ne.symm hpg), heap_set_other _ hgl]; exact hg
      · rw [hfirst]
        refine Represents_congr ?_ _ _ hrep1
        intro q it hq
        by_cases hqp : q = p
        · subst hqp
          rw [hp1] at hq; cases hq
          exact ⟨_, heap_set_same _ hp1, rfl, rfl, rfl⟩
        · exact ⟨it, by rw [heap_set_other _ hqp]; exact hq, rfl, rfl, rfl⟩
    · intro q
      exact (lengthAt_set { ci with _parentItem := some g } hp1 rfl q).trans
        (lengthAt_set { c with _nextItem := some p } hlast rfl q)
    · intro q _ hqp hqd
      have hql : q ≠ last := fun e => hqd (e ▸ hmem)
      rw [heap_set_other _ hqp, heap_set_other _ hql]

/-- `addItem` of an item that has a parent changes nothing. -/
theorem addItem_parented (h : Heap) (fuel : Nat) (g x : Ptr) (grp ci : ConfigItem)
    (hx : h[x]? = some ci) (hg : h[g]? = some grp) (hpar : ci._parentItem ≠ none) :
    ParameterGroup.addItem h fuel g x = some h := by
  simp [ParameterGroup.addItem, hx, hg, hpar]

/-- Adding fresh, distinct parameters `ps` one after the other to a group
whose children are the parameters `done`. -/
theorem addItems_append (fuel : Nat) (g : Ptr) :
    ∀ (ps done : List Ptr) (h : Heap) (grp : ConfigItem),
      h[g]? = some grp → grp.kind = Kind.group →
      Represents h (Forest.ofParams done) grp._firstItem → (done ++ ps).Nodup →
      (∀ p ∈ ps, ∃ ci, h[p]? = some ci ∧ ci.kind ≠ Kind.group ∧ ci._parentItem = none ∧
        ci._nextItem = none) →
      (done ++ ps).length ≤ fuel →
      ∃ h', addItems h fuel g ps = some h' ∧
        (∃ grp', h'[g]? = some grp' ∧ grp'.kind = Kind.group ∧
          Represents h' (Forest.ofParams (done ++ ps)) grp'._firstItem) ∧
        (∀ q, lengthAt h' q = lengthAt h q) := by
  intro ps
  induction ps with
  | nil =>
    intro done h grp hg hgk hrep _ _ _
    exact ⟨h, rfl, ⟨grp, hg, hgk, by simpa using hrep⟩, fun _ => rfl⟩
  | cons p ps ih =>
    intro done h grp hg hgk hrep hnd hfresh hf
    obtain ⟨ci, hp, hk, hpar, hnx⟩ := hfresh p (List.mem_cons_self _ _)
    have hnd' := List.nodup_append.mp hnd
    have hpd : p ∉ done := fun e => hnd'.2.2 e (List.mem_cons_self _ _)
    have hpg : p ≠ g := by
      intro e; subst e; rw [hg] at hp; cases hp; exact hk hgk
    obtain ⟨h1, hadd, ⟨grp1, hg1, hgk1, hrep1⟩, hlen1, hframe, _⟩ :=
      addItem_append h fuel g p grp ci done hg hgk hrep hnd'.1 hpd hp hk hpar hnx
        (by simp at hf; omega)
    have hnd1 : (done ++ [p] ++ ps).Nodup := by simpa using hnd
    have hfresh1 : ∀ q ∈ ps, ∃ ci, h1[q]? = some ci ∧ ci.kind ≠ Kind.group ∧
        ci._parentItem = none ∧ ci._nextItem = none := by
      intro q hq
      obtain ⟨cq, hcq, hrest⟩ := hfresh q (List.mem_cons_of_mem _ hq)
      have hqg : q ≠ g := by
        intro e; subst e; rw [hg] at hcq; cases hcq; exact hrest.1 hgk
      have hqp : q ≠ p := fun e => (List.nodup_cons.mp hnd'.2.1).1 (e ▸ hq)
      have hqd : q ∉ done := fun e => hnd'.2.2 e (List.mem_cons_of_mem _ hq)
      exact ⟨cq, by rw [hframe q hqg hqp hqd]; exact hcq, hrest⟩
    obtain ⟨h2, hadds, hgrp2, hlen2⟩ :=
      ih (done ++ [p]) h1 grp1 hg1 hgk1 hrep1 hnd1 hfresh1 (by simp at hf ⊢; omega)
    refine ⟨h2, by simp [addItems, hadd, hadds], ?_, fun q => (hlen2 q).trans (hlen1 q)⟩
    simpa using hgrp2

theorem childSizes_ofParams (h : Heap) (ps : List Ptr) :
    (Forest.ofParams ps).childSizes h = ps.map (lengthAt h) := by
  induction ps with
  | nil => rfl
  | cons p ps ih => simp [Forest.ofParams, Forest.childSizes, ih]

theorem size_ofParams (ps : List Ptr) : (Forest.ofParams ps).size = ps.length := by
  induction ps with
  | nil => rfl
  | cons p ps ih => simp [Forest.ofParams, Forest.size, ih]

/-- C3 as stated fails when the sum leaves the range of `int`: two fresh
parameters of capacities 2147483647 and 1 are added to an empty group; each
child returns its capacity, and `getStorageSize()` of the group returns
-2147483648, not the sum 2147483648. -/
theorem ParameterGroup_getStorageSize_overflow :
    (addItems hugeHeap 4 0 [1, 2]).bind (fun h' => getStorageSize h' 4 0)
      = some (-2147483648)
    ∧ (addItems hugeHeap 4 0 [1, 2]).bind (fun h' => getStorageSize h' 4 1) = some 2147483647
    ∧ (addItems hugeHeap 4 0 [1, 2]).bind (fun h' => getStorageSize h' 4 2) = some 1
    ∧ (addItems hugeHeap 4 0 [1, 2]).bind (fun h' => getStorageSize h' 4 0)
      ≠ some (2147483647 + 1) := by
  decide

/-- C3, amended: for a group whose children form the forest `F`,
`getStorageSize()` returns the sum of what `getStorageSize()` returns on
each child, reduced to the range of `int` by wrap-around, and so the sum
itself whenever the sum lies in that range; a parameter counts with its
capacity `_length`. After `addItem` of fresh, distinct parameters `ps` to an
empty group `getStorageSize()` returns the sum of their capacities, wrapped
in the same way. -/
theorem ParameterGroup_getStorageSize_sum (h : Heap) (g : Ptr) (grp : ConfigItem) (n : Nat)
    (hg : h[g]? = some grp) (hgk : grp.kind = Kind.group) :
    (∀ F : Forest, Represents h F grp._firstItem → F.size + 1 < n →
      ∃ sizes : List Int,
        List.Forall₂ (fun c s => getStorageSize h n c = some s) F.tops sizes ∧
        getStorageSize h n g = some (wrapInt sizes.sum) ∧
        (INT_MIN ≤ sizes.sum → sizes.sum ≤ INT_MAX → getStorageSize h n g = some sizes.sum) ∧
        (∀ c ∈ F.tops, ∀ it, h[c]? = some it → it.kind ≠ Kind.group →
          getStorageSize h n c = some it._length))
    ∧ (∀ ps : List Ptr, grp._firstItem = none → ps.Nodup →
        (∀ p ∈ ps, ∃ ci, h[p]? = some ci ∧ ci.kind ≠ Kind.group ∧ ci._parentItem = none ∧
          ci._nextItem = none) →
        ps.length + 1 < n →
        ∃ h', addItems h n g ps = some h' ∧
          getStorageSize h' n g = some (wrapInt (ps.map (lengthAt h)).sum) ∧
          (INT_MIN ≤ (ps.map (lengthAt h)).sum → (ps.map (lengthAt h)).sum ≤ INT_MAX →
            getStorageSize h' n g = some (ps.map (lengthAt h)).sum)) := by
  refine ⟨?_, ?_⟩
  · intro F hF hn
    obtain ⟨m, rfl⟩ : ∃ m, n = m + 1 := ⟨n - 1, by omega⟩
    have h1 := getStorageSize_loop_forest h F grp._firstItem m 0 hF (by omega)
    have h2 := getStorageSize_loop_forest h F grp._firstItem (m + 1) 0 hF (by omega)
    have hsum : getStorageSize h (m + 1) g = some (wrapInt (F.childSizes h).sum) := by
      simp [getStorageSize, hg, hgk, h1.1, sumInt_zero]
    refine ⟨F.childSizes h, h2.2, hsum, ?_, ?_⟩
    · intro hlo hhi
      rw [hsum, wrapInt_of_range _ hlo hhi]
    · intro c _ it hit hk
      simp [getStorageSize, hit, hk]
  · intro ps hempty hnd hfresh hn
    obtain ⟨h', hadd, ⟨grp', hg', hgk', hrep'⟩, hlen⟩ :=
      addItems_append n g ps [] h grp hg hgk (by rw [hempty]; rfl) (by simpa using hnd)
        hfresh (by simp; omega)
    obtain ⟨m, rfl⟩ : ∃ m, n = m + 1 := ⟨n - 1, by omega⟩
    have h1 := getStorageSize_loop_forest h' (Forest.ofParams ps) grp'._firstItem m 0
      (by simpa using hrep') (by rw [size_ofParams]; omega)
    have hfun : lengthAt h' = lengthAt h := funext hlen
    have hsum : getStorageSize h' (m + 1) g = some (wrapInt (ps.map (lengthAt h)).sum) := by
      simp [getStorageSize, hg', hgk', h1.1, childSizes_ofParams, hfun, sumInt_zero]
    refine ⟨h', hadd, hsum, ?_⟩
    intro hlo hhi
    rw [hsum, wrapInt_of_range _ hlo hhi]

theorem heap_set_self {h : Heap} {p : Ptr} {it : ConfigItem} (hp : h[p]? = some it) :
    h.set p it = h := by
  apply List.ext_getElem?
  intro q
  by_cases hq : q = p
  · subst hq; rw [heap_set_same it hp, hp]
  · rw [heap_set_other it hq]

theorem storedBytes_append (h : Heap) (ps qs : List Ptr) :
    storedBytes h (ps ++ qs) = storedBytes h ps ++ storedBytes h qs := by
  induction ps with
  | nil => rfl
  | cons p ps ih => simp [storedBytes, ih]

/-- `storeValue` with a callback that leaves the bytes of the record alone,
on a well-formed forest: the calls return, the heap is unchanged and the
callback has been applied to the record of each parameter in depth-first
order. -/
theorem storeValue_loop_forest {σ : Type} (cb : Callback σ)
    (hcb : ∀ sd st, (cb sd st).1 = sd.data) (h : Heap) (F : Forest) :
    ∀ (cur : Option Ptr) (n : Nat) (st : σ), Represents h F cur → F.size < n →
      ParameterGroup.storeValue_loop cb n cur (h, st)
        = some (h, F.leaves.foldl (fun s q => (cb (recordAt h q) s).2) st)
      ∧ ∀ p, cur = some p →
          storeValue cb n p (h, st)
            = some (h, F.head.leaves.foldl (fun s q => (cb (recordAt h q) s).2) st) := by
  induction F with
  | nil =>
    intro cur n st hr hn
    simp only [Represents] at hr
    subst hr
    obtain ⟨m, rfl⟩ : ∃ m, n = m + 1 := ⟨n - 1, by simp [Forest.size] at hn; omega⟩
    refine ⟨by simp [ParameterGroup.storeValue_loop, Forest.leaves], ?_⟩
    intro p hp; cases hp
  | param p next ih =>
    intro cur n st hr hn
    simp only [Represents] at hr
    obtain ⟨rfl, it, hit, hk, hnext⟩ := hr
    simp only [Forest.size] at hn
    obtain ⟨m, rfl⟩ : ∃ m, n = m + 2 := ⟨n - 2, by omega⟩
    have hrec : recordAt h p = { data := it.valueBuffer, length := it._length } := by
      simp [recordAt, bufferAt, lengthAt, hit]
    have hcall : ∀ k (st : σ), storeValue cb (k + 1) p (h, st)
        = some (h, (cb (recordAt h p) st).2) := by
      intro k st
      have e : ({ it with valueBuffer := it.valueBuffer } : ConfigItem) = it := rfl
      simp [storeValue, hit, hk, Parameter.storeValue, hrec, hcb, e, heap_set_self hit]
    refine ⟨?_, ?_⟩
    · rw [ParameterGroup.storeValue_loop, hcall m]
      simp only [hit]
      rw [(ih it._nextItem (m + 1) _ hnext (by omega)).1]
      simp [Forest.leaves]
    · intro q hq
      cases hq
      simpa [Forest.head, Forest.leaves] using hcall (m + 1) st
  | group p children next ihc ihn =>
    intro cur n st hr hn
    simp only [Represents] at hr
    obtain ⟨rfl, it, hit, hk, hch, hnext⟩ := hr
    simp only [Forest.size] at hn
    obtain ⟨m, rfl⟩ : ∃ m, n = m + 3 := ⟨n - 3, by omega⟩
    have hcall : ∀ k (st : σ), children.size < k →
        storeValue cb (k + 1) p (h, st)
          = some (h, children.leaves.foldl (fun s q => (cb (recordAt h q) s).2) st) := by
      intro k st hk'
      have := (ihc it._firstItem k st hch hk').1
      simp [storeValue, hit, hk, this]
    refine ⟨?_, ?_⟩
    · rw [ParameterGroup.storeValue_loop, hcall (m + 1) st (by omega)]
      simp only [hit]
      rw [(ihn it._nextItem (m + 2) _ hnext (by omega)).1]
      simp [Forest.leaves]
    · intro q hq
      cases hq
      simpa [Forest.head, Forest.leaves] using hcall (m + 2) st (by omega)

/-- `loadValue` runs the same code as `storeValue`. -/
theorem loadValue_eq_storeValue {σ : Type} (cb : Callback σ) (n : Nat) :
    (∀ p hs, loadValue cb n p hs = storeValue cb n p hs) ∧
    (∀ cur hs, ParameterGroup.loadValue_loop cb n cur hs
      = ParameterGroup.storeValue_loop cb n cur hs) := by
  induction n with
  | zero =>
    refine ⟨fun p hs => ?_, fun cur hs => ?_⟩
    · simp [loadValue, storeValue]
    · simp [ParameterGroup.loadValue_loop, ParameterGroup.storeValue_loop]
  | succ n ih =>
    refine ⟨fun p hs => ?_, fun cur hs => ?_⟩
    · obtain ⟨h, st⟩ := hs
      simp only [loadValue, storeValue, ih.2, Parameter.loadValue, Parameter.storeValue]
    · cases cur with
      | none => simp [ParameterGroup.loadValue_loop, ParameterGroup.storeValue_loop]
      | some c =>
        simp only [ParameterGroup.loadValue_loop, ParameterGroup.storeValue_loop, ih.1, ih.2]

theorem foldl_appendWriter (h : Heap) (ps : List Ptr) (w : List Char) :
    ps.foldl (fun s q => (appendWriter (recordAt h q) s).2) w = w ++ storedBytes h ps := by
  induction ps generalizing w with
  | nil => simp [storedBytes]
  | cons p ps ih =>
    rw [List.foldl_cons, ih]
    simp [storedBytes, appendWriter, recordAt]

theorem foldl_recorder (h : Heap) (ps : List Ptr) (log : List SerializationData) :
    ps.foldl (fun s q => (recorder (recordAt h q) s).2) log = log ++ ps.map (recordAt h) := by
  induction ps generalizing log with
  | nil => simp
  | cons p ps ih =>
    rw [List.foldl_cons, ih]
    simp [recorder]

theorem Loaded_nil {h1 h2 : Heap} (hb : BufOnly h1 h2) : Loaded h1 h2 h2 [] :=
  ⟨hb, fun _ hq => by simp at hq, fun _ e => e, fun _ _ => rfl⟩

theorem Loaded_append {h1 h2 h3 h4 : Heap} {ls ms : List Ptr}
    (h23 : Loaded h1 h2 h3 ls) (h34 : Loaded h1 h3 h4 ms) : Loaded h1 h2 h4 (ls ++ ms) := by
  obtain ⟨_, a2, a3, a4⟩ := h23
  obtain ⟨b1, b2, b3, b4⟩ := h34
  refine ⟨b1, ?_, fun q e => b3 q (a3 q e), ?_⟩
  · intro q hq
    rcases List.mem_append.mp hq with hl | hm
    · exact b3 q (a2 q hl)
    · exact b2 q hm
  · intro q hq
    rw [b4 q (fun e => hq (List.mem_append_right _ e)),
      a4 q (fun e => hq (List.mem_append_left _ e))]

theorem BufOnly_represents {h1 h2 : Heap} (hb : BufOnly h1 h2) (F : Forest) (cur : Option Ptr)
    (hr : Represents h1 F cur) : Represents h2 F cur := by
  refine Represents_congr ?_ F cur hr
  intro q it hq
  obtain ⟨b, _, hb2⟩ := hb q it hq
  exact ⟨_, hb2, rfl, rfl, rfl⟩

/-- `loadValue` of one parameter with the filling reader. -/
theorem loadValue_param (h1 h2 : Heap) (p : Ptr) (it : ConfigItem) (k : Nat) (rest : List Char)
    (hb : BufOnly h1 h2) (hit : h1[p]? = some it) (hk : it.kind ≠ Kind.group)
    (hcap : it.valueBuffer.length = it._length.toNat) :
    ∃ h3, loadValue fillReader (k + 1) p (h2, storedBytes h1 [p] ++ rest) = some (h3, rest) ∧
      Loaded h1 h2 h3 [p] ∧ h3[p]? = some it := by
  obtain ⟨b, hbl, hb2⟩ := hb p it hit
  have hbytes : storedBytes h1 [p] = it.valueBuffer := by
    simp [storedBytes, bufferAt, lengthAt, hit, ← hcap]
  have htake : (it.valueBuffer ++ rest).take it._length.toNat = it.valueBuffer := by
    rw [← hcap]; simp
  have hdrop : (it.valueBuffer ++ rest).drop it._length.toNat = rest := by
    rw [← hcap]; simp
  have hset : (h2.set p { ({ it with valueBuffer := b } : ConfigItem) with
      valueBuffer := it.valueBuffer })[p]? = some it := heap_set_same _ hb2
  refine ⟨h2.set p it, ?_, ⟨?_, ?_, ?_, ?_⟩, heap_set_same _ hb2⟩
  · simp [loadValue, hb2, hk, Parameter.loadValue, fillReader, hbytes, htake, hdrop,
      poke_full _ _ hbl.symm]
  · intro q itq hq
    by_cases hqp : q = p
    · subst hqp
      rw [hit] at hq; cases hq
      exact ⟨it.valueBuffer, rfl, heap_set_same _ hb2⟩
    · rw [heap_set_other _ hqp]; exact hb q itq hq
  · intro q hq
    rw [List.mem_singleton] at hq
    subst hq
    simp [bufferAt, heap_set_same it hb2, hit]
  · intro q e
    by_cases hqp : q = p
    · subst hqp
      simp [bufferAt, heap_set_same it hb2, hit]
    · simpa [bufferAt, heap_set_other it hqp] using e
  · intro q hq
    exact heap_set_other _ (fun e => hq (by simp [e]))

/-- `loadValue` with the filling reader on a well-formed forest whose
buffers have their declared capacity: the calls return, the bytes stored
from `h1` are consumed and the buffers of the parameters are the ones of
`h1`. -/
theorem loadValue_loop_forest (h1 : Heap) (F : Forest) :
    ∀ (cur : Option Ptr) (n : Nat) (h2 : Heap) (rest : List Char),
      Represents h1 F cur → BufOnly h1 h2 → F.size < n →
      ((∀ q ∈ F.leaves, (bufferAt h1 q).length = (lengthAt h1 q).toNat) →
        ∃ h3, ParameterGroup.loadValue_loop fillReader n cur (h2, storedBytes h1 F.leaves ++ rest)
          = some (h3, rest) ∧ Loaded h1 h2 h3 F.leaves)
      ∧ ∀ p, cur = some p →
          (∀ q ∈ F.head.leaves, (bufferAt h1 q).length = (lengthAt h1 q).toNat) →
          ∃ h3, loadValue fillReader n p (h2, storedBytes h1 F.head.leaves ++ rest)
            = some (h3, rest) ∧ Loaded h1 h2 h3 F.head.leaves := by
  induction F with
  | nil =>
    intro cur n h2 rest hr hb hn
    simp only [Represents] at hr
    subst hr
    obtain ⟨m, rfl⟩ : ∃ m, n = m + 1 := ⟨n - 1, by simp [Forest.size] at hn; omega⟩
    refine ⟨fun _ => ⟨h2, by simp [ParameterGroup.loadValue_loop, Forest.leaves, storedBytes],
      Loaded_nil hb⟩, ?_⟩
    intro p hp; cases hp
  | param p next ih =>
    intro cur n h2 rest hr hb hn
    simp only [Represents] at hr
    obtain ⟨rfl, it, hit, hk, hnext⟩ := hr
    simp only [Forest.size] at hn
    obtain ⟨m, rfl⟩ : ∃ m, n = m + 2 := ⟨n - 2, by omega⟩
    have hcapp : (bufferAt h1 p).length = (lengthAt h1 p).toNat →
        it.valueBuffer.length = it._length.toNat := by
      intro this
      simpa [bufferAt, lengthAt, hit] using this
    refine ⟨?_, ?_⟩
    · intro hcap
      obtain ⟨h3, hload, hl3, h3p⟩ := loadValue_param h1 h2 p it m
        (storedBytes h1 next.leaves ++ rest) hb hit hk (hcapp (hcap p (by simp [Forest.leaves])))
      obtain ⟨h4, hloop, hl4⟩ := (ih it._nextItem (m + 1) h3 rest hnext hl3.1 (by omega)).1
        (fun q hq => hcap q (by simp [Forest.leaves, hq]))
      refine ⟨h4, ?_, by simpa [Forest.leaves] using Loaded_append hl3 hl4⟩
      have e : storedBytes h1 (Forest.param p next).leaves ++ rest
          = storedBytes h1 [p] ++ (storedBytes h1 next.leaves ++ rest) := by
        simp [Forest.leaves, storedBytes]
      rw [ParameterGroup.loadValue_loop, e, hload]
      simp only [h3p]
      exact hloop
    · intro q hq hcap
      cases hq
      obtain ⟨h3, hload, hl3, _⟩ := loadValue_param h1 h2 p it (m + 1) rest hb hit hk
        (hcapp (hcap p (by simp [Forest.head, Forest.leaves])))
      exact ⟨h3, by simpa [Forest.head, Forest.leaves] using hload,
        by simpa [Forest.head, Forest.leaves] using hl3⟩
  | group p children next ihc ihn =>
    intro cur n h2 rest hr hb hn
    simp only [Represents] at hr
    obtain ⟨rfl, it, hit, hk, hch, hnext⟩ := hr
    simp only [Forest.size] at hn
    obtain ⟨m, rfl⟩ : ∃ m, n = m + 3 := ⟨n - 3, by omega⟩
    have hcall : ∀ k (h2 : Heap) (rest : List Char), BufOnly h1 h2 → children.size < k →
        (∀ q ∈ children.leaves, (bufferAt h1 q).length = (lengthAt h1 q).toNat) →
        ∃ h3, loadValue fillReader (k + 1) p (h2, storedBytes h1 children.leaves ++ rest)
          = some (h3, rest) ∧ Loaded h1 h2 h3 children.leaves := by
      intro k h2 rest hb hk' hcap
      obtain ⟨b, _, hb2⟩ := hb p it hit
      obtain ⟨h3, hloop, hl3⟩ := (ihc it._firstItem k h2 rest hch hb hk').1 hcap
      exact ⟨h3, by simp [loadValue, hb2, hk, hloop], hl3⟩
    refine ⟨?_, ?_⟩
    · intro hcap
      obtain ⟨h3, hload, hl3⟩ := hcall (m + 1) h2 (storedBytes h1 next.leaves ++ rest) hb
        (by omega) (fun q hq => hcap q (by simp [Forest.leaves, hq]))
      obtain ⟨h4, hloop, hl4⟩ := (ihn it._nextItem (m + 2) h3 rest hnext hl3.1 (by omega)).1
        (fun q hq => hcap q (by simp [Forest.leaves, hq]))
      refine ⟨h4, ?_, by simpa [Forest.leaves] using Loaded_append hl3 hl4⟩
      obtain ⟨b3, _, hb3⟩ := hl3.1 p it hit
      have e : storedBytes h1 (Forest.group p children next).leaves ++ rest
          = storedBytes h1 children.leaves ++ (storedBytes h1 next.leaves ++ rest) := by
        simp [Forest.leaves, storedBytes_append]
      rw [ParameterGroup.loadValue_loop, e, hload]
      simp only [hb3]
      exact hloop
    · intro q hq hcap
      cases hq
      obtain ⟨h3, hload, hl3⟩ := hcall (m + 2) h2 rest hb (by omega)
        (fun q hq => hcap q (by simpa [Forest.head, Forest.leaves] using hq))
      exact ⟨h3, by simpa [Forest.head, Forest.leaves] using hload,
        by simpa [Forest.head, Forest.leaves] using hl3⟩

theorem Represents_leaves {h : Heap} (F : Forest) :
    ∀ cur, Represents h F cur → ∀ q ∈ F.leaves, ∃ it, h[q]? = some it ∧ it.kind ≠ Kind.group := by
  induction F with
  | nil => intro cur _ q hq; simp [Forest.leaves] at hq
  | param p next ih =>
    intro cur hr q hq
    obtain ⟨_, it, hit, hk, hnext⟩ := hr
    rcases List.mem_cons.mp hq with rfl | hq'
    · exact ⟨it, hit, hk⟩
    · exact ih _ hnext q hq'
  | group p children next ihc ihn =>
    intro cur hr q hq
    obtain ⟨_, it, _, _, hch, hnext⟩ := hr
    rcases List.mem_append.mp hq with hq' | hq'
    · exact ihc _ hch q hq'
    · exact ihn _ hnext q hq'

theorem head_leaves_subset (F : Forest) : ∀ q ∈ F.head.leaves, q ∈ F.leaves := by
  cases F with
  | nil => intro q hq; exact hq
  | param p next => intro q hq; simp [Forest.head, Forest.leaves] at hq ⊢; exact Or.inl hq
  | group p children next =>
    intro q hq; simp [Forest.head, Forest.leaves] at hq ⊢; exact Or.inl hq

theorem BufOnly_zeroBuffers (h : Heap) : BufOnly h (zeroBuffers h) := by
  intro q it hq
  exact ⟨List.replicate it.valueBuffer.length NUL, by simp, by simp [zeroBuffers, hq]⟩

/-- C2: store/load round trip. For the object at `root` of a well-formed tree
(a parameter, or a group with everything below it) whose buffers have their
declared capacity: `storeValue` with the appending writer returns and leaves
the heap as it is; `loadValue` with the filling reader, started on the same
tree with all buffers zeroed and on the bytes written, returns, consumes all
the bytes, and every parameter of the tree is then equal to the original,
buffer included. -/
theorem store_load_round_trip (h1 : Heap) (root : Ptr) (F : Forest) (n : Nat)
    (hr : Represents h1 F (some root))
    (hcap : ∀ q ∈ F.head.leaves, (bufferAt h1 q).length = (lengthAt h1 q).toNat)
    (hn : F.size < n) :
    ∃ bytes h3,
      storeValue appendWriter n root (h1, []) = some (h1, bytes) ∧
      loadValue fillReader n root (zeroBuffers h1, bytes) = some (h3, []) ∧
      (∀ q ∈ F.head.leaves, bufferAt h3 q = bufferAt h1 q ∧ h3[q]? = h1[q]?) ∧
      bytes = storedBytes h1 F.head.leaves := by
  have hs := (storeValue_loop_forest appendWriter (fun _ _ => rfl) h1 F (some root) n [] hr hn).2
    root rfl
  rw [foldl_appendWriter] at hs
  obtain ⟨h3, hl, hl3⟩ := (loadValue_loop_forest h1 F (some root) n (zeroBuffers h1) [] hr
    (BufOnly_zeroBuffers h1) hn).2 root rfl hcap
  refine ⟨storedBytes h1 F.head.leaves, h3, by simpa using hs, by simpa using hl, ?_, rfl⟩
  intro q hq
  have hbq := hl3.2.1 q hq
  refine ⟨hbq, ?_⟩
  obtain ⟨it, hq1, _⟩ := Represents_leaves F _ hr q (head_leaves_subset F q hq)
  obtain ⟨b, _, hb3⟩ := hl3.1 q it hq1
  have : b = it.valueBuffer := by simpa [bufferAt, hb3, hq1] using hbq
  rw [hb3, hq1, this]

theorem CustomOnly_refl (h : Heap) : CustomOnly h h :=
  fun _ it hq => ⟨it.customHtml, hq, fun _ => rfl⟩

theorem CustomOnly_represents {h0 h : Heap} (hc : CustomOnly h0 h) (F : Forest)
    (cur : Option Ptr) (hr : Represents h0 F cur) : Represents h F cur := by
  refine Represents_congr ?_ F cur hr
  intro q it hq
  obtain ⟨c, hc2, _⟩ := hc q it hq
  exact ⟨_, hc2, rfl, rfl, rfl⟩

theorem renderHtml_checkbox (T : Templates) (d : Bool) (w : WebRequestWrapper) (x : ConfigItem)
    (hx : x.kind = Kind.checkbox) :
    TextParameter.renderHtml T x d w
      = CheckboxParameter.renderHtml_post T x d (w.hasArg x._id) (w.arg x._id) := by
  simp only [TextParameter.renderHtml, Parameter.renderHtml_post, hx, ConfigItem.getId]

theorem checkbox_render_custom (T : Templates) (d a : Bool) (v : Str) (it : ConfigItem)
    (c : Option Str) :
    CheckboxParameter.renderHtml_post T { it with customHtml := c } d a v
      = CheckboxParameter.renderHtml_post T it d a v := rfl

theorem checkbox_render_fst (T : Templates) (d a : Bool) (v : Str) (it : ConfigItem) :
    ∃ c' : Option Str,
      (CheckboxParameter.renderHtml_post T it d a v).1 = { it with customHtml := c' } := by
  simp only [CheckboxParameter.renderHtml_post]
  split_ifs <;> exact ⟨_, rfl⟩

theorem renderHtml_other (T : Templates) (d : Bool) (w : WebRequestWrapper) (x : ConfigItem)
    (hx : x.kind ≠ Kind.checkbox) : (TextParameter.renderHtml T x d w).1 = x := by
  cases hkk : x.kind <;>
    simp [TextParameter.renderHtml, Parameter.renderHtml_post, hkk] at hx ⊢

/-- Rendering a parameter whose `customHtml` may have been assigned by an
earlier rendering: the text is the same, and only `customHtml` of a checkbox
is assigned. -/
theorem render_item (T : Templates) (d : Bool) (w : WebRequestWrapper) (it : ConfigItem)
    (c : Option Str) (hc : it.kind ≠ Kind.checkbox → c = it.customHtml) :
    (TextParameter.renderHtml T { it with customHtml := c } d w).2
        = (TextParameter.renderHtml T it d w).2
      ∧ ∃ c' : Option Str,
          (TextParameter.renderHtml T { it with customHtml := c } d w).1
            = { it with customHtml := c' } ∧
          (it.kind ≠ Kind.checkbox → c' = it.customHtml) := by
  by_cases hk : it.kind = Kind.checkbox
  · have e1 := renderHtml_checkbox T d w { it with customHtml := c } hk
    have e2 := renderHtml_checkbox T d w it hk
    have e3 := checkbox_render_custom T d (w.hasArg it._id) (w.arg it._id) it c
    obtain ⟨c', hc'⟩ := checkbox_render_fst T d (w.hasArg it._id) (w.arg it._id) it
    refine ⟨?_, c', ?_, fun e => absurd hk e⟩
    · rw [e1, e2]; exact congrArg Prod.snd e3
    · rw [e1]; exact (congrArg Prod.fst e3).trans hc'
  · have hcc := hc hk
    subst hcc
    exact ⟨rfl, it.customHtml, renderHtml_other T d w it hk, fun _ => rfl⟩

theorem CustomOnly_group {h0 h : Heap} (hc : CustomOnly h0 h) {p : Ptr} {grp : ConfigItem}
    (hp : h0[p]? = some grp) (hk : grp.kind = Kind.group) : h[p]? = some grp := by
  obtain ⟨c, hc2, hcc⟩ := hc p grp hp
  have : c = grp.customHtml := hcc (by rw [hk]; decide)
  rw [hc2, this]

/-- The virtual `renderHtml` call on a group, from what its loop does on the
children. -/
theorem render_group_call (T : Templates) (d : Bool) (w : WebRequestWrapper) (h0 : Heap)
    (p : Ptr) (grp : ConfigItem) (F : Forest) (hp : h0[p]? = some grp)
    (hk : grp.kind = Kind.group) (k : Nat)
    (hloop : ∀ (h : Heap) (out : List Str), CustomOnly h0 h →
      ∃ h', ParameterGroup.renderHtml_loop T d w k grp._firstItem (h, out)
        = some (h', out ++ F.html T d w h0) ∧ CustomOnly h0 h')
    (h : Heap) (out : List Str) (hc : CustomOnly h0 h) :
    ∃ h', renderHtml T d w (k + 1) p (h, out)
        = some (h', out ++ (groupOpen grp ++ F.html T d w h0 ++ groupClose grp))
      ∧ CustomOnly h0 h' := by
  have hpg := CustomOnly_group hc hp hk
  cases hl : grp.label with
  | none =>
    obtain ⟨h2, hloop2, hc2⟩ := hloop h out hc
    have hpg2 := CustomOnly_group hc2 hp hk
    refine ⟨h2, ?_, hc2⟩
    simp [renderHtml, hpg, hk, hl, hloop2, hpg2, groupOpen, groupClose]
  | some label =>
    obtain ⟨h2, hloop2, hc2⟩ := hloop h (out ++ [ParameterGroup.renderHtml_open grp label]) hc
    have hpg2 := CustomOnly_group hc2 hp hk
    refine ⟨h2, ?_, hc2⟩
    simp [renderHtml, hpg, hk, hl, hloop2, hpg2, groupOpen, groupClose]

/-- The virtual `renderHtml` call on a parameter. -/
theorem render_param_call (T : Templates) (d : Bool) (w : WebRequestWrapper) (h0 : Heap)
    (p : Ptr) (it : ConfigItem) (hp : h0[p]? = some it) (hk : it.kind ≠ Kind.group) (k : Nat)
    (h : Heap) (out : List Str) (hc : CustomOnly h0 h) :
    ∃ h', renderHtml T d w (k + 1) p (h, out)
        = some (h', out ++ [(TextParameter.renderHtml T it d w).2])
      ∧ CustomOnly h0 h' := by
  obtain ⟨c, hc2, hcc⟩ := hc p it hp
  obtain ⟨e2, c', e1, hcc'⟩ := render_item T d w it c hcc
  refine ⟨h.set p { it with customHtml := c' }, ?_, ?_⟩
  · simp only [renderHtml, hc2]
    rw [if_neg hk, e1, e2]
  · intro q itq hq
    by_cases hqp : q = p
    · subst hqp
      rw [hp] at hq; cases hq
      exact ⟨c', heap_set_same _ hc2, hcc'⟩
    · rw [heap_set_other _ hqp]; exact hc q itq hq

/-- The loop of `ParameterGroup::renderHtml` on a well-formed forest: it
returns, has sent the chunks `F.html` after what was sent before, and has
assigned nothing but the `customHtml` of checkboxes. -/
theorem renderHtml_loop_forest (T : Templates) (d : Bool) (w : WebRequestWrapper) (h0 : Heap)
    (F : Forest) :
    ∀ (cur : Option Ptr) (n : Nat) (h : Heap) (out : List Str),
      Represents h0 F cur → CustomOnly h0 h → F.size < n →
      ∃ h', ParameterGroup.renderHtml_loop T d w n cur (h, out)
          = some (h', out ++ F.html T d w h0) ∧ CustomOnly h0 h' := by
  induction F with
  | nil =>
    intro cur n h out hr hc hn
    simp only [Represents] at hr
    subst hr
    obtain ⟨m, rfl⟩ : ∃ m, n = m + 1 := ⟨n - 1, by simp [Forest.size] at hn; omega⟩
    exact ⟨h, by simp [ParameterGroup.renderHtml_loop, Forest.html], hc⟩
  | param p next ih =>
    intro cur n h out hr hc hn
    simp only [Represents] at hr
    obtain ⟨rfl, it, hit, hk, hnext⟩ := hr
    simp only [Forest.size] at hn
    obtain ⟨m, rfl⟩ : ∃ m, n = m + 2 := ⟨n - 2, by omega⟩
    obtain ⟨c, hc2, hcc⟩ := hc p it hit
    by_cases hv : it.visible = true
    · obtain ⟨h1, hcall, hc1⟩ := render_param_call T d w h0 p it hit hk m h out hc
      obtain ⟨c1, hc12, _⟩ := hc1 p it hit
      obtain ⟨h2, hloop, hc3⟩ := ih it._nextItem (m + 1) h1
        (out ++ [(TextParameter.renderHtml T it d w).2]) hnext hc1 (by omega)
      refine ⟨h2, ?_, hc3⟩
      simp [ParameterGroup.renderHtml_loop, hc2, hv, hcall, hc12, hloop, Forest.html, hit]
    · obtain ⟨h2, hloop, hc3⟩ := ih it._nextItem (m + 1) h out hnext hc (by omega)
      refine ⟨h2, ?_, hc3⟩
      simp [ParameterGroup.renderHtml_loop, hc2, hv, hloop, Forest.html, hit]
  | group p children next ihc ihn =>
    intro cur n h out hr hc hn
    simp only [Represents] at hr
    obtain ⟨rfl, it, hit, hk, hch, hnext⟩ := hr
    simp only [Forest.size] at hn
    obtain ⟨m, rfl⟩ : ∃ m, n = m + 3 := ⟨n - 3, by omega⟩
    have hpg := CustomOnly_group hc hit hk
    by_cases hv : it.visible = true
    · obtain ⟨h1, hcall, hc1⟩ := render_group_call T d w h0 p it children hit hk (m + 1)
        (fun h out hc => ihc it._firstItem (m + 1) h out hch hc (by omega)) h out hc
      have hpg1 := CustomOnly_group hc1 hit hk
      obtain ⟨h2, hloop, hc3⟩ := ihn it._nextItem (m + 2) h1
        (out ++ (groupOpen it ++ children.html T d w h0 ++ groupClose it)) hnext hc1 (by omega)
      refine ⟨h2, ?_, hc3⟩
      simp only [List.append_assoc] at hloop hcall
      simp [ParameterGroup.renderHtml_loop, hpg, hv, hcall, hpg1, hloop, Forest.html, hit]
    · obtain ⟨h2, hloop, hc3⟩ := ihn it._nextItem (m + 2) h out hnext hc (by omega)
      refine ⟨h2, ?_, hc3⟩
      simp [ParameterGroup.renderHtml_loop, hpg, hv, hloop, Forest.html, hit]

/-- What `ParameterGroup::renderHtml` sends for a well-formed group: the
opening chunk when the label is not `NULL`, the chunks of the visible
children in order, and `</fieldset>` when the label is not `NULL`; the heap
changes in the `customHtml` of checkboxes only. -/
theorem ParameterGroup_renderHtml_chunks (T : Templates) (d : Bool) (w : WebRequestWrapper)
    (h : Heap) (g : Ptr) (grp : ConfigItem) (F : Forest) (n : Nat) (out : List Str)
    (hg : h[g]? = some grp) (hgk : grp.kind = Kind.group)
    (hF : Represents h F grp._firstItem) (hn : F.size + 1 < n) :
    ∃ h', renderHtml T d w n g (h, out)
        = some (h', out ++ (groupOpen grp ++ F.html T d w h ++ groupClose grp))
      ∧ CustomOnly h h' := by
  obtain ⟨m, rfl⟩ : ∃ m, n = m + 1 := ⟨n - 1, by omega⟩
  exact render_group_call T d w h g grp F hg hgk m
    (fun x o hx => renderHtml_loop_forest T d w h F _ m x o hF hx (by omega))
    h out (CustomOnly_refl h)

/-- The opening chunk of a group never holds its id: it is `'>` and, for a
non-empty label, the legend. -/
theorem ParameterGroup_renderHtml_open_eq (this : ConfigItem) (label : Str) :
    ParameterGroup.renderHtml_open this label
      = "'>".toList ++
        (if label = [] then [] else "<legend>".toList ++ label ++ "</legend>".toList) := by
  cases label with
  | nil => rfl
  | cons c cs => simp [ParameterGroup.renderHtml_open]

theorem renderOptions_unlinked (T : Templates) (p : ConfigItem) (a : Bool) (v : Str) :
    ∀ (k i : Nat) (opts : Str),
      SelectParameter.renderOptions T p.unlinked a v k i opts
        = SelectParameter.renderOptions T p a v k i opts := by
  intro k
  induction k with
  | zero => intro i opts; rfl
  | succ k ih =>
    intro i opts
    simp only [SelectParameter.renderOptions]
    exact ih _ _

theorem select_unlinked (T : Templates) (p : ConfigItem) (d a : Bool) (v : Str) :
    SelectParameter.renderHtml_post T p.unlinked d a v = SelectParameter.renderHtml_post T p d a v := by
  simp only [SelectParameter.renderHtml_post]
  rw [show p.unlinked._optionCount = p._optionCount from rfl, renderOptions_unlinked]
  rfl

theorem checkbox_unlinked (T : Templates) (p : ConfigItem) (d a : Bool) (v : Str) :
    (CheckboxParameter.renderHtml_post T p.unlinked d a v).2
      = (CheckboxParameter.renderHtml_post T p d a v).2 := by
  simp only [CheckboxParameter.renderHtml_post]
  rw [show CheckboxParameter.isChecked p.unlinked = CheckboxParameter.isChecked p from rfl]
  split_ifs <;> rfl

theorem render_unlinked (T : Templates) (d : Bool) (w : WebRequestWrapper) (it : ConfigItem) :
    (TextParameter.renderHtml T it d w).2 = (TextParameter.renderHtml T it.unlinked d w).2 := by
  have hk : it.unlinked.kind = it.kind := rfl
  have hid : it.unlinked.getId = it.getId := rfl
  simp only [TextParameter.renderHtml, Parameter.renderHtml_post, hk, hid]
  cases it.kind
  · rfl
  · rfl
  · rfl
  · rfl
  · exact (checkbox_unlinked T it d _ _).symm
  · exact (select_unlinked T it d _ _).symm

theorem same_unlinked {h h' : Heap} {q : Ptr}
    (hs : (h'[q]?).map ConfigItem.unlinked = (h[q]?).map ConfigItem.unlinked) :
    (h'[q]? = none ∧ h[q]? = none) ∨
      ∃ it it', h[q]? = some it ∧ h'[q]? = some it' ∧ it'.unlinked = it.unlinked := by
  cases e : h[q]? with
  | none =>
    cases e' : h'[q]? with
    | none => exact Or.inl ⟨rfl, rfl⟩
    | some it' => rw [e, e'] at hs; cases hs
  | some it =>
    cases e' : h'[q]? with
    | none => rw [e, e'] at hs; cases hs
    | some it' =>
      rw [e, e'] at hs
      exact Or.inr ⟨it, it', rfl, rfl, by simpa using hs⟩

/-- The chunks of a forest depend on the objects only up to their links. -/
theorem html_congr (T : Templates) (d : Bool) (w : WebRequestWrapper) (h h' : Heap) (F : Forest) :
    (∀ q ∈ F.nodes, (h'[q]?).map ConfigItem.unlinked = (h[q]?).map ConfigItem.unlinked) →
      F.html T d w h' = F.html T d w h := by
  induction F with
  | nil => intro _; rfl
  | param p next ih =>
    intro hs
    have ihn := ih (fun q hq => hs q (by simp [Forest.nodes, hq]))
    rcases same_unlinked (hs p (by simp [Forest.nodes])) with ⟨e', e⟩ | ⟨it, it', e, e', hu⟩
    · simp [Forest.html, e, e', ihn]
    · have hv : it'.visible = it.visible :=
        (congrArg ConfigItem.visible hu : it'.unlinked.visible = it.unlinked.visible)
      have hr : (TextParameter.renderHtml T it' d w).2 = (TextParameter.renderHtml T it d w).2 := by
        rw [render_unlinked T d w it', render_unlinked T d w it, hu]
      simp [Forest.html, e, e', ihn, hv, hr]
  | group p children next ihc ihn =>
    intro hs
    have ihc' := ihc (fun q hq => hs q (by simp [Forest.nodes, hq]))
    have ihn' := ihn (fun q hq => hs q (by simp [Forest.nodes, hq]))
    rcases same_unlinked (hs p (by simp [Forest.nodes])) with ⟨e', e⟩ | ⟨it, it', e, e', hu⟩
    · simp [Forest.html, e, e', ihn']
    · have hv : it'.visible = it.visible :=
        (congrArg ConfigItem.visible hu : it'.unlinked.visible = it.unlinked.visible)
      have ho : groupOpen it' = groupOpen it := by
        have : groupOpen it'.unlinked = groupOpen it.unlinked := by rw [hu]
        exact this
      have hcl : groupClose it' = groupClose it := by
        have : groupClose it'.unlinked = groupClose it.unlinked := by rw [hu]
        exact this
      simp [Forest.html, e, e', ihc', ihn', hv, ho, hcl]

/-- An invisible child contributes no chunk. -/
theorem html_eraseTop (T : Templates) (d : Bool) (w : WebRequestWrapper) (h : Heap) (c : Ptr)
    (ci : ConfigItem) (hc : h[c]? = some ci) (hv : ci.visible = false) (F : Forest) :
    (F.eraseTop c).html T d w h = F.html T d w h := by
  induction F with
  | nil => rfl
  | param p next ih =>
    by_cases hp : p = c
    · subst hp; simp [Forest.eraseTop, Forest.html, hc, hv]
    · simp [Forest.eraseTop, Forest.html, hp, ih]
  | group p children next _ ih =>
    by_cases hp : p = c
    · subst hp; simp [Forest.eraseTop, Forest.html, hc, hv]
    · simp [Forest.eraseTop, Forest.html, hp, ih]

theorem size_eraseTop (c : Ptr) (F : Forest) : (F.eraseTop c).size ≤ F.size := by
  induction F with
  | nil => exact Nat.le_refl _
  | param p next ih =>
    by_cases hp : p = c
    · simp [Forest.eraseTop, Forest.size, hp]
    · simp [Forest.eraseTop, Forest.size, hp, ih]
  | group p children next _ ih =>
    by_cases hp : p = c
    · simp [Forest.eraseTop, Forest.size, hp]; omega
    · simp [Forest.eraseTop, Forest.size, hp, ih]

theorem leaves_subset_nodes (F : Forest) : ∀ q ∈ F.leaves, q ∈ F.nodes := by
  induction F with
  | nil => intro q hq; exact hq
  | param p next ih =>
    intro q hq
    rcases List.mem_cons.mp hq with rfl | hq'
    · simp [Forest.nodes]
    · simp [Forest.nodes, ih q hq']
  | group p children next ihc ihn =>
    intro q hq
    rcases List.mem_append.mp hq with hq' | hq'
    · simp [Forest.nodes, ihc q hq']
    · simp [Forest.nodes, ihn q hq']

/-- The sizes of the children depend on the objects only up to their links. -/
theorem childSizes_congr (h h' : Heap) (F : Forest) :
    (∀ q ∈ F.nodes, (h'[q]?).map ConfigItem.unlinked = (h[q]?).map ConfigItem.unlinked) →
      F.childSizes h' = F.childSizes h := by
  have hlen : ∀ q, (h'[q]?).map ConfigItem.unlinked = (h[q]?).map ConfigItem.unlinked →
      lengthAt h' q = lengthAt h q := by
    intro q hs
    rcases same_unlinked hs with ⟨e', e⟩ | ⟨it, it', e, e', hu⟩
    · simp [lengthAt, e, e']
    · have : it'._length = it._length :=
        (congrArg ConfigItem._length hu : it'.unlinked._length = it.unlinked._length)
      simp [lengthAt, e, e', this]
  induction F with
  | nil => intro _; rfl
  | param p next ih =>
    intro hs
    simp [Forest.childSizes, hlen p (hs p (by simp [Forest.nodes])),
      ih (fun q hq => hs q (by simp [Forest.nodes, hq]))]
  | group p children next ihc ihn =>
    intro hs
    simp [Forest.childSizes, ihc (fun q hq => hs q (by simp [Forest.nodes, hq])),
      ihn (fun q hq => hs q (by simp [Forest.nodes, hq]))]

/-- The size of a child is one summand of the size of its group. -/
theorem childSizes_eraseTop (h : Heap) (c : Ptr) (F : Forest) :
    ∀ (cur : Option Ptr) (n : Nat), Represents h F cur → F.size < n → c ∈ F.tops →
      ∃ sc, getStorageSize h n c = some sc ∧
        (F.childSizes h).sum = ((F.eraseTop c).childSizes h).sum + sc := by
  induction F with
  | nil => intro cur n _ _ hc; simp [Forest.tops] at hc
  | param p next ih =>
    intro cur n hr hn hc
    have hF := (getStorageSize_loop_forest h _ cur n 0 hr hn).2
    simp only [Forest.tops, Forest.childSizes] at hF
    obtain ⟨_, it, hit, hk, hnext⟩ := hr
    by_cases hp : p = c
    · subst hp
      cases hF with
      | cons hhead _ =>
        exact ⟨_, hhead, by simp [Forest.eraseTop, Forest.childSizes, add_comm]⟩
    · have hc' : c ∈ next.tops := by
        rcases List.mem_cons.mp hc with e | e
        · exact absurd e.symm hp
        · exact e
      obtain ⟨sc, hsc, hsum⟩ := ih it._nextItem n hnext (by simp [Forest.size] at hn; omega) hc'
      exact ⟨sc, hsc, by simp [Forest.eraseTop, Forest.childSizes, hp, hsum, add_assoc]⟩
  | group p children next _ ih =>
    intro cur n hr hn hc
    have hF := (getStorageSize_loop_forest h _ cur n 0 hr hn).2
    simp only [Forest.tops, Forest.childSizes] at hF
    obtain ⟨_, it, hit, hk, _, hnext⟩ := hr
    by_cases hp : p = c
    · subst hp
      cases hF with
      | cons hhead _ =>
        exact ⟨_, hhead, by simp [Forest.eraseTop, Forest.childSizes, add_comm]⟩
    · have hc' : c ∈ next.tops := by
        rcases List.mem_cons.mp hc with e | e
        · exact absurd e.symm hp
        · exact e
      obtain ⟨sc, hsc, hsum⟩ := ih it._nextItem n hnext (by simp [Forest.size] at hn; omega) hc'
      exact ⟨sc, hsc, by simp [Forest.eraseTop, Forest.childSizes, hp, hsum, add_assoc]⟩

theorem tops_param_leaf {h : Heap} (F : Forest) :
    ∀ cur, Represents h F cur → ∀ c ∈ F.tops, ∀ ci, h[c]? = some ci → ci.kind ≠ Kind.group →
      c ∈ F.leaves := by
  induction F with
  | nil => intro cur _ c hc; simp [Forest.tops] at hc
  | param p next ih =>
    intro cur hr c hc ci hci hk
    obtain ⟨_, it, _, _, hnext⟩ := hr
    rcases List.mem_cons.mp hc with rfl | hc'
    · simp [Forest.leaves]
    · simp [Forest.leaves, ih _ hnext c hc' ci hci hk]
  | group p children next _ ih =>
    intro cur hr c hc ci hci hk
    obtain ⟨_, it, hit, hkit, _, hnext⟩ := hr
    rcases List.mem_cons.mp hc with rfl | hc'
    · rw [hit] at hci; cases hci; exact absurd hkit hk
    · simp [Forest.leaves, ih _ hnext c hc' ci hci hk]

/-- The sizes of the children add up, in `int`, to the sum of the capacities
of the parameters of the forest. -/
theorem childSizes_sum_leaves (h : Heap) (F : Forest) :
    wrapInt (F.childSizes h).sum = wrapInt (F.leaves.map (lengthAt h)).sum := by
  induction F with
  | nil => rfl
  | param p next ih =>
    simp only [Forest.childSizes, Forest.leaves, List.map_cons, List.sum_cons]
    rw [← wrapInt_add_right, ih, wrapInt_add_right]
  | group p children next ihc ihn =>
    simp only [Forest.childSizes, Forest.leaves, List.map_append, List.sum_cons,
      List.sum_append, sumInt_zero]
    rw [ihc, wrapInt_add_left, ← wrapInt_add_right, ihn, wrapInt_add_right]

theorem InvisibleKept_refl (h : Heap) : InvisibleKept h h :=
  fun _ _ hq _ => hq

/-- The virtual `renderHtml` call on a visible parameter leaves the invisible
objects as they are. -/
theorem render_param_call_kept (T : Templates) (d : Bool) (w : WebRequestWrapper) (h0 : Heap)
    (p : Ptr) (it : ConfigItem) (hp : h0[p]? = some it) (hk : it.kind ≠ Kind.group)
    (hv : it.visible = true) (k : Nat)
    (h : Heap) (out : List Str) (hc : CustomOnly h0 h) (hi : InvisibleKept h0 h) :
    ∃ h', renderHtml T d w (k + 1) p (h, out)
        = some (h', out ++ [(TextParameter.renderHtml T it d w).2])
      ∧ CustomOnly h0 h' ∧ InvisibleKept h0 h' := by
  obtain ⟨c, hc2, hcc⟩ := hc p it hp
  obtain ⟨e2, c', e1, hcc'⟩ := render_item T d w it c hcc
  refine ⟨h.set p { it with customHtml := c' }, ?_, ?_, ?_⟩
  · simp only [renderHtml, hc2]
    rw [if_neg hk, e1, e2]
  · intro q itq hq
    by_cases hqp : q = p
    · subst hqp
      rw [hp] at hq; cases hq
      exact ⟨c', heap_set_same _ hc2, hcc'⟩
    · rw [heap_set_other _ hqp]; exact hc q itq hq
  · intro q itq hq hvq
    by_cases hqp : q = p
    · subst hqp
      rw [hp] at hq; cases hq
      rw [hv] at hvq; cases hvq
    · rw [heap_set_other _ hqp]; exact hi q itq hq hvq

/-- The virtual `renderHtml` call on a group, from what its loop does on the
children, with the invisible objects left as they are. -/
theorem render_group_call_kept (T : Templates) (d : Bool) (w : WebRequestWrapper) (h0 : Heap)
    (p : Ptr) (grp : ConfigItem) (F : Forest) (hp : h0[p]? = some grp)
    (hk : grp.kind = Kind.group) (k : Nat)
    (hloop : ∀ (h : Heap) (out : List Str), CustomOnly h0 h → InvisibleKept h0 h →
      ∃ h', ParameterGroup.renderHtml_loop T d w k grp._firstItem (h, out)
        = some (h', out ++ F.html T d w h0) ∧ CustomOnly h0 h' ∧ InvisibleKept h0 h')
    (h : Heap) (out : List Str) (hc : CustomOnly h0 h) (hi : InvisibleKept h0 h) :
    ∃ h', renderHtml T d w (k + 1) p (h, out)
        = some (h', out ++ (groupOpen grp ++ F.html T d w h0 ++ groupClose grp))
      ∧ CustomOnly h0 h' ∧ InvisibleKept h0 h' := by
  have hpg := CustomOnly_group hc hp hk
  cases hl : grp.label with
  | none =>
    obtain ⟨h2, hloop2, hc2, hi2⟩ := hloop h out hc hi
    have hpg2 := CustomOnly_group hc2 hp hk
    refine ⟨h2, ?_, hc2, hi2⟩
    simp [renderHtml, hpg, hk, hl, hloop2, hpg2, groupOpen, groupClose]
  | some label =>
    obtain ⟨h2, hloop2, hc2, hi2⟩ :=
      hloop h (out ++ [ParameterGroup.renderHtml_open grp label]) hc hi
    have hpg2 := CustomOnly_group hc2 hp hk
    refine ⟨h2, ?_, hc2, hi2⟩
    simp [renderHtml, hpg, hk, hl, hloop2, hpg2, groupOpen, groupClose]

/-- The loop of `ParameterGroup::renderHtml` on a well-formed forest leaves
the invisible objects as they are. -/
theorem renderHtml_loop_kept (T : Templates) (d : Bool) (w : WebRequestWrapper) (h0 : Heap)
    (F : Forest) :
    ∀ (cur : Option Ptr) (n : Nat) (h : Heap) (out : List Str),
      Represents h0 F cur → CustomOnly h0 h → InvisibleKept h0 h → F.size < n →
      ∃ h', ParameterGroup.renderHtml_loop T d w n cur (h, out)
          = some (h', out ++ F.html T d w h0) ∧ CustomOnly h0 h' ∧ InvisibleKept h0 h' := by
  induction F with
  | nil =>
    intro cur n h out hr hc hi hn
    simp only [Represents] at hr
    subst hr
    obtain ⟨m, rfl⟩ : ∃ m, n = m + 1 := ⟨n - 1, by simp [Forest.size] at hn; omega⟩
    exact ⟨h, by simp [ParameterGroup.renderHtml_loop, Forest.html], hc, hi⟩
  | param p next ih =>
    intro cur n h out hr hc hi hn
    simp only [Represents] at hr
    obtain ⟨rfl, it, hit, hk, hnext⟩ := hr
    simp only [Forest.size] at hn
    obtain ⟨m, rfl⟩ : ∃ m, n = m + 2 := ⟨n - 2, by omega⟩
    obtain ⟨c, hc2, hcc⟩ := hc p it hit
    by_cases hv : it.visible = true
    · obtain ⟨h1, hcall, hc1, hi1⟩ :=
        render_param_call_kept T d w h0 p it hit hk hv m h out hc hi
      obtain ⟨c1, hc12, _⟩ := hc1 p it hit
      obtain ⟨h2, hloop, hc3, hi3⟩ := ih it._nextItem (m + 1) h1
        (out ++ [(TextParameter.renderHtml T it d w).2]) hnext hc1 hi1 (by omega)
      refine ⟨h2, ?_, hc3, hi3⟩
      simp [ParameterGroup.renderHtml_loop, hc2, hv, hcall, hc12, hloop, Forest.html, hit]
    · obtain ⟨h2, hloop, hc3, hi3⟩ := ih it._nextItem (m + 1) h out hnext hc hi (by omega)
      refine ⟨h2, ?_, hc3, hi3⟩
      simp [ParameterGroup.renderHtml_loop, hc2, hv, hloop, Forest.html, hit]
  | group p children next ihc ihn =>
    intro cur n h out hr hc hi hn
    simp only [Represents] at hr
    obtain ⟨rfl, it, hit, hk, hch, hnext⟩ := hr
    simp only [Forest.size] at hn
    obtain ⟨m, rfl⟩ : ∃ m, n = m + 3 := ⟨n - 3, by omega⟩
    have hpg := CustomOnly_group hc hit hk
    by_cases hv : it.visible = true
    · obtain ⟨h1, hcall, hc1, hi1⟩ :=
        render_group_call_kept T d w h0 p it children hit hk (m + 1)
          (fun h out hc hi => ihc it._firstItem (m + 1) h out hch hc hi (by omega)) h out hc hi
      have hpg1 := CustomOnly_group hc1 hit hk
      obtain ⟨h2, hloop, hc3, hi3⟩ := ihn it._nextItem (m + 2) h1
        (out ++ (groupOpen it ++ children.html T d w h0 ++ groupClose it)) hnext hc1 hi1
        (by omega)
      refine ⟨h2, ?_, hc3, hi3⟩
      simp only [List.append_assoc] at hloop hcall
      simp [ParameterGroup.renderHtml_loop, hpg, hv, hcall, hpg1, hloop, Forest.html, hit]
    · obtain ⟨h2, hloop, hc3, hi3⟩ := ihn it._nextItem (m + 2) h out hnext hc hi (by omega)
      refine ⟨h2, ?_, hc3, hi3⟩
      simp [ParameterGroup.renderHtml_loop, hpg, hv, hloop, Forest.html, hit]

/-- C9: a child `c` of a group with `visible = false`. The heap `h` holds
the group at `g` with children `F`, among them `c`; the heap `h'` holds the
same group without `c` (children `F.eraseTop c`, objects equal up to their
links). Then `renderHtml` returns in both heaps and has sent the same
chunks, those of the children other than `c`; the loop passes from `c` to
its next sibling without a call, with the heap and the output as they are,
and `c` is in the heap after rendering as it was before. `getStorageSize`
in `h` returns the sum of the capacities of all parameters below the group,
which is the size without `c` plus the size of `c` (its capacity when it is a
parameter), in `int`; and `storeValue` and `loadValue` call the callback
once for each parameter below the group in depth-first order, with the
record of `c` among them when `c` is a parameter. -/
theorem invisible_child_skipped (T : Templates) (d : Bool) (w : WebRequestWrapper)
    (h h' : Heap) (g c : Ptr) (grp grp' ci : ConfigItem) (F : Forest) (n : Nat)
    (out : List Str)
    (hg : h[g]? = some grp) (hgk : grp.kind = Kind.group)
    (hF : Represents h F grp._firstItem)
    (hc : c ∈ F.tops) (hci : h[c]? = some ci) (hvis : ci.visible = false)
    (hg' : h'[g]? = some grp') (hgk' : grp'.kind = Kind.group)
    (hgs : grp'.unlinked = grp.unlinked)
    (hF' : Represents h' (F.eraseTop c) grp'._firstItem)
    (hsame : ∀ q ∈ (F.eraseTop c).nodes,
      (h'[q]?).map ConfigItem.unlinked = (h[q]?).map ConfigItem.unlinked)
    (hn : F.size + 1 < n) :
    (∃ h1 h1',
        renderHtml T d w n g (h, out)
          = some (h1, out ++ (groupOpen grp ++ (F.eraseTop c).html T d w h ++ groupClose grp)) ∧
        renderHtml T d w n g (h', out)
          = some (h1', out ++ (groupOpen grp ++ (F.eraseTop c).html T d w h ++ groupClose grp)) ∧
        CustomOnly h h1 ∧ CustomOnly h' h1' ∧ h1[c]? = some ci)
    ∧ (∀ (hh : Heap) (o : List Str) (m : Nat), hh[c]? = some ci →
        ParameterGroup.renderHtml_loop T d w (m + 1) (some c) (hh, o)
          = ParameterGroup.renderHtml_loop T d w m ci._nextItem (hh, o))
    ∧ (∃ sc : Int,
        getStorageSize h n c = some sc ∧ (ci.kind ≠ Kind.group → sc = ci._length) ∧
        getStorageSize h' n g
          = some (wrapInt ((F.eraseTop c).leaves.map (lengthAt h)).sum) ∧
        getStorageSize h n g
          = some (wrapInt (wrapInt ((F.eraseTop c).leaves.map (lengthAt h)).sum + sc)) ∧
        getStorageSize h n g = some (wrapInt (F.leaves.map (lengthAt h)).sum))
    ∧ (storeValue recorder n g (h, []) = some (h, F.leaves.map (recordAt h)) ∧
        loadValue recorder n g (h, []) = some (h, F.leaves.map (recordAt h)) ∧
        (ci.kind ≠ Kind.group →
          c ∈ F.leaves ∧
          ({ data := ci.valueBuffer, length := ci._length } : SerializationData)
            ∈ F.leaves.map (recordAt h))) := by
  obtain ⟨m, rfl⟩ : ∃ m, n = m + 1 := ⟨n - 1, by omega⟩
  have hsz := size_eraseTop c F
  refine ⟨?_, ?_, ?_, ?_⟩
  · obtain ⟨h1, hr1, hc1, hi1⟩ := render_group_call_kept T d w h g grp F hg hgk m
      (fun x o hx hy => renderHtml_loop_kept T d w h F _ m x o hF hx hy (by omega))
      h out (CustomOnly_refl h) (InvisibleKept_refl h)
    obtain ⟨h1', hr1', hc1'⟩ := render_group_call T d w h' g grp' (F.eraseTop c) hg' hgk' m
      (fun x o hx => renderHtml_loop_forest T d w h' _ _ m x o hF' hx (by omega))
      h' out (CustomOnly_refl h')
    have ho : groupOpen grp' = groupOpen grp :=
      (congrArg groupOpen hgs : groupOpen grp'.unlinked = groupOpen grp.unlinked)
    have hcl : groupClose grp' = groupClose grp :=
      (congrArg groupClose hgs : groupClose grp'.unlinked = groupClose grp.unlinked)
    refine ⟨h1, h1', ?_, ?_, hc1, hc1', hi1 c ci hci hvis⟩
    · rw [hr1, html_eraseTop T d w h c ci hci hvis F]
    · rw [hr1', html_congr T d w h h' _ hsame, ho, hcl]
  · intro hh o k hcc
    simp [ParameterGroup.renderHtml_loop, hcc, hvis]
  · obtain ⟨sc, hsc, hsum⟩ := childSizes_eraseTop h c F _ (m + 1) hF (by omega) hc
    have e1 := (getStorageSize_loop_forest h F _ m 0 hF (by omega)).1
    have e2 := (getStorageSize_loop_forest h' (F.eraseTop c) _ m 0 hF' (by omega)).1
    have hsg : getStorageSize h (m + 1) g = some (wrapInt (F.childSizes h).sum) := by
      simp [getStorageSize, hg, hgk, e1, sumInt_zero]
    refine ⟨sc, hsc, ?_, ?_, ?_, ?_⟩
    · intro hk
      have : getStorageSize h (m + 1) c = some ci._length := by
        simp [getStorageSize, hci, hk]
      rw [this] at hsc
      exact (Option.some.inj hsc).symm
    · simp [getStorageSize, hg', hgk', e2, childSizes_congr h h' _ hsame, sumInt_zero,
        childSizes_sum_leaves]
    · rw [hsg, hsum, ← childSizes_sum_leaves, wrapInt_add_left]
    · rw [hsg, childSizes_sum_leaves]
  · have hs := (storeValue_loop_forest recorder (fun _ _ => rfl) h F _ m [] hF (by omega)).1
    rw [foldl_recorder] at hs
    have hst : storeValue recorder (m + 1) g (h, []) = some (h, F.leaves.map (recordAt h)) := by
      simpa [storeValue, hg, hgk] using hs
    refine ⟨hst, ?_, ?_⟩
    · rw [(loadValue_eq_storeValue recorder (m + 1)).1]; exact hst
    · intro hk
      have hmem := tops_param_leaf F _ hF c hc ci hci hk
      refine ⟨hmem, List.mem_map.mpr ⟨c, hmem, ?_⟩⟩
      simp [recordAt, bufferAt, lengthAt, hci]

theorem sampleHeap_represents :
    Represents sampleHeap sampleForest (some 1) :=
  ⟨rfl, _, rfl, by decide, rfl, _, rfl, rfl, ⟨rfl, _, rfl, by decide, rfl⟩,
    ⟨rfl, _, rfl, by decide, rfl⟩⟩

theorem sampleHeapWithout_represents :
    Represents sampleHeapWithout (sampleForest.eraseTop 4) (some 1) :=
  ⟨rfl, _, rfl, by decide, rfl, _, rfl, rfl, ⟨rfl, _, rfl, by decide, rfl⟩, rfl⟩

/-- C4: `g1.addItem(x)` on an empty group `g1` returns before it sets the
parent of `x`; `g2.addItem(x)` then links `x` into `g2` as well. After the
two calls `x` is the first child of both groups and its parent is still
`NULL`. -/
theorem addItem_first_child_twice :
    ((ParameterGroup.addItem twoGroups 3 0 2).bind
        (fun h1 => ParameterGroup.addItem h1 3 1 2)).map
      (fun h2 => ((h2[0]?).map ConfigItem._firstItem, (h2[1]?).map ConfigItem._firstItem,
        (h2[2]?).map ConfigItem._parentItem))
      = some (some (some 2), some (some 2), some none) := by
  decide

/-- C10: a group with id "g1", label "G1" and no children sends the two
chunks `'><legend>G1</legend>` and `</fieldset>`: the assignment
`content = "'>"` has dropped the opening tag and the id. -/
theorem ParameterGroup_renderHtml_open_lost :
    (renderHtml sampleTemplates false emptyRequest 3 0 (twoGroups, [])).map Prod.snd
      = some ["'><legend>G1</legend>".toList, "</fieldset>".toList]
    ∧ ¬ ("<fieldset id='g1'>".toList).isPrefixOf "'><legend>G1</legend>".toList := by
  decide

theorem sampleHeap_root_represents :
    Represents sampleHeap (Forest.group 0 sampleForest Forest.nil) (some 0) :=
  ⟨rfl, _, rfl, rfl, sampleHeap_represents, rfl⟩

/-- Witness of `store_load_round_trip` on the tree of `sampleHeap`: the 19
bytes of the three buffers are written and read back. -/
theorem store_load_round_trip_witness :
    ∃ bytes h3,
      storeValue appendWriter 9 0 (sampleHeap, []) = some (sampleHeap, bytes) ∧
      loadValue fillReader 9 0 (zeroBuffers sampleHeap, bytes) = some (h3, []) ∧
      (∀ q ∈ [1, 3, 4], bufferAt h3 q = bufferAt sampleHeap q ∧ h3[q]? = sampleHeap[q]?) ∧
      bytes = "ab".toList ++ [NUL, NUL] ++ ("cdefg".toList ++ [NUL])
        ++ ("selected".toList ++ [NUL]) := by
  obtain ⟨bytes, h3, hs, hl, hq, hb⟩ :=
    store_load_round_trip sampleHeap 0 (Forest.group 0 sampleForest Forest.nil) 9
      sampleHeap_root_represents (by decide) (by decide)
  exact ⟨bytes, h3, hs, hl, hq, hb.trans (by decide)⟩

/-- Witness of `ParameterGroup_getStorageSize_sum`: the children of the
group of `sampleHeap`, and three fresh parameters added to the empty group of
`freshHeap`. -/
theorem ParameterGroup_getStorageSize_sum_witness :
    (∃ sizes : List Int,
      List.Forall₂ (fun c s => getStorageSize sampleHeap 9 c = some s) [1, 2, 4] sizes ∧
      getStorageSize sampleHeap 9 0 = some (wrapInt sizes.sum))
    ∧ ∃ h', addItems freshHeap 5 0 [1, 2, 3] = some h' ∧ getStorageSize h' 5 0 = some 19 := by
  refine ⟨?_, ?_⟩
  · obtain ⟨sizes, h1, h2, _⟩ :=
      (ParameterGroup_getStorageSize_sum sampleHeap 0 _ 9 rfl rfl).1 sampleForest
        sampleHeap_represents (by decide)
    exact ⟨sizes, h1, h2⟩
  · obtain ⟨h', h1, _, h2⟩ :=
      (ParameterGroup_getStorageSize_sum freshHeap 0 _ 5 rfl rfl).2 [1, 2, 3] rfl
        (by decide)
        (by
          intro p hp
          simp only [List.mem_cons, List.mem_singleton, List.not_mem_nil, or_false] at hp
          rcases hp with rfl | rfl | rfl
          · exact ⟨_, rfl, by decide, rfl, rfl⟩
          · exact ⟨_, rfl, by decide, rfl, rfl⟩
          · exact ⟨_, rfl, by decide, rfl, rfl⟩)
        (by decide)
    exact ⟨h', h1, h2 (by decide) (by decide)⟩

/-- Witness of `PasswordParameter_renderHtml_no_echo`: two password
parameters with the buffers "secret" and "other" and different posted
values render the same text. -/
theorem PasswordParameter_renderHtml_no_echo_witness :
    PasswordParameter.renderHtml_post sampleTemplates
        (sampleParameter Kind.password ("secret".toList ++ [NUL]) 7 none) true true "typed".toList
      = PasswordParameter.renderHtml_post sampleTemplates
        (sampleParameter Kind.password ("other".toList ++ [NUL, NUL]) 7 none) false false [] :=
  (PasswordParameter_renderHtml_no_echo sampleTemplates
    (sampleParameter Kind.password ("secret".toList ++ [NUL]) 7 none)
    (sampleParameter Kind.password ("other".toList ++ [NUL, NUL]) 7 none)
    true false true false "typed".toList [] emptyRequest emptyRequest
    rfl rfl rfl rfl rfl rfl rfl rfl).1

/-- Witness of `invisible_child_skipped`: the invisible checkbox at 4 in
`sampleHeap`, and `sampleHeapWithout` where it is not in the group. The
checkbox holds "selected" and would be given the `checked` attribute by a
call of its `renderHtml`; it is in the heap as it was. -/
theorem invisible_child_skipped_witness :
    (∃ h1 h1' o,
        renderHtml sampleTemplates false emptyRequest 9 0 (sampleHeap, []) = some (h1, o) ∧
        renderHtml sampleTemplates false emptyRequest 9 0 (sampleHeapWithout, []) = some (h1', o) ∧
        h1[4]? = sampleHeap[4]?)
    ∧ getStorageSize sampleHeap 9 4 = some 9
    ∧ getStorageSize sampleHeapWithout 9 0 = some 10
    ∧ getStorageSize sampleHeap 9 0 = some 19
    ∧ ({ data := "selected".toList ++ [NUL], length := 9 } : SerializationData)
        ∈ sampleForest.leaves.map (recordAt sampleHeap) := by
  obtain ⟨⟨h1, h1', e1, e2, _, _, e3⟩, _, ⟨sc, hsc, hsck, hs', _, hsl⟩, _, _, hrec⟩ :=
    invisible_child_skipped sampleTemplates false emptyRequest sampleHeap sampleHeapWithout 0 4
      _ _ _ sampleForest 9 [] rfl rfl sampleHeap_represents (by decide) rfl rfl rfl rfl rfl
      sampleHeapWithout_represents (by decide) (by decide)
  have hsc9 : sc = 9 := hsck (by decide)
  subst hsc9
  exact ⟨⟨h1, h1', _, e1, e2, e3⟩, hsc, hs'.trans (by decide), hsl.trans (by decide),
    (hrec (by decide)).2⟩

theorem renderHtml_type_eq (T : Templates) (p : ConfigItem) (type : Str) (a : Bool) (v : Str) :
    TextParameter.renderHtml_type T p type a v
      = fillFormParam T (p.label.getD []) type p._id (p.placeholder.getD [])
          (snprintf5 p._length) (if a then v else cstr p.valueBuffer) (p.customHtml.getD [])
          (if p.errorMessage = none then [] else "de".toList) (p.errorMessage.getD []) := by
  simp only [TextParameter.renderHtml_type, fillFormParam, ConfigItem.getId,
    ConfigItem.getLength]
  cases p.placeholder <;> cases p.customHtml <;> cases p.errorMessage <;> cases a <;> rfl

/-- C13 as stated fails when `dataArrived` is false and the request carries
the argument: the buffer holds "stored", the request carries "typed", and the
rendered text has "typed" in place of `{v}`, not "stored". -/
theorem TextParameter_renderHtml_shows_posted :
    (TextParameter.renderHtml sampleTemplates
        (sampleParameter Kind.text ("stored".toList ++ [NUL]) 7 none) false typedRequest).2
      = "<div class=''><label for='id'>Label</label><input type='text' id='id' value='typed' /></div>".toList
    ∧ (TextParameter.renderHtml sampleTemplates
        (sampleParameter Kind.text ("stored".toList ++ [NUL]) 7 none) false typedRequest).2
      ≠ fillFormParam sampleTemplates "Label".toList "text".toList "id".toList [] "7".toList
          "stored".toList [] [] [] := by
  decide

/-- C13, amended: for a `TextParameter` and a `NumberParameter`,
`renderHtml(dataArrived, request)` replaces `{v}` by the request's argument
for the id whenever the request has that argument, whatever `dataArrived`
is, and by the C string in the buffer otherwise; the object is left as it
is. -/
theorem TextParameter_renderHtml_value (T : Templates) (p : ConfigItem) (d : Bool)
    (w : WebRequestWrapper) (hk : p.kind = Kind.text ∨ p.kind = Kind.number) :
    (TextParameter.renderHtml T p d w).2
      = fillFormParam T (p.label.getD []) (if p.kind = Kind.number then "number".toList
            else "text".toList) p._id (p.placeholder.getD [])
          (snprintf5 p._length)
          (if w.hasArg p._id then w.arg p._id else cstr p.valueBuffer)
          (p.customHtml.getD [])
          (if p.errorMessage = none then [] else "de".toList) (p.errorMessage.getD [])
    ∧ (TextParameter.renderHtml T p d w).1 = p := by
  rcases hk with hk | hk
  · simp only [TextParameter.renderHtml, Parameter.renderHtml_post, hk,
      TextParameter.renderHtml_post, renderHtml_type_eq, ConfigItem.getId]
    simp
  · simp only [TextParameter.renderHtml, Parameter.renderHtml_post, hk,
      NumberParameter.renderHtml_post, renderHtml_type_eq, ConfigItem.getId]
    simp

/-- Witness of `TextParameter_renderHtml_value`: a number parameter with the
buffer "42" and a request without arguments shows "42". -/
theorem TextParameter_renderHtml_value_witness :
    (TextParameter.renderHtml sampleTemplates
        (sampleParameter Kind.number ("42".toList ++ [NUL]) 3 none) true emptyRequest).2
      = fillFormParam sampleTemplates "Label".toList "number".toList "id".toList [] "3".toList
          "42".toList [] [] [] :=
  (TextParameter_renderHtml_value sampleTemplates
    (sampleParameter Kind.number ("42".toList ++ [NUL]) 3 none) true emptyRequest
    (Or.inr rfl)).1.trans (by decide)

/-- C16 as stated fails for a newline in the middle of a buffer: with the
flag not set, one buffer write of the bytes "a", newline, "b" passes exactly
these three bytes on; the output "> " of the callback is not inserted behind
the newline. -/
theorem PrefixStreamWrapper_newline_inside_buffer :
    ((PrefixStreamWrapper.new [] (printing samplePrefix) () false).writeAll byteSink
        [WriteCall.buffer [97, 10, 98]])._originalStream = [97, 10, 98]
    ∧ ((PrefixStreamWrapper.new [] (printing samplePrefix) () false).writeAll byteSink
        [WriteCall.buffer [97, 10, 98]])._originalStream ≠ [97, 10, 62, 32, 98] := by
  decide

theorem writeAll_sink {σ : Type} (f : σ → Nat × List Nat × σ) :
    ∀ (calls : List WriteCall) (out : List Nat) (st : σ) (flag : Bool),
      ((PrefixStreamWrapper.new out (printing f) st flag).writeAll byteSink calls)._originalStream
        = out ++ prefixed f flag st calls := by
  intro calls
  induction calls with
  | nil => intro out st flag; simp [PrefixStreamWrapper.writeAll, prefixed, PrefixStreamWrapper.new]
  | cons call calls ih =>
    intro out st flag
    cases call with
    | byte data =>
      have hstep : ((PrefixStreamWrapper.new out (printing f) st flag).write byteSink data).2
          = PrefixStreamWrapper.new (out ++ (if flag then (f st).2.1 else []) ++ [data])
              (printing f) (if flag then (f st).2.2 else st) (decide (data = 10)) := by
        cases flag <;> by_cases hd : data = 10 <;>
          simp [PrefixStreamWrapper.write, PrefixStreamWrapper.checkNewLine,
            PrefixStreamWrapper.new, byteSink, printing, hd]
      rw [PrefixStreamWrapper.writeAll, hstep, ih]
      simp [prefixed, WriteCall.bytes]
    | buffer bytes =>
      have hstep : ((PrefixStreamWrapper.new out (printing f) st flag).write_buffer byteSink
            bytes).2
          = PrefixStreamWrapper.new (out ++ (if flag then (f st).2.1 else []) ++ bytes)
              (printing f) (if flag then (f st).2.2 else st)
              (decide (bytes.getLast? = some 10)) := by
        cases flag <;> by_cases hd : bytes.getLast? = some 10 <;>
          simp [PrefixStreamWrapper.write_buffer, PrefixStreamWrapper.checkNewLine,
            PrefixStreamWrapper.new, byteSink, printing, hd]
      rw [PrefixStreamWrapper.writeAll, hstep, ih]
      simp [prefixed, WriteCall.bytes]

/-- C16, amended: for a sequence of `write` calls (bytes and non-empty
buffers) the bytes that reach the stream are the written bytes, with the
output of the callback inserted before every call that follows a call whose
last byte is a newline, and before the first call when the flag is set at
the start; a newline inside a buffer gets nothing behind it. -/
theorem PrefixStreamWrapper_writeAll_output {σ : Type} (f : σ → Nat × List Nat × σ)
    (calls : List WriteCall) (out : List Nat) (st : σ) (flag : Bool)
    (_hne : ∀ call ∈ calls, call.bytes ≠ []) :
    ((PrefixStreamWrapper.new out (printing f) st flag).writeAll byteSink calls)._originalStream
      = out ++ prefixed f flag st calls :=
  writeAll_sink f calls out st flag

/-- Witness of `PrefixStreamWrapper_writeAll_output`: the calls "a" newline
(a buffer), "b" (a byte), "c" newline "d" (a buffer), "e" (a byte). -/
theorem PrefixStreamWrapper_writeAll_output_witness :
    ((PrefixStreamWrapper.new [] (printing samplePrefix) () false).writeAll byteSink
        [WriteCall.buffer [97, 10], WriteCall.byte 98, WriteCall.buffer [99, 10, 100],
          WriteCall.byte 101])._originalStream
      = [97, 10, 62, 32, 98, 99, 10, 100, 101] :=
  (PrefixStreamWrapper_writeAll_output samplePrefix
    [WriteCall.buffer [97, 10], WriteCall.byte 98, WriteCall.buffer [99, 10, 100],
      WriteCall.byte 101] [] () false (by decide)).trans (by decide)

theorem Cleared_represents {h0 h : Heap} {ls : List Ptr} (hc : Cleared h0 h ls) (F : Forest)
    (cur : Option Ptr) (hr : Represents h0 F cur) : Represents h F cur := by
  refine Represents_congr ?_ F cur hr
  intro q it hq
  refine ⟨_, hc q it hq, ?_, ?_, ?_⟩ <;> split <;> rfl

/-- `clearErrorMessage` on a well-formed forest: the calls return and have
cleared the error message of the parameters of the forest and nothing else. -/
theorem clearErrorMessage_loop_forest (h0 : Heap) (F : Forest) :
    ∀ (cur : Option Ptr) (n : Nat) (h : Heap) (ls : List Ptr),
      Represents h0 F cur → Cleared h0 h ls → F.size < n →
      (∃ h', ParameterGroup.clearErrorMessage_loop n cur h = some h' ∧
          Cleared h0 h' (ls ++ F.leaves))
      ∧ ∀ p, cur = some p →
          ∃ h', clearErrorMessage n p h = some h' ∧ Cleared h0 h' (ls ++ F.head.leaves) := by
  induction F with
  | nil =>
    intro cur n h ls hr hc hn
    simp only [Represents] at hr
    subst hr
    obtain ⟨m, rfl⟩ : ∃ m, n = m + 1 := ⟨n - 1, by simp [Forest.size] at hn; omega⟩
    refine ⟨⟨h, by simp [ParameterGroup.clearErrorMessage_loop],
      by simpa [Forest.leaves] using hc⟩, ?_⟩
    intro p hp; cases hp
  | param p next ih =>
    intro cur n h ls hr hc hn
    simp only [Represents] at hr
    obtain ⟨rfl, it, hit, hk, hnext⟩ := hr
    simp only [Forest.size] at hn
    obtain ⟨m, rfl⟩ : ∃ m, n = m + 2 := ⟨n - 2, by omega⟩
    have hcall : ∀ k, ∃ h1, clearErrorMessage (k + 1) p h = some h1 ∧
        Cleared h0 h1 (ls ++ [p]) ∧ h1[p]? = some { it with errorMessage := none } := by
      intro k
      have hp := hc p it hit
      have hk' : (if p ∈ ls then ({ it with errorMessage := none } : ConfigItem) else it).kind
          ≠ Kind.group := by split <;> exact hk
      refine ⟨h.set p { it with errorMessage := none }, ?_, ?_, heap_set_same _ hp⟩
      · simp only [clearErrorMessage, hp, if_neg hk', Parameter.clearErrorMessage]
        split <;> rfl
      · intro q itq hq
        by_cases hqp : q = p
        · subst hqp
          rw [hit] at hq; cases hq
          simp [heap_set_same _ hp]
        · rw [heap_set_other _ hqp, hc q itq hq]
          simp [hqp]
    refine ⟨?_, ?_⟩
    · obtain ⟨h1, hcall1, hc1, hp1⟩ := hcall m
      obtain ⟨h2, hloop, hc2⟩ := (ih it._nextItem (m + 1) h1 (ls ++ [p]) hnext hc1 (by omega)).1
      refine ⟨h2, ?_, by simpa [Forest.leaves] using hc2⟩
      rw [ParameterGroup.clearErrorMessage_loop, hcall1]
      simp only [hp1]
      exact hloop
    · intro q hq
      cases hq
      obtain ⟨h1, hcall1, hc1, _⟩ := hcall (m + 1)
      exact ⟨h1, hcall1, by simpa [Forest.head, Forest.leaves] using hc1⟩
  | group p children next ihc ihn =>
    intro cur n h ls hr hc hn
    simp only [Represents] at hr
    obtain ⟨rfl, it, hit, hk, hch, hnext⟩ := hr
    simp only [Forest.size] at hn
    obtain ⟨m, rfl⟩ : ∃ m, n = m + 3 := ⟨n - 3, by omega⟩
    have hcall : ∀ k, children.size < k → ∃ h1, clearErrorMessage (k + 1) p h = some h1 ∧
        Cleared h0 h1 (ls ++ children.leaves) := by
      intro k hk'
      have hp := hc p it hit
      have hkk : (if p ∈ ls then ({ it with errorMessage := none } : ConfigItem) else it).kind
          = Kind.group := by split <;> exact hk
      have hff : (if p ∈ ls then ({ it with errorMessage := none } : ConfigItem)
          else it)._firstItem = it._firstItem := by split <;> rfl
      obtain ⟨h1, hloop, hc1⟩ := (ihc it._firstItem k h ls hch hc hk').1
      exact ⟨h1, by simp only [clearErrorMessage, hp, hkk, if_true, hff]; exact hloop, hc1⟩
    refine ⟨?_, ?_⟩
    · obtain ⟨h1, hcall1, hc1⟩ := hcall (m + 1) (by omega)
      obtain ⟨h2, hloop, hc2⟩ :=
        (ihn it._nextItem (m + 2) h1 (ls ++ children.leaves) hnext hc1 (by omega)).1
      refine ⟨h2, ?_, by simpa [Forest.leaves] using hc2⟩
      have hp1 := hc1 p it hit
      have hnn : (if p ∈ ls ++ children.leaves then ({ it with errorMessage := none } : ConfigItem)
          else it)._nextItem = it._nextItem := by split <;> rfl
      rw [ParameterGroup.clearErrorMessage_loop, hcall1]
      simp only [hp1, hnn]
      exact hloop
    · intro q hq
      cases hq
      obtain ⟨h1, hcall1, hc1⟩ := hcall (m + 2) (by omega)
      exact ⟨h1, hcall1, by simpa [Forest.head, Forest.leaves] using hc1⟩

theorem Cleared_refl (h : Heap) : Cleared h h [] := by
  intro q it hq
  simpa using hq

/-- C18: `clearErrorMessage()` on the object at `root` of a well-formed tree
returns; afterwards every parameter of the tree has a `NULL` error message,
and every object still has its buffer (all its other members indeed). When
rendering a text-like or a select parameter, `{s}` and `{e}` are both
replaced by the empty string exactly when the error message is `NULL`;
for a message `m`, `{s}` is replaced by the class "de" and `{e}` by `m`. -/
theorem clearErrorMessage_lifecycle (T : Templates) (h : Heap) (root : Ptr) (F : Forest)
    (n : Nat) (p : ConfigItem) (type : Str) (d a : Bool) (v : Str)
    (hr : Represents h F (some root)) (hn : F.size < n) :
    (∃ h', clearErrorMessage n root h = some h' ∧ Cleared h h' F.head.leaves ∧
        (∀ q ∈ F.head.leaves, ∃ it' : ConfigItem, h'[q]? = some it' ∧ it'.errorMessage = none) ∧
        (∀ (q : Ptr) (it : ConfigItem), h[q]? = some it →
          ∃ it' : ConfigItem, h'[q]? = some it' ∧ it'.valueBuffer = it.valueBuffer ∧
            { it' with errorMessage := none } = { it with errorMessage := none }))
    ∧ (∃ s e : Str,
        TextParameter.renderHtml_type T p type a v
          = fillFormParam T (p.label.getD []) type p._id (p.placeholder.getD [])
              (snprintf5 p._length) (if a then v else cstr p.valueBuffer) (p.customHtml.getD [])
              s e
        ∧ SelectParameter.renderHtml_post T p d a v
          = fillSelectParam T (p.label.getD []) p._id (p.customHtml.getD []) s e
              (SelectParameter.renderOptions T p a v p._optionCount 0 [])
        ∧ ((s = [] ∧ e = []) ↔ p.errorMessage = none)
        ∧ (∀ m, p.errorMessage = some m → s = "de".toList ∧ e = m)) := by
  refine ⟨?_, ?_⟩
  · obtain ⟨h', hclear, hc⟩ :=
      (clearErrorMessage_loop_forest h F (some root) n h [] hr (Cleared_refl h) hn).2 root rfl
    simp only [List.nil_append] at hc
    refine ⟨h', hclear, hc, ?_, ?_⟩
    · intro q hq
      obtain ⟨it, hit, _⟩ := Represents_leaves F _ hr q (head_leaves_subset F q hq)
      exact ⟨_, hc q it hit, by simp [hq]⟩
    · intro q it hit
      refine ⟨_, hc q it hit, ?_, ?_⟩ <;> split <;> rfl
  · refine ⟨if p.errorMessage = none then [] else "de".toList, p.errorMessage.getD [],
      renderHtml_type_eq T p type a v, ?_, ?_, ?_⟩
    · simp only [SelectParameter.renderHtml_post, fillSelectParam, ConfigItem.getId]
      cases p.customHtml <;> cases p.errorMessage <;> rfl
    · cases p.errorMessage with
      | none => simp
      | some m => simp
    · intro m hm
      simp [hm]

/-- Witness of `clearErrorMessage_lifecycle` on `sampleHeapErrors`: the two
messages are gone afterwards. -/
theorem clearErrorMessage_lifecycle_witness :
    ∃ h', clearErrorMessage 9 0 sampleHeapErrors = some h' ∧
      ∀ q ∈ [1, 3, 4], ∃ it' : ConfigItem, h'[q]? = some it' ∧ it'.errorMessage = none := by
  obtain ⟨⟨h', h1, _, h2, _⟩, _⟩ :=
    clearErrorMessage_lifecycle sampleTemplates sampleHeapErrors 0
      (Forest.group 0 sampleForest Forest.nil) 9 sampleSelect [] false false []
      ⟨rfl, _, rfl, rfl,
        ⟨rfl, _, rfl, by decide, rfl, _, rfl, rfl, ⟨rfl, _, rfl, by decide, rfl⟩,
          ⟨rfl, _, rfl, by decide, rfl⟩⟩, rfl⟩
      (by decide)
  exact ⟨h', h1, h2⟩

theorem childSizes_of_lengthAt (h h' : Heap) (F : Forest) :
    (∀ q ∈ F.leaves, lengthAt h' q = lengthAt h q) → F.childSizes h' = F.childSizes h := by
  induction F with
  | nil => intro _; rfl
  | param p next ih =>
    intro hs
    simp [Forest.childSizes, hs p (by simp [Forest.leaves]),
      ih (fun q hq => hs q (by simp [Forest.leaves, hq]))]
  | group p children next ihc ihn =>
    intro hs
    simp [Forest.childSizes, ihc (fun q hq => hs q (by simp [Forest.leaves, hq])),
      ihn (fun q hq => hs q (by simp [Forest.leaves, hq]))]

/-- The virtual `getStorageSize()` on the first item of a well-formed chain. -/
theorem getStorageSize_item (h : Heap) (F : Forest) (root : Ptr) (n : Nat)
    (hr : Represents h F (some root)) (hn : F.size < n) :
    getStorageSize h n root = some (F.head.childSizes h).sum := by
  have hF := (getStorageSize_loop_forest h F (some root) n 0 hr hn).2
  cases F with
  | nil => simp [Represents] at hr
  | param p next =>
    obtain ⟨hp, _⟩ := hr
    cases hp
    simp only [Forest.tops, Forest.childSizes] at hF
    cases hF with
    | cons hhead _ => simpa [Forest.head, Forest.childSizes] using hhead
  | group p children next =>
    obtain ⟨hp, _⟩ := hr
    cases hp
    simp only [Forest.tops, Forest.childSizes] at hF
    cases hF with
    | cons hhead _ => simpa [Forest.head, Forest.childSizes] using hhead

/-- The virtual `renderHtml` call on the first item of a well-formed chain
returns and assigns nothing but the `customHtml` of checkboxes. -/
theorem renderHtml_item (T : Templates) (d : Bool) (w : WebRequestWrapper) (h : Heap)
    (F : Forest) (root : Ptr) (n : Nat) (out : List Str)
    (hr : Represents h F (some root)) (hn : F.size < n) :
    ∃ h' out', renderHtml T d w n root (h, out) = some (h', out') ∧ CustomOnly h h' := by
  cases F with
  | nil => simp [Represents] at hr
  | param p next =>
    obtain ⟨hp, it, hit, hk, _⟩ := hr
    cases hp
    obtain ⟨m, rfl⟩ : ∃ m, n = m + 1 := ⟨n - 1, by simp [Forest.size] at hn; omega⟩
    obtain ⟨h', hcall, hc⟩ := render_param_call T d w h root it hit hk m h out (CustomOnly_refl h)
    exact ⟨h', _, hcall, hc⟩
  | group p children next =>
    obtain ⟨hp, it, hit, hk, hch, _⟩ := hr
    cases hp
    obtain ⟨m, rfl⟩ : ∃ m, n = m + 1 := ⟨n - 1, by simp [Forest.size] at hn; omega⟩
    obtain ⟨h', hcall, hc⟩ := render_group_call T d w h root it children hit hk m
      (fun x o hx => renderHtml_loop_forest T d w h children _ m x o hch hx
        (by simp [Forest.size] at hn; omega))
      h out (CustomOnly_refl h)
    exact ⟨h', _, hcall, hc⟩

/-- C19: `renderHtml` on the object at `root` of a well-formed tree returns,
and every object keeps its buffer, capacity, default value and error message
(all its members but `customHtml`, which changes for checkboxes only); so
`getStorageSize()` returns the same value and `storeValue` passes the same
records to its callback before and after the rendering. -/
theorem renderHtml_read_only (T : Templates) (d : Bool) (w : WebRequestWrapper) (h : Heap)
    (root : Ptr) (F : Forest) (n : Nat) (out : List Str)
    (hr : Represents h F (some root)) (hn : F.size < n) :
    ∃ h' out', renderHtml T d w n root (h, out) = some (h', out') ∧
      (∀ (q : Ptr) (it : ConfigItem), h[q]? = some it →
        ∃ c : Option Str, h'[q]? = some { it with customHtml := c } ∧
          (it.kind ≠ Kind.checkbox → c = it.customHtml)) ∧
      (∀ (q : Ptr) (it : ConfigItem), h[q]? = some it →
        ∃ it' : ConfigItem, h'[q]? = some it' ∧ it'.valueBuffer = it.valueBuffer ∧
          it'._length = it._length ∧ it'.defaultValue = it.defaultValue ∧
          it'.errorMessage = it.errorMessage) ∧
      (∃ size : Int, getStorageSize h n root = some size ∧ getStorageSize h' n root = some size) ∧
      (∃ log : List SerializationData,
        storeValue recorder n root (h, []) = some (h, log) ∧
        storeValue recorder n root (h', []) = some (h', log)) := by
  obtain ⟨h', out', hrender, hc⟩ := renderHtml_item T d w h F root n out hr hn
  have hr' := CustomOnly_represents hc F _ hr
  have hlen : ∀ q ∈ F.leaves, lengthAt h' q = lengthAt h q ∧ bufferAt h' q = bufferAt h q := by
    intro q hq
    obtain ⟨it, hit, _⟩ := Represents_leaves F _ hr q hq
    obtain ⟨c, hc', _⟩ := hc q it hit
    simp [lengthAt, bufferAt, hit, hc']
  refine ⟨h', out', hrender, hc, ?_, ?_, ?_⟩
  · intro q it hit
    obtain ⟨c, hc', _⟩ := hc q it hit
    exact ⟨_, hc', rfl, rfl, rfl, rfl⟩
  · refine ⟨_, getStorageSize_item h F root n hr hn, ?_⟩
    rw [getStorageSize_item h' F root n hr' hn]
    rw [childSizes_of_lengthAt h h' F.head
      (fun q hq => (hlen q (head_leaves_subset F q hq)).1)]
  · have hs := (storeValue_loop_forest recorder (fun _ _ => rfl) h F _ n [] hr hn).2 root rfl
    have hs' := (storeValue_loop_forest recorder (fun _ _ => rfl) h' F _ n [] hr' hn).2 root rfl
    rw [foldl_recorder] at hs hs'
    refine ⟨_, hs, ?_⟩
    rw [hs']
    have : F.head.leaves.map (recordAt h') = F.head.leaves.map (recordAt h) := by
      apply List.map_congr_left
      intro q hq
      obtain ⟨h1, h2⟩ := hlen q (head_leaves_subset F q hq)
      simp [recordAt, h1, h2]
    rw [this]

/-- Witness of `renderHtml_read_only` on `sampleHeap`. -/
theorem renderHtml_read_only_witness :
    ∃ h' out', renderHtml sampleTemplates true typedRequest 9 0 (sampleHeap, []) = some (h', out') ∧
      (∃ size : Int, getStorageSize sampleHeap 9 0 = some size ∧
        getStorageSize h' 9 0 = some size) := by
  obtain ⟨h', out', h1, _, _, h2, _⟩ :=
    renderHtml_read_only sampleTemplates true typedRequest sampleHeap 0
      (Forest.group 0 sampleForest Forest.nil) 9 [] sampleHeap_root_represents (by decide)
  exact ⟨h', out', h1, h2⟩

theorem cyclicHeap_loop : ∀ (n : Nat) (size : Int),
    ParameterGroup.getStorageSize_loop cyclicHeap n (some 2) size = none := by
  intro n
  induction n with
  | zero => intro size; rfl
  | succ n ih =>
    intro size
    rw [ParameterGroup.getStorageSize_loop]
    cases getStorageSize cyclicHeap n 2 with
    | none => rfl
    | some s =>
      have hx : cyclicHeap[2]? = some
          { sampleParameter Kind.text ("ab".toList ++ [NUL, NUL]) 4 none with
            _nextItem := some 2, _parentItem := some 0 } := rfl
      simp only [hx]
      exact ih _

/-- C14: `g.addItem(x)` twice on an empty group `g` and a fresh item `x`. The
first call returns before it sets the parent of `x`, so the second call
passes the guard and links `x` behind the last child, which is `x` itself:
`x` is its own next sibling, and `getStorageSize()` of the group does not
return, whatever the fuel. -/
theorem addItem_twice_makes_cycle :
    (ParameterGroup.addItem twoGroups 3 0 2).bind (fun h1 => ParameterGroup.addItem h1 3 0 2)
      = some cyclicHeap
    ∧ (cyclicHeap[2]?).map ConfigItem._nextItem = some (some 2)
    ∧ ∀ n : Nat, getStorageSize cyclicHeap n 0 = none := by
  refine ⟨by decide, by decide, ?_⟩
  intro n
  cases n with
  | zero => rfl
  | succ n =>
    have hg : cyclicHeap[0]? = some
        { ParameterGroup.new "g1".toList (some "G1".toList) with _firstItem := some 2 } := rfl
    rw [getStorageSize]
    simp only [hg]
    exact cyclicHeap_loop n 0

/-- A chain stays a chain when its members keep their `_nextItem`. -/
theorem Chain_congr {h h' : Heap} (ps : List Ptr) :
    ∀ cur, (∀ q ∈ ps, ∀ it : ConfigItem, h[q]? = some it →
        ∃ it' : ConfigItem, h'[q]? = some it' ∧ it'._nextItem = it._nextItem) →
      Chain h ps cur → Chain h' ps cur := by
  induction ps with
  | nil => intro cur _ hc; exact hc
  | cons p ps ih =>
    intro cur hl hc
    obtain ⟨hcur, it, hit, hnext⟩ := hc
    obtain ⟨it', hit', hn'⟩ := hl p (List.mem_cons_self _ _) it hit
    exact ⟨hcur, it', hit', by
      rw [hn']; exact ih _ (fun q hq => hl q (List.mem_cons_of_mem _ hq)) hnext⟩

/-- The loop of `addItem` on a chain stops at a member of the chain; linking
an item without next sibling behind that member extends the chain. -/
theorem addItem_loop_on_chain (x : Ptr) (xi : ConfigItem) :
    ∀ (ps : List Ptr) (h : Heap) (d : Ptr) (fuel : Nat),
      Chain h (d :: ps) (some d) → (d :: ps).Nodup → x ∉ d :: ps →
      h[x]? = some xi → xi._nextItem = none → ps.length < fuel →
      ∃ last c, ParameterGroup.addItem_loop h fuel d = some last ∧ h[last]? = some c ∧
        last ∈ d :: ps ∧
        Chain (h.set last { c with _nextItem := some x }) (d :: ps ++ [x]) (some d) := by
  intro ps
  induction ps with
  | nil =>
    intro h d fuel hc _ hx hxi hn hf
    obtain ⟨_, it, hit, hnext⟩ := hc
    simp only [Chain] at hnext
    obtain ⟨m, rfl⟩ : ∃ m, fuel = m + 1 := ⟨fuel - 1, by simp at hf; omega⟩
    have hxd : x ≠ d := fun e => hx (by simp [e])
    refine ⟨d, it, by simp [ParameterGroup.addItem_loop, hit, hnext], hit, by simp, ?_⟩
    refine ⟨rfl, _, heap_set_same _ hit, rfl, xi, ?_, ?_⟩
    · rw [heap_set_other _ hxd]; exact hxi
    · rw [hn]; rfl
  | cons d2 ps ih =>
    intro h d fuel hc hnd hx hxi hn hf
    obtain ⟨_, it, hit, hnext⟩ := hc
    have hd2 : it._nextItem = some d2 := hnext.1
    rw [hd2] at hnext
    obtain ⟨m, rfl⟩ : ∃ m, fuel = m + 1 := ⟨fuel - 1, by simp at hf; omega⟩
    have hnd2 : (d2 :: ps).Nodup := (List.nodup_cons.mp hnd).2
    have hx2 : x ∉ d2 :: ps := fun e => hx (List.mem_cons_of_mem _ e)
    obtain ⟨last, c, hloop, hlast, hmem, hrep⟩ :=
      ih h d2 m hnext hnd2 hx2 hxi hn (by simp at hf; omega)
    have hld : last ≠ d := fun e => (List.nodup_cons.mp hnd).1 (e ▸ hmem)
    refine ⟨last, c, by simp [ParameterGroup.addItem_loop, hit, hd2, hloop], hlast,
      List.mem_cons_of_mem _ hmem, ?_⟩
    refine ⟨rfl, it, ?_, ?_⟩
    · rw [heap_set_other _ (Ne.symm hld)]; exact hit
    · rw [hd2]; exact hrep

/-- One `addItem(x)` on a group whose children are `ps`, for an item `x`
without parent and next sibling that is not among them: the call returns, the
children are `ps ++ [x]`, and an object changes at most in `_firstItem` (the
group), in `_nextItem` (a member of `ps`) or in `_parentItem` (the item). -/
theorem addItem_flat (h : Heap) (fuel : Nat) (g x : Ptr) (grp xi : ConfigItem) (ps : List Ptr)
    (hg : h[g]? = some grp) (hch : Chain h ps grp._firstItem) (hnd : ps.Nodup) (hxp : x ∉ ps)
    (hx : h[x]? = some xi) (hnx : xi._nextItem = none) (hpar : xi._parentItem = none)
    (hf : ps.length ≤ fuel) :
    ∃ h', ParameterGroup.addItem h fuel g x = some h' ∧
      (∃ grp' : ConfigItem, h'[g]? = some grp' ∧ Chain h' (ps ++ [x]) grp'._firstItem) ∧
      (∀ (q : Ptr) (it : ConfigItem), h[q]? = some it →
        ∃ it' : ConfigItem, h'[q]? = some it' ∧ it'.unlinked = it.unlinked ∧
          (q ≠ g → it'._firstItem = it._firstItem) ∧
          (q ∉ ps → it'._nextItem = it._nextItem) ∧
          (q ≠ x → it'._parentItem = it._parentItem)) := by
  cases ps with
  | nil =>
    simp only [Chain] at hch
    refine ⟨h.set g { grp with _firstItem := some x }, ?_, ?_, ?_⟩
    · simp [ParameterGroup.addItem, hx, hg, hpar, hch]
    · refine ⟨_, heap_set_same _ hg, rfl, ?_⟩
      by_cases hxg : x = g
      · subst hxg
        rw [hg] at hx; cases hx
        exact ⟨_, heap_set_same _ hg, by rw [hnx]; rfl⟩
      · exact ⟨xi, by rw [heap_set_other _ hxg]; exact hx, by rw [hnx]; rfl⟩
    · intro q it hq
      by_cases hqg : q = g
      · subst hqg
        rw [hg] at hq; cases hq
        exact ⟨_, heap_set_same _ hg, rfl, fun e => absurd rfl e, fun _ => rfl, fun _ => rfl⟩
      · exact ⟨it, by rw [heap_set_other _ hqg]; exact hq, rfl, fun _ => rfl, fun _ => rfl,
          fun _ => rfl⟩
  | cons d ds =>
    have hfirst : grp._firstItem = some d := hch.1
    rw [hfirst] at hch
    obtain ⟨last, c, hloop, hlast, hmem, hch1⟩ :=
      addItem_loop_on_chain x xi ds h d fuel hch hnd hxp hx hnx (by simp at hf; omega)
    have hxl : x ≠ last := fun e => hxp (e ▸ hmem)
    have hx1 : (h.set last { c with _nextItem := some x })[x]? = some xi := by
      rw [heap_set_other _ hxl]; exact hx
    refine ⟨(h.set last { c with _nextItem := some x }).set x { xi with _parentItem := some g },
      ?_, ?_, ?_⟩
    · simp [ParameterGroup.addItem, hx, hg, hpar, hfirst, hloop, hlast, hx1]
    · have hchain : Chain ((h.set last { c with _nextItem := some x }).set x
          { xi with _parentItem := some g }) (d :: ds ++ [x]) (some d) := by
        refine Chain_congr _ _ ?_ hch1
        intro q _ it hq
        by_cases hqx : q = x
        · subst hqx
          rw [hx1] at hq; cases hq
          exact ⟨_, heap_set_same _ hx1, rfl⟩
        · exact ⟨it, by rw [heap_set_other _ hqx]; exact hq, rfl⟩
      by_cases hgx : g = x
      · subst hgx
        rw [hg] at hx; cases hx
        exact ⟨_, heap_set_same _ hx1, by simpa [hfirst] using hchain⟩
      · by_cases hgl : g = last
        · subst hgl
          rw [hg] at hlast; cases hlast
          refine ⟨{ grp with _nextItem := some x }, ?_, ?_⟩
          · rw [heap_set_other _ hgx]; exact heap_set_same _ hg
          · simpa [hfirst] using hchain
        · refine ⟨grp, ?_, by simpa [hfirst] using hchain⟩
          rw [heap_set_other _ hgx, heap_set_other _ hgl]; exact hg
    · intro q it hq
      by_cases hqx : q = x
      · subst hqx
        rw [hx] at hq; cases hq
        exact ⟨_, heap_set_same _ hx1, rfl, fun _ => rfl, fun _ => rfl, fun e => absurd rfl e⟩
      · by_cases hql : q = last
        · subst hql
          rw [hlast] at hq; cases hq
          refine ⟨{ c with _nextItem := some x }, ?_, rfl, fun _ => rfl,
            fun e => absurd hmem e, fun _ => rfl⟩
          rw [heap_set_other _ hqx]; exact heap_set_same _ hlast
        · exact ⟨it, by rw [heap_set_other _ hqx, heap_set_other _ hql]; exact hq, rfl,
            fun _ => rfl, fun _ => rfl, fun _ => rfl⟩

theorem itemsFor_append (a b : List (Ptr × Ptr)) (g : Ptr) :
    itemsFor (a ++ b) g = itemsFor a g ++ itemsFor b g := by
  simp [itemsFor]

theorem itemsFor_single_same (g x : Ptr) : itemsFor [(g, x)] g = [x] := by
  simp [itemsFor]

theorem itemsFor_single_other (g x q : Ptr) (hq : q ≠ g) : itemsFor [(g, x)] q = [] := by
  simp [itemsFor, Ne.symm hq]

theorem mem_itemsFor {cs : List (Ptr × Ptr)} {g r : Ptr} :
    r ∈ itemsFor cs g ↔ (g, r) ∈ cs := by
  simp only [itemsFor, List.mem_map, List.mem_filter, decide_eq_true_eq]
  constructor
  · rintro ⟨⟨a, b⟩, ⟨hm, ha⟩, hb⟩
    simp only at ha hb
    subst ha; subst hb
    exact hm
  · intro hm
    exact ⟨(g, r), ⟨hm, rfl⟩, rfl⟩

theorem itemsFor_subset {cs : List (Ptr × Ptr)} {g r : Ptr} (h : r ∈ itemsFor cs g) :
    r ∈ cs.map Prod.snd :=
  List.mem_map.mpr ⟨(g, r), mem_itemsFor.mp h, rfl⟩

theorem itemsFor_nodup {cs : List (Ptr × Ptr)} (g : Ptr) (h : (cs.map Prod.snd).Nodup) :
    (itemsFor cs g).Nodup :=
  List.Nodup.sublist (List.Sublist.map _ (List.filter_sublist _)) h

theorem itemsFor_disjoint {cs : List (Ptr × Ptr)} {g g' r : Ptr}
    (h : (cs.map Prod.snd).Nodup) (h1 : r ∈ itemsFor cs g) (h2 : r ∈ itemsFor cs g') :
    g = g' := by
  have := List.inj_on_of_nodup_map h (mem_itemsFor.mp h1) (mem_itemsFor.mp h2) rfl
  exact congrArg Prod.fst this

theorem FlatInv_refl (h0 : Heap) : FlatInv h0 h0 [] := by
  intro q it0 hq
  refine ⟨it0, hq, rfl, ?_, fun _ => ⟨rfl, rfl⟩⟩
  intro hf
  simp [itemsFor, Chain, hf]

/-- One more call keeps the invariant. -/
theorem FlatInv_step (h0 h : Heap) (fuel : Nat) (done : List (Ptr × Ptr)) (g x : Ptr)
    (hinv : FlatInv h0 h done) (hnd : ((done ++ [(g, x)]).map Prod.snd).Nodup)
    (hg : ∃ grp : ConfigItem, h0[g]? = some grp ∧ grp._firstItem = none)
    (hx : ∃ xi : ConfigItem, h0[x]? = some xi ∧ xi._nextItem = none ∧ xi._parentItem = none)
    (hf : done.length ≤ fuel) :
    ∃ h', ParameterGroup.addItem h fuel g x = some h' ∧ FlatInv h0 h' (done ++ [(g, x)]) := by
  obtain ⟨grp0, hg0, hgf⟩ := hg
  obtain ⟨xi0, hx0, hxn, hxp⟩ := hx
  have hnd' : (done.map Prod.snd).Nodup ∧ x ∉ done.map Prod.snd := by
    rw [List.map_append, List.nodup_append] at hnd
    refine ⟨hnd.1, fun e => hnd.2.2 e (by simp)⟩
  obtain ⟨grp, hgh, _, hgc, _⟩ := hinv g grp0 hg0
  obtain ⟨xi, hxh, _, _, hxq⟩ := hinv x xi0 hx0
  obtain ⟨hxn', hxp'⟩ := hxq hnd'.2
  have hps : (itemsFor done g).length ≤ fuel := by
    have : (itemsFor done g).length ≤ done.length := by
      simp only [itemsFor, List.length_map]
      exact List.length_filter_le _ _
    omega
  obtain ⟨h', hadd, ⟨grp', hg', hch'⟩, hsum⟩ :=
    addItem_flat h fuel g x grp xi (itemsFor done g) hgh (hgc hgf)
      (itemsFor_nodup g hnd'.1) (fun e => hnd'.2 (itemsFor_subset e)) hxh
      (by rw [hxn', hxn]) (by rw [hxp', hxp]) hps
  refine ⟨h', hadd, ?_⟩
  intro q it0 hq0
  obtain ⟨it, hqh, hu, hc, hp⟩ := hinv q it0 hq0
  obtain ⟨it', hq', hu', hfirst, hnext, hparent⟩ := hsum q it hqh
  refine ⟨it', hq', hu'.trans hu, ?_, ?_⟩
  · intro hf0
    by_cases hqg : q = g
    · subst hqg
      rw [hg'] at hq'; cases hq'
      rw [itemsFor_append, itemsFor_single_same]
      exact hch'
    · rw [itemsFor_append, itemsFor_single_other g x q hqg, List.append_nil, hfirst hqg]
      refine Chain_congr _ _ ?_ (hc hf0)
      intro r hr itr hrh
      obtain ⟨itr', hr', _, _, hrn, _⟩ := hsum r itr hrh
      exact ⟨itr', hr', hrn (fun e => hqg (itemsFor_disjoint hnd'.1 hr e))⟩
  · intro hqn
    have hqd : q ∉ done.map Prod.snd := fun e => hqn (by simp [List.map_append]; exact Or.inl (by simpa using e))
    have hqx : q ≠ x := fun e => hqn (by simp [e])
    obtain ⟨h1, h2⟩ := hp hqd
    exact ⟨(hnext (fun e => hqd (itemsFor_subset e))).trans h1, (hparent hqx).trans h2⟩

/-- A sequence of calls, each adding an item that was constructed without
parent and next sibling and that no other call adds, to an object that was
constructed without first child: the calls return and the invariant holds. -/
theorem addCalls_flat (h0 : Heap) (fuel : Nat) :
    ∀ (cs done : List (Ptr × Ptr)) (h : Heap),
      ((done ++ cs).map Prod.snd).Nodup →
      (∀ c ∈ cs, ∃ grp : ConfigItem, h0[c.1]? = some grp ∧ grp._firstItem = none) →
      (∀ c ∈ cs, ∃ xi : ConfigItem, h0[c.2]? = some xi ∧ xi._nextItem = none ∧
        xi._parentItem = none) →
      (done ++ cs).length ≤ fuel → FlatInv h0 h done →
      ∃ h', addCalls fuel cs h = some h' ∧ FlatInv h0 h' (done ++ cs) := by
  intro cs
  induction cs with
  | nil =>
    intro done h _ _ _ _ hinv
    exact ⟨h, rfl, by simpa using hinv⟩
  | cons c cs ih =>
    intro done h hnd hg hx hf hinv
    obtain ⟨g, x⟩ := c
    have hnd1 : ((done ++ [(g, x)]).map Prod.snd).Nodup := by
      have : ((done ++ [(g, x)] ++ cs).map Prod.snd).Nodup := by simpa using hnd
      rw [List.map_append] at this
      exact (List.nodup_append.mp this).1
    obtain ⟨h1, hadd, hinv1⟩ := FlatInv_step h0 h fuel done g x hinv hnd1
      (hg (g, x) (List.mem_cons_self _ _)) (hx (g, x) (List.mem_cons_self _ _))
      (by simp at hf; omega)
    obtain ⟨h2, hrest, hinv2⟩ := ih (done ++ [(g, x)]) h1 (by simpa using hnd)
      (fun c hc => hg c (List.mem_cons_of_mem _ hc))
      (fun c hc => hx c (List.mem_cons_of_mem _ hc)) (by simpa using hf) hinv1
    refine ⟨h2, ?_, by simpa using hinv2⟩
    simp [addCalls, hadd, hrest]

/-- After the calls, the heap holds the forest that the calls build. -/
theorem represents_of_flat (h0 h : Heap) (cs : List (Ptr × Ptr)) (hinv : FlatInv h0 h cs)
    (F : Forest) :
    ∀ cur, Fresh h0 F → BuiltBy cs F → Chain h F.tops cur → Represents h F cur := by
  induction F with
  | nil => intro cur _ _ hc; exact hc
  | param p next ih =>
    intro cur hfr hb hc
    obtain ⟨⟨it0, hp0, hk0, _, _⟩, hfrn⟩ := hfr
    obtain ⟨hcur, it, hp, hnext⟩ := hc
    obtain ⟨it', hp', hu, _, _⟩ := hinv p it0 hp0
    rw [hp] at hp'; cases hp'
    have hk : it.kind = it0.kind :=
      (congrArg ConfigItem.kind hu : it.unlinked.kind = it0.unlinked.kind)
    exact ⟨hcur, it, hp, by rw [hk]; exact hk0, ih _ hfrn hb hnext⟩
  | group p children next ihc ihn =>
    intro cur hfr hb hc
    obtain ⟨⟨it0, hp0, hk0, hf0, _, _⟩, hfrc, hfrn⟩ := hfr
    obtain ⟨hitems, hbc, hbn⟩ := hb
    obtain ⟨hcur, it, hp, hnext⟩ := hc
    obtain ⟨it', hp', hu, hch, _⟩ := hinv p it0 hp0
    rw [hp] at hp'; cases hp'
    have hk : it.kind = it0.kind :=
      (congrArg ConfigItem.kind hu : it.unlinked.kind = it0.unlinked.kind)
    refine ⟨hcur, it, hp, by rw [hk]; exact hk0, ihc _ hfrc hbc ?_, ihn _ hfrn hbn hnext⟩
    rw [← hitems]
    exact hch hf0

theorem Fresh_leaves (h0 : Heap) (F : Forest) :
    Fresh h0 F → ∀ q ∈ F.leaves, ∃ it0 : ConfigItem, h0[q]? = some it0 := by
  induction F with
  | nil => intro _ q hq; simp [Forest.leaves] at hq
  | param p next ih =>
    intro hfr q hq
    obtain ⟨⟨it0, hp0, _⟩, hfrn⟩ := hfr
    simp only [Forest.leaves, List.mem_cons] at hq
    rcases hq with rfl | hq
    · exact ⟨it0, hp0⟩
    · exact ih hfrn q hq
  | group p children next ihc ihn =>
    intro hfr q hq
    obtain ⟨_, hfrc, hfrn⟩ := hfr
    simp only [Forest.leaves, List.mem_append] at hq
    rcases hq with hq | hq
    · exact ihc hfrc q hq
    · exact ihn hfrn q hq

theorem hugeTree_represents : Represents hugeTree (Forest.ofParams [1, 2]) (some 1) :=
  ⟨rfl, _, rfl, by decide, rfl, _, rfl, by decide, rfl⟩

/-- C15 as stated fails in its last part when the capacities add up to more
than `INT_MAX`: two fresh parameters of capacities 2147483647 and 1 are added
to an empty group, which gives `hugeTree`; `storeValue` passes records of
the lengths 2147483647 and 1, which sum to 2147483648, and
`getStorageSize()` returns -2147483648. -/
theorem built_tree_sum_overflow :
    addCalls 2 [(0, 1), (0, 2)] hugeHeap = some hugeTree
    ∧ storeValue recorder 4 0 (hugeTree, [])
      = some (hugeTree, [⟨[NUL], 2147483647⟩, ⟨[NUL], 1⟩])
    ∧ getStorageSize hugeTree 4 0 = some (-2147483648)
    ∧ getStorageSize hugeTree 4 0 ≠ some (2147483647 + 1) := by
  refine ⟨by decide, ?_, by decide, by decide⟩
  have hs := (storeValue_loop_forest recorder (fun _ _ => rfl) hugeTree (Forest.ofParams [1, 2])
    (some 1) 3 [] hugeTree_represents (by decide)).1
  rw [foldl_recorder] at hs
  have hg : hugeTree[0]? = some
      { ParameterGroup.new "root".toList (some "Root".toList) with _firstItem := some 1 } := rfl
  have hst : storeValue recorder 4 0 (hugeTree, [])
      = some (hugeTree, [] ++ (Forest.ofParams [1, 2]).leaves.map (recordAt hugeTree)) := by
    rw [storeValue]
    simp only [hg]
    exact hs
  exact hst

/-- C15, amended: a tree built with `addItem`. The calls `cs` add distinct
items, constructed without parent and next sibling, to groups constructed
empty; they give the group at `g` the children `F.tops` and every group of
`F` its children in `F`, in the order of the calls. Then the calls return,
and on the tree `storeValue` and `loadValue` each call the callback once for
every parameter of `F` in depth-first order, with the buffer and the capacity
of that parameter as record. `getStorageSize()` returns the sum of the
lengths of these records reduced to the range of `int` by wrap-around, and so
the sum itself whenever the sum lies in that range. -/
theorem built_tree_traversal (h0 : Heap) (g : Ptr) (grp : ConfigItem) (F : Forest)
    (cs : List (Ptr × Ptr)) (fuel n : Nat)
    (hg : h0[g]? = some grp) (hgk : grp.kind = Kind.group) (hgf : grp._firstItem = none)
    (hitems : (cs.map Prod.snd).Nodup)
    (htargets : ∀ c ∈ cs, ∃ t : ConfigItem, h0[c.1]? = some t ∧ t._firstItem = none)
    (hfresh : ∀ c ∈ cs, ∃ xi : ConfigItem, h0[c.2]? = some xi ∧ xi._nextItem = none ∧
      xi._parentItem = none)
    (hF : Fresh h0 F) (hroot : itemsFor cs g = F.tops) (hbuilt : BuiltBy cs F)
    (hfuel : cs.length ≤ fuel) (hn : F.size + 1 < n) :
    ∃ h', addCalls fuel cs h0 = some h' ∧
      storeValue recorder n g (h', []) = some (h', F.leaves.map (recordAt h0)) ∧
      loadValue recorder n g (h', []) = some (h', F.leaves.map (recordAt h0)) ∧
      getStorageSize h' n g
        = some (wrapInt ((F.leaves.map (recordAt h0)).map SerializationData.length).sum) ∧
      (INT_MIN ≤ ((F.leaves.map (recordAt h0)).map SerializationData.length).sum →
        ((F.leaves.map (recordAt h0)).map SerializationData.length).sum ≤ INT_MAX →
        getStorageSize h' n g
          = some ((F.leaves.map (recordAt h0)).map SerializationData.length).sum) ∧
      (∀ q ∈ F.leaves, recordAt h' q = recordAt h0 q) := by
  obtain ⟨h', hcalls, hinv⟩ := addCalls_flat h0 fuel cs [] h0 (by simpa using hitems)
    htargets hfresh (by simpa using hfuel) (FlatInv_refl h0)
  simp only [List.nil_append] at hinv
  obtain ⟨grp', hg', hgu, hgc, _⟩ := hinv g grp hg
  have hgk' : grp'.kind = Kind.group :=
    ((congrArg ConfigItem.kind hgu : grp'.unlinked.kind = grp.unlinked.kind)).trans hgk
  have hrep : Represents h' F grp'._firstItem :=
    represents_of_flat h0 h' cs hinv F _ hF hbuilt (by rw [← hroot]; exact hgc hgf)
  have hrec : ∀ q ∈ F.leaves, recordAt h' q = recordAt h0 q := by
    intro q hq
    obtain ⟨it0, hq0⟩ := Fresh_leaves h0 F hF q hq
    obtain ⟨it', hit', hu, _, _⟩ := hinv q it0 hq0
    have hb : it'.valueBuffer = it0.valueBuffer :=
      (congrArg ConfigItem.valueBuffer hu : it'.unlinked.valueBuffer = it0.unlinked.valueBuffer)
    have hl : it'._length = it0._length :=
      (congrArg ConfigItem._length hu : it'.unlinked._length = it0.unlinked._length)
    simp [recordAt, bufferAt, lengthAt, hit', hq0, hb, hl]
  obtain ⟨m, rfl⟩ : ∃ m, n = m + 1 := ⟨n - 1, by omega⟩
  have hs := (storeValue_loop_forest recorder (fun _ _ => rfl) h' F _ m [] hrep (by omega)).1
  rw [foldl_recorder, List.nil_append, List.map_congr_left hrec] at hs
  have hst : storeValue recorder (m + 1) g (h', []) = some (h', F.leaves.map (recordAt h0)) := by
    simpa [storeValue, hg', hgk'] using hs
  have hsize := (getStorageSize_loop_forest h' F _ m 0 hrep (by omega)).1
  have hl : F.leaves.map (lengthAt h') = (F.leaves.map (recordAt h0)).map
      SerializationData.length := by
    rw [List.map_map]
    apply List.map_congr_left
    intro q hq
    have := congrArg SerializationData.length (hrec q hq)
    simpa [recordAt] using this
  have hsum : getStorageSize h' (m + 1) g
      = some (wrapInt ((F.leaves.map (recordAt h0)).map SerializationData.length).sum) := by
    rw [← hl, ← childSizes_sum_leaves]
    simp [getStorageSize, hg', hgk', hsize, sumInt_zero]
  refine ⟨h', hcalls, hst, ?_, hsum, ?_, hrec⟩
  · rw [(loadValue_eq_storeValue recorder (m + 1)).1]; exact hst
  · intro hlo hhi
    rw [hsum, wrapInt_of_range _ hlo hhi]

theorem freshTree_fresh : Fresh freshTree sampleForest :=
  ⟨⟨_, rfl, by decide, rfl, rfl⟩,
   ⟨_, rfl, rfl, rfl, rfl, rfl⟩,
   ⟨⟨_, rfl, by decide, rfl, rfl⟩, trivial⟩,
   ⟨_, rfl, by decide, rfl, rfl⟩, trivial⟩

theorem built_tree_traversal_witness :
    ∃ h', addCalls 4 sampleCalls freshTree = some h' ∧
      storeValue recorder 10 0 (h', [])
        = some (h', [⟨"ab".toList ++ [NUL, NUL], 4⟩, ⟨"cdefg".toList ++ [NUL], 6⟩,
            ⟨"selected".toList ++ [NUL], 9⟩]) ∧
      loadValue recorder 10 0 (h', [])
        = some (h', [⟨"ab".toList ++ [NUL, NUL], 4⟩, ⟨"cdefg".toList ++ [NUL], 6⟩,
            ⟨"selected".toList ++ [NUL], 9⟩]) ∧
      getStorageSize h' 10 0 = some 19 :=
  have h := built_tree_traversal freshTree 0 _ sampleForest sampleCalls 4 10 rfl rfl rfl
    (by decide)
    (by decide)
    (by decide)
    freshTree_fresh (by decide) ⟨by decide, trivial, trivial⟩ (by decide) (by decide)
  h.imp fun _ hh => ⟨hh.1, hh.2.1, hh.2.2.1, hh.2.2.2.2.1 (by decide) (by decide)⟩

end iotwebconf
